import Mathlib

/-!
Cooperative tasks and mailboxes of `src/bif_tasks.c`.

A shallow embedding of the task builtins (`recv/1`, `send/1`, `wait/0`,
`await/0`, `yield/0`, `end_wait/0`, `task/N`, `$cancel_future/1`, `do_yield`,
`pop_queue`, `push_task`, `pop_task`) together with the properties checked
against them.

Conventions of the embedding:

* a `query` record carries the fields of the C `query` that the builtins touch;
* the registry `q->tasks` (an intrusive doubly linked list) is the list of its
  members in traversal order, each paired with the address of its record; the
  pointers themselves are modelled apart (`links`) for `push_task` and
  `pop_task`;
* pointers into cell storage are indices into a `List cell`;
* loops that the C code does not bound take a fuel argument, `none` (or
  `finished = false`) meaning that the loop was still running when the fuel
  ran out;
* `CHECK_INTERRUPT()` is not modelled: the runs described are those in which
  no interrupt is pending, and allocation of queue storage does not fail.
-/

namespace Tasks

/-! ## Data model -/

/-- One storage cell. Only `nbr_cells` is read by the task builtins: in the
first cell of a term it is the number of cells the whole term spans. `tag`
stands for the remaining payload of the cell. -/
structure cell where
  nbr_cells : Nat
  tag : Nat
deriving DecidableEq, Repr, Inhabited

/-- The fields of the C `query` used by the task builtins. `curr_cell` is
`st.curr_cell` (`none` is the null pointer); `queue`, `qp` and `popp` are
`queue[0]`, `qp[0]` and `popp`, the mailbox of the query. -/
structure query where
  is_task : Bool
  spawned : Bool
  yielded : Bool
  error : Bool
  done : Bool
  end_wait : Bool
  retry : Bool
  tmo_msecs : Nat
  yield_at : Nat
  future : Nat
  curr_cell : Option Nat
  queue : List cell
  qp : Nat
  popp : Nat
deriving DecidableEq, Repr, Inhabited

/-- The term stored at index `c` of `mem`: the `nbr_cells` cells starting at
`c`, as announced by the first of them. -/
def term_at (mem : List cell) (c : Nat) : List cell :=
  (mem.drop c).take (mem.getD c default).nbr_cells

/-! ## Mailbox -/

/-- Embedding of `pop_queue`: returns the index of the popped term (`none` for
`NULL`) and the updated query. -/
def pop_queue (q : query) : Option Nat × query :=
  if q.qp = 0 then (none, q)
  else
    let c := q.popp
    let popp := q.popp + (q.queue.getD c default).nbr_cells
    if popp = q.qp then (some c, { q with popp := 0, qp := 0 })
    else (some c, { q with popp := popp })

/-- Modelled from the spec: `alloc_on_queuen(q, 0, c)` lives in the heap module,
which is not part of the sources at hand. It appends the term found at `c`
(`c->nbr_cells` cells read from `mem`) to the mailbox at the write mark `qp` and
advances the write mark by the number of cells copied. Storage past the copied
cells is left as it was. -/
def alloc_on_queuen (q : query) (mem : List cell) (c : Nat) : query :=
  let t := term_at mem c
  { q with queue := q.queue.take q.qp ++ t ++ q.queue.drop (q.qp + t.length),
           qp := q.qp + t.length }

/-- Embedding of `bif_recv_1`. The pattern `p1` is represented by the set of
terms it unifies with (`pat`); a successful unification delivers the term at
`c`. A popped term that does not unify is copied back behind the write mark,
read from the storage of the mailbox itself. The result is `none` when the
loop is still running after `fuel` iterations, otherwise the return value, the
delivered term and the updated query. -/
def bif_recv_1 (pat : List cell → Bool) : Nat → query → Option (Bool × Option (List cell) × query)
  | 0, _ => none
  | fuel + 1, q =>
    match pop_queue q with
    | (none, q1) => some (false, none, q1)
    | (some c, q1) =>
      if pat (term_at q1.queue c) then some (true, some (term_at q1.queue c), q1)
      else bif_recv_1 pat fuel (alloc_on_queuen q1 q1.queue c)

/-- Embedding of `bif_send_1` on the path where cloning succeeds: `tmp` is the
temporary storage after `deep_clone_to_tmp`, the clone `c` of the argument
standing at index 0 (`share_cell` only marks the cloned cells and has no
counterpart here). The destination is the parent when there is one that is not
done, else the sender. Returns the return value, the sender and the parent. -/
def bif_send_1 (q : query) (parent : Option query) (tmp : List cell) : Bool × query × Option query :=
  match parent with
  | some p =>
    if !p.done then (true, { q with yielded := true }, some (alloc_on_queuen p tmp 0))
    else (true, { alloc_on_queuen q tmp 0 with yielded := true }, some p)
  | none => (true, { alloc_on_queuen q tmp 0 with yielded := true }, none)

/-- The record `bif_send_1` writes to (`dstq`). -/
def dstq (q : query) (parent : Option query) : query :=
  match parent with
  | some p => if !p.done then p else q
  | none => q

/-- A term is well formed when it is non-empty and its first cell announces
exactly its length. -/
def wf_term (t : List cell) : Prop :=
  t ≠ [] ∧ (t.headD default).nbr_cells = t.length

instance (t : List cell) : Decidable (wf_term t) := by
  unfold wf_term; infer_instance

/-- The cells of a sequence of terms laid out one after the other. -/
def cells_of : List (List cell) → List cell
  | [] => []
  | t :: ts => t ++ cells_of ts

/-- The mailbox of `q` holds exactly the messages `ms`, oldest first: they are
well-formed terms laid out contiguously from the read cursor `popp` up to the
write mark `qp`, and an empty mailbox has both cursors at the origin. -/
def holds (q : query) (ms : List (List cell)) : Prop :=
  (∀ m ∈ ms, wf_term m) ∧
  q.qp = q.popp + (cells_of ms).length ∧
  (q.queue.drop q.popp).take (cells_of ms).length = cells_of ms ∧
  (ms = [] → q.popp = 0)

instance (q : query) (ms : List (List cell)) : Decidable (holds q ms) := by
  unfold holds; infer_instance

/-- Successive sends of the terms `vs` by `q`, threading sender and parent. -/
def send_all (q : query) (parent : Option query) : List (List cell) → query × Option query
  | [] => (q, parent)
  | v :: vs => send_all (bif_send_1 q parent v).2.1 (bif_send_1 q parent v).2.2 vs

/-- Runs `n` successive `recv/1` calls with the same pattern, each with `fuel`
iterations at its disposal; `none` unless every call returns true, otherwise
the delivered terms in order of delivery and the final query. -/
def recv_n (pat : List cell → Bool) (fuel : Nat) : Nat → query → Option (List (List cell) × query)
  | 0, q => some ([], q)
  | n + 1, q =>
    match bif_recv_1 pat fuel q with
    | some (true, some t, q1) =>
      match recv_n pat fuel n q1 with
      | some (ts, q2) => some (t :: ts, q2)
      | none => none
    | _ => none

/-! ## Suspension -/

/-- Result of a builtin: an ordinary return value, or the resource error raised
by `check_heap_error` when an allocation fails. -/
inductive outcome where
  | ret (b : Bool)
  | resource_error
deriving DecidableEq, Repr

/-- Embedding of `do_yield`. `usec` is the reading of `get_time_in_usec()` (an
unsigned 64-bit count of microseconds), `msecs` the C `int` argument and
`push_ok` tells whether `push_choice` manages to record the resumption point.
`tmo_msecs` is an unsigned 64-bit field, hence the reduction modulo `2^64`. -/
def do_yield (q : query) (msecs : Int) (usec : Nat) (push_ok : Bool) : outcome × query :=
  if !q.is_task then (outcome.ret true, q)
  else
    let q1 := { q with
      yield_at := 0,
      yielded := true,
      tmo_msecs := (usec / 1000 + (if msecs > 0 then msecs.toNat else 1)) % 2 ^ 64 }
    if push_ok then (outcome.ret false, q1) else (outcome.resource_error, q1)

/-! ## Registry and scheduler passes -/

/-- A parent computation as the scheduler loops see it: its own record and the
registry `q->tasks`, in traversal order (head first), each task paired with the
address of its record. -/
structure owner where
  q : query
  tasks : List (Nat × query)
deriving DecidableEq, Repr

/-- What an iteration of a scheduler pass did with the task it was looking at:
it stopped the pass at the fairness cap, stepped over the task because of its
deadline, destroyed it, or resumed it. -/
inductive action where
  | capped
  | skipped
  | destroyed
  | resumed
deriving DecidableEq, Repr

/-- One iteration of the inner loop of a pass: the address of the task, its
record as the iteration found it, the record after the deadline step (the one
given to `start` or `query_destroy`), and what was done. -/
structure event where
  addr : Nat
  found : query
  handed : query
  act : action
deriving DecidableEq, Repr

/-- Outcome of one pass over the registry: the registry it leaves, the
iterations it made, the value of `did_something`, whether a resumed task
asserted the end-wait signal of the parent, and whether the inner loop ended
within the fuel it was given. -/
structure pass_result where
  tasks : List (Nat × query)
  trace : List event
  did_something : Bool
  end_wait : Bool
  finished : Bool
deriving DecidableEq, Repr

/-- The fairness cap written in both scheduler loops. -/
def fairness_cap : Nat := 64

/-- The test `task->tmo_msecs && !task->error && now <= task->tmo_msecs`. -/
def deadline_blocks (now : Nat) (t : query) : Bool :=
  t.tmo_msecs != 0 && !t.error && decide (now ≤ t.tmo_msecs)

/-- The assignment `task->tmo_msecs = 0`, made when the task has a deadline and
no error (and the deadline did not block). -/
def clear_deadline (t : query) : query :=
  if t.tmo_msecs != 0 && !t.error then { t with tmo_msecs := 0 } else t

/-- The test `!task->yielded || !task->st.curr_cell || task->error`. -/
def is_dead (t : query) : Bool :=
  !t.yielded || t.curr_cell.isNone || t.error

/-- The counter `spawn_cnt` after the iteration has looked at `t`. -/
def bump (cnt : Nat) (t : query) : Nat :=
  if t.spawned then cnt + 1 else cnt

/-- The inner loop of `bif_wait_0` (one pass), from a task of the registry
onwards, with `spawn_cnt = cnt` on entry. `start` is the resume primitive of the
host engine, which is not part of the sources at hand: it maps the record of
the task to the record the run leaves behind and tells whether the run
asserted the end-wait signal of the parent. -/
def wait_pass (start : query → query × Bool) (now : Nat) : Nat → List (Nat × query) → pass_result
  | _, [] => ⟨[], [], false, false, true⟩
  | cnt, (a, t) :: rest =>
    if t.spawned && decide (bump cnt t ≥ fairness_cap) then
      ⟨(a, t) :: rest, [⟨a, t, t, action.capped⟩], false, false, true⟩
    else if deadline_blocks now t then
      let r := wait_pass start now (bump cnt t) rest
      { r with tasks := (a, t) :: r.tasks, trace := ⟨a, t, t, action.skipped⟩ :: r.trace }
    else if is_dead (clear_deadline t) then
      let r := wait_pass start now (bump cnt t) rest
      { r with trace := ⟨a, t, clear_deadline t, action.destroyed⟩ :: r.trace }
    else
      let s := start (clear_deadline t)
      let r := wait_pass start now (bump cnt t) rest
      { tasks := (a, s.1) :: r.tasks,
        trace := ⟨a, t, clear_deadline t, action.resumed⟩ :: r.trace,
        did_something := true,
        end_wait := s.2 || r.end_wait,
        finished := true }

/-- The inner loop of `bif_await_0` (one pass). After `start` the loop either
leaves the pass (the task is yielded with no deadline) or goes round again on
the same task, so the loop need not end: `fuel` bounds its iterations. -/
def await_pass (start : query → query × Bool) (now : Nat) :
    Nat → Nat → List (Nat × query) → pass_result
  | 0, _, ts => ⟨ts, [], false, false, false⟩
  | _ + 1, _, [] => ⟨[], [], false, false, true⟩
  | fuel + 1, cnt, (a, t) :: rest =>
    if t.spawned && decide (bump cnt t ≥ fairness_cap) then
      ⟨(a, t) :: rest, [⟨a, t, t, action.capped⟩], false, false, true⟩
    else if deadline_blocks now t then
      let r := await_pass start now fuel (bump cnt t) rest
      { r with tasks := (a, t) :: r.tasks, trace := ⟨a, t, t, action.skipped⟩ :: r.trace }
    else if is_dead (clear_deadline t) then
      let r := await_pass start now fuel (bump cnt t) rest
      { r with trace := ⟨a, t, clear_deadline t, action.destroyed⟩ :: r.trace }
    else
      let s := start (clear_deadline t)
      if s.1.tmo_msecs = 0 && s.1.yielded then
        ⟨(a, s.1) :: rest, [⟨a, t, clear_deadline t, action.resumed⟩], true, s.2, true⟩
      else
        let r := await_pass start now fuel (bump cnt t) ((a, s.1) :: rest)
        { r with trace := ⟨a, t, clear_deadline t, action.resumed⟩ :: r.trace,
                 end_wait := s.2 || r.end_wait }

/-- Number of iterations of a pass that resumed a task with `spawned` set. -/
def resumed_spawned (tr : List event) : Nat :=
  (tr.filter (fun e => decide (e.act = action.resumed) && e.found.spawned)).length

/-- Number of tasks of a registry with `spawned` set. -/
def spawn_count (ts : List (Nat × query)) : Nat :=
  (ts.filter (fun p => p.2.spawned)).length

/-- The addresses of the tasks of a registry, in traversal order. -/
def addrs (ts : List (Nat × query)) : List Nat :=
  ts.map Prod.fst

/-- A run of `wait/0`: the passes made, the parent as the run leaves it, and
the return value (`none` when the loop was still running when the fuel ran
out). -/
structure run where
  passes : List pass_result
  final : owner
  ret : Option Bool
deriving DecidableEq, Repr

/-- Embedding of `bif_wait_0`. `clock k` is the reading of the millisecond clock
taken at the start of the pass number `k` (the sleep of a pass without progress
only lets the clock advance); `fuel` bounds the number of passes. -/
def bif_wait_0 (start : query → query × Bool) (clock : Nat → Nat) : Nat → Nat → owner → run
  | 0, _, o => ⟨[], o, none⟩
  | fuel + 1, k, o =>
    if !o.tasks.isEmpty && !o.q.end_wait then
      let r := wait_pass start (clock k) 0 o.tasks
      let o1 : owner := ⟨{ o.q with end_wait := o.q.end_wait || r.end_wait }, r.tasks⟩
      let rest := bif_wait_0 start clock fuel (k + 1) o1
      { rest with passes := r :: rest.passes }
    else ⟨[], { o with q := { o.q with end_wait := false } }, some true⟩

/-! ## Spawning and cancellation -/

/-- Embedding of `push_task` on the registry as a list: the task becomes the
head. -/
def push_task (o : owner) (addr : Nat) (task : query) : owner :=
  { o with tasks := (addr, task) :: o.tasks }

/-- Modelled from the spec: `query_create_task` lives in the query module, which
is not part of the sources at hand. It builds a fresh task whose continuation
starts at the given call; every flag is clear, there is no deadline, no future
token, and the mailbox is empty. -/
def query_create_task (goal : Nat) : query :=
  { is_task := true, spawned := false, yielded := false, error := false, done := false,
    end_wait := false, retry := false, tmo_msecs := 0, yield_at := 0, future := 0,
    curr_cell := some goal, queue := [], qp := 0, popp := 0 }

/-- Embedding of `bif_task_n` on the path without allocation failure: `goal`
is the call prepared from the arguments and `addr` the address of the new
record. -/
def bif_task_n (o : owner) (addr goal : Nat) : Bool × owner :=
  (true, push_task o addr { query_create_task goal with yielded := true, spawned := true })

/-- Spawns one task per pair (address, goal) of the list, in order. -/
def spawn_all (o : owner) : List (Nat × Nat) → owner
  | [] => o
  | (addr, goal) :: rest => spawn_all (bif_task_n o addr goal).2 rest

/-- The scan of `bif_sys_cancel_future_1`: the first task carrying the token is
marked as failed. -/
def cancel_scan (future : Nat) : List (Nat × query) → List (Nat × query)
  | [] => []
  | (a, t) :: rest =>
    if t.future = future then (a, { t with error := true }) :: rest
    else (a, t) :: cancel_scan future rest

/-- Embedding of `bif_sys_cancel_future_1`. -/
def bif_sys_cancel_future_1 (o : owner) (future : Nat) : Bool × owner :=
  (true, { o with tasks := cancel_scan future o.tasks })

/-! ## Notions used in the statements -/

/-- A task that waits on a deadline which the clock reading `now` has left
behind: it is yielded, has a continuation and no error, and
`0 < tmo_msecs < now`. -/
def past_deadline (now : Nat) (t : query) : Prop :=
  t.yielded = true ∧ t.error = false ∧ t.curr_cell.isSome = true ∧
    0 < t.tmo_msecs ∧ t.tmo_msecs < now

instance (now : Nat) (t : query) : Decidable (past_deadline now t) := by
  unfold past_deadline; infer_instance

/-- The pass whose result is `r` left the task `t` found at address `a`
between `pre` and `post` where it was: the registry still has the same record
at `a`, between what is left of `pre` and what is left of `post`, and every
iteration that looked at `a` found `t`, left it as it was, and either stepped
over it or stopped the pass there. -/
def left_in_place (a : Nat) (t : query) (pre post : List (Nat × query)) (r : pass_result) : Prop :=
  (∃ pre1 post1, r.tasks = pre1 ++ (a, t) :: post1 ∧
      (addrs pre1).Sublist (addrs pre) ∧ (addrs post1).Sublist (addrs post)) ∧
    ∀ e ∈ r.trace, e.addr = a →
      e.found = t ∧ e.handed = t ∧ (e.act = action.skipped ∨ e.act = action.capped)

/-- The number of passes of `wait/0` a task still needs when every task
finishes on being resumed: one to be destroyed, and one more before that to be
resumed if it is still alive. -/
def passes_needed (t : query) : Nat :=
  if is_dead t then 1 else 2

/-- Sum of `passes_needed` over a registry. -/
def load : List (Nat × query) → Nat
  | [] => 0
  | (_, t) :: rest => passes_needed t + load rest

/-- The resume primitive `start` makes every task finish without suspending
again: the run leaves `yielded` clear, sets no deadline, and does not assert the
end-wait signal of the parent. -/
def finishes (start : query → query × Bool) : Prop :=
  ∀ t, (start t).1.yielded = false ∧ (start t).1.tmo_msecs = t.tmo_msecs ∧ (start t).2 = false

/-- A task is due at `now`: an iteration of a pass that gets to it resumes it
(its deadline, if any, does not block and it is not to be destroyed). -/
def due_at (now : Nat) (t : query) : Prop :=
  deadline_blocks now t = false ∧ is_dead (clear_deadline t) = false

instance (now : Nat) (t : query) : Decidable (due_at now t) := by
  unfold due_at; infer_instance

/-! ## Sample data -/

/-- A parent record with every flag clear and an empty mailbox. -/
def fresh : query := query_create_task 0

/-- A task as `task/1` registers it. -/
def spawned_task : query := { query_create_task 0 with yielded := true, spawned := true }

/-- A yielded task that waits on the deadline 50. -/
def sleeper : query := { query_create_task 0 with yielded := true, tmo_msecs := 50 }

/-- One-cell messages `a`, `b` and `c`. -/
def msg_a : List cell := [⟨1, 1⟩]

/-- See `msg_a`. -/
def msg_b : List cell := [⟨1, 2⟩]

/-- See `msg_a`. -/
def msg_c : List cell := [⟨1, 3⟩]

/-- The pattern that unifies with the term `m` only. -/
def only (m : List cell) : List cell → Bool := fun t => decide (t = m)

/-- The pattern of an unbound variable. -/
def unbound : List cell → Bool := fun _ => true

/-- A mailbox to which `a` was sent. -/
def mbox_a : query := (send_all fresh none [msg_a]).1

/-- A mailbox to which `a`, `b` and `c` were sent, in this order. -/
def mbox_abc : query := (send_all fresh none [msg_a, msg_b, msg_c]).1

/-- A resume primitive under which every task runs to its end. -/
def start_finish (t : query) : query × Bool := ({ t with yielded := false }, false)

/-- A resume primitive under which every task yields again, with no deadline. -/
def start_again (t : query) : query × Bool := ({ t with yielded := true }, false)

/-- A resume primitive under which every task calls `end_wait/0` and runs to its
end. -/
def start_end_wait (t : query) : query × Bool := ({ t with yielded := false }, true)

/-- The first 63 of 64 tasks registered by `task/1`, at the addresses 0 to 62. -/
def crowd : List (Nat × query) := (List.range 63).map (fun i => (i, spawned_task))

/-- A registry of 64 tasks registered by `task/1`, the last one at address 63. -/
def full_house : List (Nat × query) := crowd ++ [(63, spawned_task)]

/-- A registry of 64 tasks registered by `task/1`, the last one carrying the
future token 7. -/
def marked_house : List (Nat × query) := crowd ++ [(63, { spawned_task with future := 7 })]

/-- A resume primitive under which every task suspends again with the
deadline 100. -/
def start_doze (t : query) : query × Bool := ({ t with yielded := true, tmo_msecs := 100 }, false)

/-- A task that is not yielded and carries the deadline 50. -/
def idle_sleeper : query := { query_create_task 0 with tmo_msecs := 50 }

/-! ## Yield, end-wait and await -/

/-- Embedding of `bif_yield_0`; the arguments are those of `do_yield`. -/
def bif_yield_0 (q : query) (usec : Nat) (push_ok : Bool) : outcome × query :=
  if q.retry then (outcome.ret true, q) else do_yield q 0 usec push_ok

/-- Embedding of `bif_end_wait_0`: returns the return value, the caller and its
parent. -/
def bif_end_wait_0 (q : query) (parent : Option query) : Bool × query × Option query :=
  match parent with
  | some p => (true, q, some { p with end_wait := true })
  | none => (true, q, none)

/-- The statement `if (!did_something) msleep(1);` that follows the inner loop
of `bif_wait_0` and of `bif_await_0`: whether the pass is followed by the
sleep. -/
def backs_off (r : pass_result) : Bool :=
  !r.did_something

/-- The polling loop of `bif_await_0`: the passes made, the registry left, and
whether the loop ended (`false` when the fuel of the loop or of one of its
passes ran out). -/
structure polling where
  passes : List pass_result
  tasks : List (Nat × query)
  ended : Bool
deriving DecidableEq, Repr

/-- Embedding of the `while (q->tasks)` loop of `bif_await_0`. `clock k` is the
clock reading taken by the pass number `k`, `inner` the fuel given to each
pass and the first argument the fuel of the loop itself. -/
def await_loop (start : query → query × Bool) (clock : Nat → Nat) (inner : Nat) :
    Nat → Nat → List (Nat × query) → polling
  | 0, _, ts => ⟨[], ts, false⟩
  | fuel + 1, k, ts =>
    if ts.isEmpty then ⟨[], ts, true⟩
    else
      let r := await_pass start (clock k) inner 0 ts
      if !r.finished then ⟨[r], r.tasks, false⟩
      else if r.did_something then ⟨[r], r.tasks, true⟩
      else
        let l := await_loop start clock inner fuel (k + 1) r.tasks
        { l with passes := r :: l.passes }

/-- A run of `await/0`: the passes made, the parent as the run leaves it, the
outcome (`none` when the loop was still polling when the fuel ran out) and
whether a choice point was pushed for `await/0` itself. -/
structure await_run where
  passes : List pass_result
  final : owner
  ret : Option outcome
  pushed : Bool
deriving DecidableEq, Repr

/-- Embedding of `bif_await_0`. `push_ok` tells whether `push_choice` manages to
record the resumption point. The end-wait signal of the parent is neither read
nor cleared; it is set when a resumed task asserts it. -/
def bif_await_0 (start : query → query × Bool) (clock : Nat → Nat) (inner fuel : Nat)
    (push_ok : Bool) (o : owner) : await_run :=
  let l := await_loop start clock inner fuel 0 o.tasks
  let o1 : owner :=
    ⟨{ o.q with end_wait := o.q.end_wait || l.passes.any (fun r => r.end_wait) }, l.tasks⟩
  if !l.ended then ⟨l.passes, o1, none, false⟩
  else if l.tasks.isEmpty then ⟨l.passes, o1, some (outcome.ret false), false⟩
  else if push_ok then ⟨l.passes, o1, some (outcome.ret true), true⟩
  else ⟨l.passes, o1, some outcome.resource_error, false⟩

/-! ## Mailbox operations in sequence -/

/-- An operation on a mailbox: the append of a term (as `send/1` and the requeue
of `recv/1` do through `alloc_on_queuen`) or a call of `pop_queue`. -/
inductive mbox_op where
  | append (t : List cell)
  | pop
deriving DecidableEq, Repr

/-- Runs the operations on the mailbox of `q`, in order. -/
def run_ops (q : query) : List mbox_op → query
  | [] => q
  | mbox_op.append t :: ops => run_ops (alloc_on_queuen q t 0) ops
  | mbox_op.pop :: ops => run_ops (pop_queue q).2 ops

/-- The messages queued after the operations, oldest first, when `ms` were
queued before: an append adds at the tail, a pop removes the oldest. -/
def queued_after (ms : List (List cell)) : List mbox_op → List (List cell)
  | [] => ms
  | mbox_op.append t :: ops => queued_after (ms ++ [t]) ops
  | mbox_op.pop :: ops => queued_after ms.tail ops

/-- Every term appended by the operations is well formed. -/
def wf_ops (ops : List mbox_op) : Prop :=
  ∀ t, mbox_op.append t ∈ ops → wf_term t

/-! ## The registry as linked records -/

/-- The pointers of the registry: `head` is `q->tasks`, and `prev a`, `next a`
are the fields `prev` and `next` of the task record at address `a` (`none` is the
null pointer). -/
structure links where
  head : Option Nat
  prev : Nat → Option Nat
  next : Nat → Option Nat

/-- The assignment of `v` to the pointer field of the record at address `a`. -/
def set_ptr (f : Nat → Option Nat) (a : Nat) (v : Option Nat) : Nat → Option Nat :=
  fun x => if x = a then v else f x

/-- Embedding of `push_task` on the pointers, statement by statement:
`task->next = q->tasks`, then `q->tasks->prev = task` if there is a head, then
`q->tasks = task`. -/
def links.push_task (r : links) (task : Nat) : links :=
  let next1 := set_ptr r.next task r.head
  let prev1 := match r.head with
    | some h => set_ptr r.prev h (some task)
    | none => r.prev
  ⟨some task, prev1, next1⟩

/-- Embedding of `pop_task` on the pointers, statement by statement:
`task->prev->next = task->next` if there is a predecessor, then
`task->next->prev = task->prev` if there is a successor, then
`q->tasks = task->next` if the task is the head; returns `task->next`. -/
def links.pop_task (r : links) (task : Nat) : Option Nat × links :=
  let next1 := match r.prev task with
    | some p => set_ptr r.next p (r.next task)
    | none => r.next
  let prev1 := match next1 task with
    | some n => set_ptr r.prev n (r.prev task)
    | none => r.prev
  let head1 := if r.head = some task then next1 task else r.head
  (next1 task, ⟨head1, prev1, next1⟩)

/-- Pushes the tasks in order, the first of the list first. -/
def links.push_all (r : links) : List Nat → links
  | [] => r
  | t :: ts => links.push_all (r.push_task t) ts

/-- The traversal `for (task = cur; task; task = task->next)`, for at most
`fuel` steps. -/
def links.walk (r : links) : Nat → Option Nat → List Nat
  | 0, _ => []
  | _ + 1, none => []
  | fuel + 1, some x => x :: links.walk r fuel (r.next x)

/-- From the pointer `cur`, whose record should have `p` as predecessor, the
records are linked as the list says: each `next` leads to the following
address, each `prev` back to the one before, and the last `next` is null. -/
def links.chain (r : links) : Option Nat → Option Nat → List Nat → Bool
  | _, cur, [] => decide (cur = none)
  | p, cur, x :: xs =>
    decide (cur = some x) && decide (r.prev x = p) && links.chain r (some x) (r.next x) xs

/-- The registry consists of the records at the addresses `l`, all different,
linked in this order from the head, the head having no predecessor. -/
def linked (r : links) (l : List Nat) : Prop :=
  l.Nodup ∧ r.chain none r.head l = true

instance (r : links) (l : List Nat) : Decidable (linked r l) := by
  unfold linked; infer_instance

/-- A registry without tasks, all records unlinked. -/
def no_links : links := ⟨none, fun _ => none, fun _ => none⟩

/-! ## Lemmas on the mailbox -/

theorem getD_eq_headD_drop {α : Type} (l : List α) (n : Nat) (d : α) :
    l.getD n d = (l.drop n).headD d := by
  induction l generalizing n with
  | nil => simp
  | cons x xs ih =>
    cases n with
    | zero => simp
    | succ k => simp [ih k]

theorem cells_of_append (xs ys : List (List cell)) :
    cells_of (xs ++ ys) = cells_of xs ++ cells_of ys := by
  induction xs with
  | nil => simp [cells_of]
  | cons x xs ih => simp [cells_of, ih]

theorem cells_of_eq_nil {ms : List (List cell)} (hwf : ∀ m ∈ ms, wf_term m)
    (h : cells_of ms = []) : ms = [] := by
  cases ms with
  | nil => rfl
  | cons m rest =>
    have := (hwf m (by simp)).1
    simp [cells_of] at h
    exact absurd h.1 this

/-- Decomposition of the storage of a mailbox around its pending cells. -/
theorem decomp_of_take_drop {α : Type} (l cs : List α) (n : Nat)
    (h : (l.drop n).take cs.length = cs) (hn : n ≤ l.length) :
    ∃ pre tl, l = pre ++ cs ++ tl ∧ pre.length = n := by
  refine ⟨l.take n, (l.drop n).drop cs.length, ?_, by simp [hn]⟩
  conv_lhs => rw [← List.take_append_drop n l, ← List.take_append_drop cs.length (l.drop n), h]
  simp

theorem write_at_mark {α : Type} (a tl t : List α) :
    (a ++ tl).take a.length ++ t ++ (a ++ tl).drop (a.length + t.length) =
      a ++ t ++ tl.drop t.length := by
  rw [List.take_left, List.drop_append]

theorem take_drop_of_decomp {α : Type} (pre cs tl : List α) :
    ((pre ++ cs ++ tl).drop pre.length).take cs.length = cs := by
  simp

theorem holds_decomp {q : query} {ms : List (List cell)} (h : holds q ms) :
    ∃ pre tl, q.queue = pre ++ cells_of ms ++ tl ∧ pre.length = q.popp := by
  obtain ⟨hwf, _, htake, hnil⟩ := h
  by_cases hms : ms = []
  · subst hms
    exact ⟨[], q.queue, by simp [cells_of], (hnil rfl).symm⟩
  · have hne : cells_of ms ≠ [] := fun hc => hms (cells_of_eq_nil hwf hc)
    have hle : q.popp ≤ q.queue.length := by
      by_contra hlt
      have : q.queue.drop q.popp = [] := List.drop_eq_nil_of_le (by omega)
      rw [this] at htake
      simp at htake
      exact hne htake
    exact decomp_of_take_drop _ _ _ htake hle

theorem holds_of_decomp {q : query} {ms : List (List cell)} (pre tl : List cell)
    (hwf : ∀ m ∈ ms, wf_term m) (hq : q.queue = pre ++ cells_of ms ++ tl)
    (hpre : pre.length = q.popp) (hqp : q.qp = q.popp + (cells_of ms).length)
    (hnil : ms = [] → q.popp = 0) : holds q ms := by
  refine ⟨hwf, hqp, ?_, hnil⟩
  rw [hq, ← hpre]
  exact take_drop_of_decomp _ _ _

theorem term_at_decomp (pre m tl : List cell) (hm : wf_term m) :
    term_at (pre ++ m ++ tl) pre.length = m := by
  obtain ⟨hne, hlen⟩ := hm
  unfold term_at
  rw [getD_eq_headD_drop]
  have hd : (pre ++ m ++ tl).drop pre.length = m ++ tl := by simp
  rw [hd]
  cases m with
  | nil => exact absurd rfl hne
  | cons x xs =>
    simp only [List.cons_append, List.headD_cons]
    simp only [List.headD_cons] at hlen
    rw [hlen]
    simp

theorem nbr_cells_decomp (pre m tl : List cell) (hm : wf_term m) :
    ((pre ++ m ++ tl).getD pre.length default).nbr_cells = m.length := by
  obtain ⟨hne, hlen⟩ := hm
  rw [getD_eq_headD_drop]
  have hd : (pre ++ m ++ tl).drop pre.length = m ++ tl := by simp
  rw [hd]
  cases m with
  | nil => exact absurd rfl hne
  | cons x xs => simpa using hlen

/-- Popping from a mailbox that holds `m :: rest` returns the index of `m` and
leaves `rest`; the storage itself is not touched. -/
theorem pop_queue_holds {q : query} {m : List cell} {rest : List (List cell)}
    (h : holds q (m :: rest)) :
    ∃ q1, pop_queue q = (some q.popp, q1) ∧ q1.queue = q.queue ∧
      term_at q.queue q.popp = m ∧ holds q1 rest := by
  obtain ⟨pre, tl, hq, hpre⟩ := holds_decomp h
  obtain ⟨hwf, hqp, _, _⟩ := h
  have hm : wf_term m := hwf m (by simp)
  have hrest : ∀ x ∈ rest, wf_term x := fun x hx => hwf x (by simp [hx])
  have hmpos : 0 < m.length := List.length_pos.mpr hm.1
  simp only [cells_of, List.length_append] at hqp
  have hq2 : q.queue = pre ++ m ++ (cells_of rest ++ tl) := by
    rw [hq]; simp [cells_of]
  have hnbr : (q.queue.getD q.popp default).nbr_cells = m.length := by
    rw [hq2, ← hpre]; exact nbr_cells_decomp _ _ _ hm
  have hterm : term_at q.queue q.popp = m := by
    rw [hq2, ← hpre]; exact term_at_decomp _ _ _ hm
  have hqp0 : q.qp ≠ 0 := by omega
  by_cases hr : rest = []
  · subst hr
    refine ⟨{ q with popp := 0, qp := 0 }, ?_, rfl, hterm, ?_⟩
    · simp only [pop_queue, hqp0, if_false, hnbr]
      simp [cells_of] at hqp
      simp [hqp]
    · exact ⟨by simp, by simp [cells_of], by simp [cells_of], fun _ => rfl⟩
  · have hcne : cells_of rest ≠ [] := fun hc => hr (cells_of_eq_nil hrest hc)
    have hcpos : 0 < (cells_of rest).length := List.length_pos.mpr hcne
    refine ⟨{ q with popp := q.popp + m.length }, ?_, rfl, hterm, ?_⟩
    · simp only [pop_queue, hqp0, if_false, hnbr]
      have : q.popp + m.length ≠ q.qp := by omega
      simp [this]
    · refine holds_of_decomp (pre ++ m) tl hrest ?_ ?_ ?_ (fun hh => absurd hh hr)
      · simp [hq, cells_of]
      · simp [hpre]
      · simp; omega

/-- Appending a well-formed term to a mailbox that holds `ms` makes it hold
`ms ++ [t]`. -/
theorem alloc_on_queuen_holds {q : query} {ms : List (List cell)} (mem : List cell) (c : Nat)
    (h : holds q ms) (ht : wf_term (term_at mem c)) :
    holds (alloc_on_queuen q mem c) (ms ++ [term_at mem c]) := by
  obtain ⟨pre, tl, hq, hpre⟩ := holds_decomp h
  obtain ⟨hwf, hqp, _, _⟩ := h
  have hwf2 : ∀ m ∈ ms ++ [term_at mem c], wf_term m := by
    intro m hm
    rcases List.mem_append.mp hm with h1 | h1
    · exact hwf m h1
    · simp at h1; rw [h1]; exact ht
  have hqpl : q.qp = (pre ++ cells_of ms).length := by simp [hpre, hqp]
  refine holds_of_decomp pre (tl.drop (term_at mem c).length) hwf2 ?_ hpre ?_ ?_
  · simp only [alloc_on_queuen, cells_of_append, cells_of, List.append_nil]
    rw [hq, hqpl, write_at_mark]
    simp
  · simp [alloc_on_queuen, cells_of_append, cells_of, hqp]; omega
  · intro hh; simp at hh

theorem holds_congr {q q' : query} {ms : List (List cell)} (h : holds q ms)
    (h1 : q'.queue = q.queue) (h2 : q'.qp = q.qp) (h3 : q'.popp = q.popp) : holds q' ms := by
  unfold holds at *
  rw [h1, h2, h3]
  exact h

theorem holds_nil_iff (q : query) : holds q [] ↔ q.qp = 0 ∧ q.popp = 0 := by
  constructor
  · rintro ⟨_, h2, _, h4⟩
    have := h4 rfl
    simp only [cells_of, List.length_nil] at h2
    omega
  · rintro ⟨h1, h2⟩
    exact ⟨by simp, by simp [cells_of]; omega, by simp [cells_of], fun _ => h2⟩

/-- With a message matching the pattern queued behind `pre` non-matching ones,
`recv/1` delivers it after requeueing `pre` behind the rest. -/
theorem recv_scan (pat : List cell → Bool) (pre : List (List cell)) :
    ∀ (q : query) (m : List cell) (post : List (List cell)) (fuel : Nat),
      holds q (pre ++ m :: post) → (∀ x ∈ pre, pat x = false) → pat m = true →
      pre.length < fuel →
      ∃ q', bif_recv_1 pat fuel q = some (true, some m, q') ∧ holds q' (post ++ pre) := by
  induction pre with
  | nil =>
    intro q m post fuel h _ hm hf
    obtain ⟨q1, hpop, hqueue, hterm, hrest⟩ := pop_queue_holds (by simpa using h)
    obtain ⟨k, rfl⟩ : ∃ k, fuel = k + 1 := ⟨fuel - 1, by simp at hf; omega⟩
    refine ⟨q1, ?_, by simpa using hrest⟩
    simp only [bif_recv_1, hpop, hqueue, hterm, hm, if_true]
  | cons x pre ih =>
    intro q m post fuel h hpre hm hf
    obtain ⟨q1, hpop, hqueue, hterm, hrest⟩ := pop_queue_holds (by simpa using h)
    obtain ⟨k, rfl⟩ : ∃ k, fuel = k + 1 := ⟨fuel - 1, by simp at hf; omega⟩
    have hx : pat x = false := hpre x (by simp)
    have hwfx : wf_term x := h.1 x (by simp)
    have happ := alloc_on_queuen_holds q1.queue q.popp hrest (by rw [hqueue, hterm]; exact hwfx)
    rw [hqueue, hterm] at happ
    have happ2 : holds (alloc_on_queuen q1 q.queue q.popp) (pre ++ m :: (post ++ [x])) := by
      simpa using happ
    obtain ⟨q', hrec, hq'⟩ := ih _ m (post ++ [x]) k happ2
      (fun y hy => hpre y (by simp [hy])) hm (by simp at hf; omega)
    refine ⟨q', ?_, by simpa using hq'⟩
    simp only [bif_recv_1, hpop, hqueue, hterm, hx]
    simpa using hrec

/-- When nothing queued matches, the loop of `recv/1` is still running after any
number of iterations. -/
theorem recv_no_match_runs_on (pat : List cell → Bool) (fuel : Nat) :
    ∀ (q : query) (ms : List (List cell)), holds q ms → ms ≠ [] →
      (∀ x ∈ ms, pat x = false) → bif_recv_1 pat fuel q = none := by
  induction fuel with
  | zero => intro q ms _ _ _; rfl
  | succ k ih =>
    intro q ms h hne hno
    cases ms with
    | nil => exact absurd rfl hne
    | cons x rest =>
      obtain ⟨q1, hpop, hqueue, hterm, hrest⟩ := pop_queue_holds h
      have hx : pat x = false := hno x (by simp)
      have hwfx : wf_term x := h.1 x (by simp)
      have happ := alloc_on_queuen_holds q1.queue q.popp hrest (by rw [hqueue, hterm]; exact hwfx)
      rw [hqueue, hterm] at happ
      have := ih _ (rest ++ [x]) happ (by simp) (by
        intro y hy
        rcases List.mem_append.mp hy with h1 | h1
        · exact hno y (by simp [h1])
        · simp at h1; rw [h1]; exact hx)
      simp only [bif_recv_1, hpop, hqueue, hterm, hx]
      simpa using this

theorem dstq_send (q : query) (parent : Option query) (v : List cell) :
    (dstq (bif_send_1 q parent v).2.1 (bif_send_1 q parent v).2.2).queue
        = (alloc_on_queuen (dstq q parent) v 0).queue ∧
    (dstq (bif_send_1 q parent v).2.1 (bif_send_1 q parent v).2.2).qp
        = (alloc_on_queuen (dstq q parent) v 0).qp ∧
    (dstq (bif_send_1 q parent v).2.1 (bif_send_1 q parent v).2.2).popp
        = (alloc_on_queuen (dstq q parent) v 0).popp := by
  cases parent with
  | none => simp [bif_send_1, dstq, alloc_on_queuen]
  | some p =>
    by_cases hd : p.done = true
    · simp [bif_send_1, dstq, alloc_on_queuen, hd]
    · simp [bif_send_1, dstq, alloc_on_queuen, hd]

theorem term_at_zero_of_wf {v : List cell} (hv : wf_term v) : term_at v 0 = v := by
  have := term_at_decomp [] v [] hv
  simpa using this

theorem send_all_holds (vs : List (List cell)) :
    ∀ (q : query) (parent : Option query) (ms : List (List cell)),
      holds (dstq q parent) ms → (∀ v ∈ vs, wf_term v) →
      holds (dstq (send_all q parent vs).1 (send_all q parent vs).2) (ms ++ vs) := by
  induction vs with
  | nil => intro q parent ms h _; simpa [send_all] using h
  | cons v vs ih =>
    intro q parent ms h hwf
    have hv : wf_term v := hwf v (by simp)
    have h1 := alloc_on_queuen_holds v 0 h (by rw [term_at_zero_of_wf hv]; exact hv)
    rw [term_at_zero_of_wf hv] at h1
    obtain ⟨e1, e2, e3⟩ := dstq_send q parent v
    have h2 := holds_congr h1 e1 e2 e3
    have := ih _ _ _ h2 (fun w hw => hwf w (by simp [hw]))
    simpa [send_all] using this

theorem recv_n_holds (pat : List cell → Bool) (hpat : ∀ t, pat t = true) (fuel : Nat)
    (vs : List (List cell)) :
    ∀ q : query, holds q vs →
      ∃ q', recv_n pat (fuel + 1) vs.length q = some (vs, q') ∧ holds q' [] := by
  induction vs with
  | nil => intro q h; exact ⟨q, rfl, h⟩
  | cons v vs ih =>
    intro q h
    obtain ⟨q1, hrec, hq1⟩ := recv_scan pat [] q v vs (fuel + 1) (by simpa using h)
      (by simp) (hpat v) (by simp)
    simp only [List.append_nil] at hq1
    obtain ⟨q2, hrec2, hq2⟩ := ih q1 hq1
    refine ⟨q2, ?_, hq2⟩
    simp only [List.length_cons, recv_n, hrec, hrec2]

/-! ## Lemmas on the scheduler passes -/

theorem bump_le (cnt : Nat) (t : query) : cnt ≤ bump cnt t := by
  unfold bump; split <;> omega

theorem bump_lt_cap {cnt : Nat} {t : query} (hcnt : cnt < fairness_cap)
    (hcap : (t.spawned && decide (bump cnt t ≥ fairness_cap)) = false) :
    bump cnt t < fairness_cap := by
  unfold bump at hcap ⊢
  by_cases hs : t.spawned = true
  · simp [hs] at hcap ⊢; omega
  · simp [hs] at hcap ⊢; exact hcnt

/-! ### Unfolding of the passes, one lemma per branch of the loop body -/

theorem wait_pass_nil (start : query → query × Bool) (now cnt : Nat) :
    wait_pass start now cnt [] = ⟨[], [], false, false, true⟩ := by
  unfold wait_pass; rfl

theorem wait_pass_capped (start : query → query × Bool) (now cnt a : Nat) (t : query)
    (rest : List (Nat × query))
    (hcap : (t.spawned && decide (bump cnt t ≥ fairness_cap)) = true) :
    wait_pass start now cnt ((a, t) :: rest) =
      ⟨(a, t) :: rest, [⟨a, t, t, action.capped⟩], false, false, true⟩ := by
  rw [wait_pass, if_pos hcap]

theorem wait_pass_skipped (start : query → query × Bool) (now cnt a : Nat) (t : query)
    (rest : List (Nat × query))
    (hcap : (t.spawned && decide (bump cnt t ≥ fairness_cap)) = false)
    (hdl : deadline_blocks now t = true) :
    wait_pass start now cnt ((a, t) :: rest) =
      { wait_pass start now (bump cnt t) rest with
        tasks := (a, t) :: (wait_pass start now (bump cnt t) rest).tasks,
        trace := ⟨a, t, t, action.skipped⟩ :: (wait_pass start now (bump cnt t) rest).trace } := by
  rw [wait_pass, if_neg (by simp [hcap]), if_pos hdl]

theorem wait_pass_destroyed (start : query → query × Bool) (now cnt a : Nat) (t : query)
    (rest : List (Nat × query))
    (hcap : (t.spawned && decide (bump cnt t ≥ fairness_cap)) = false)
    (hdl : deadline_blocks now t = false) (hdead : is_dead (clear_deadline t) = true) :
    wait_pass start now cnt ((a, t) :: rest) =
      { wait_pass start now (bump cnt t) rest with
        trace := ⟨a, t, clear_deadline t, action.destroyed⟩ ::
          (wait_pass start now (bump cnt t) rest).trace } := by
  rw [wait_pass, if_neg (by simp [hcap]), if_neg (by simp [hdl]), if_pos hdead]

theorem wait_pass_resumed (start : query → query × Bool) (now cnt a : Nat) (t : query)
    (rest : List (Nat × query))
    (hcap : (t.spawned && decide (bump cnt t ≥ fairness_cap)) = false)
    (hdl : deadline_blocks now t = false) (hdead : is_dead (clear_deadline t) = false) :
    wait_pass start now cnt ((a, t) :: rest) =
      { tasks := (a, (start (clear_deadline t)).1) :: (wait_pass start now (bump cnt t) rest).tasks,
        trace := ⟨a, t, clear_deadline t, action.resumed⟩ ::
          (wait_pass start now (bump cnt t) rest).trace,
        did_something := true,
        end_wait := (start (clear_deadline t)).2 || (wait_pass start now (bump cnt t) rest).end_wait,
        finished := true } := by
  rw [wait_pass, if_neg (by simp [hcap]), if_neg (by simp [hdl]), if_neg (by simp [hdead])]

theorem await_pass_zero (start : query → query × Bool) (now cnt : Nat) (ts : List (Nat × query)) :
    await_pass start now 0 cnt ts = ⟨ts, [], false, false, false⟩ := by
  unfold await_pass; rfl

theorem await_pass_nil (start : query → query × Bool) (now fuel cnt : Nat) :
    await_pass start now (fuel + 1) cnt [] = ⟨[], [], false, false, true⟩ := by
  unfold await_pass; rfl

theorem await_pass_capped (start : query → query × Bool) (now fuel cnt a : Nat) (t : query)
    (rest : List (Nat × query))
    (hcap : (t.spawned && decide (bump cnt t ≥ fairness_cap)) = true) :
    await_pass start now (fuel + 1) cnt ((a, t) :: rest) =
      ⟨(a, t) :: rest, [⟨a, t, t, action.capped⟩], false, false, true⟩ := by
  rw [await_pass, if_pos hcap]

theorem await_pass_skipped (start : query → query × Bool) (now fuel cnt a : Nat) (t : query)
    (rest : List (Nat × query))
    (hcap : (t.spawned && decide (bump cnt t ≥ fairness_cap)) = false)
    (hdl : deadline_blocks now t = true) :
    await_pass start now (fuel + 1) cnt ((a, t) :: rest) =
      { await_pass start now fuel (bump cnt t) rest with
        tasks := (a, t) :: (await_pass start now fuel (bump cnt t) rest).tasks,
        trace := ⟨a, t, t, action.skipped⟩ ::
          (await_pass start now fuel (bump cnt t) rest).trace } := by
  rw [await_pass, if_neg (by simp [hcap]), if_pos hdl]

theorem await_pass_destroyed (start : query → query × Bool) (now fuel cnt a : Nat) (t : query)
    (rest : List (Nat × query))
    (hcap : (t.spawned && decide (bump cnt t ≥ fairness_cap)) = false)
    (hdl : deadline_blocks now t = false) (hdead : is_dead (clear_deadline t) = true) :
    await_pass start now (fuel + 1) cnt ((a, t) :: rest) =
      { await_pass start now fuel (bump cnt t) rest with
        trace := ⟨a, t, clear_deadline t, action.destroyed⟩ ::
          (await_pass start now fuel (bump cnt t) rest).trace } := by
  rw [await_pass, if_neg (by simp [hcap]), if_neg (by simp [hdl]), if_pos hdead]

theorem await_pass_yielded (start : query → query × Bool) (now fuel cnt a : Nat) (t : query)
    (rest : List (Nat × query))
    (hcap : (t.spawned && decide (bump cnt t ≥ fairness_cap)) = false)
    (hdl : deadline_blocks now t = false) (hdead : is_dead (clear_deadline t) = false)
    (hy : (decide ((start (clear_deadline t)).1.tmo_msecs = 0) &&
      (start (clear_deadline t)).1.yielded) = true) :
    await_pass start now (fuel + 1) cnt ((a, t) :: rest) =
      ⟨(a, (start (clear_deadline t)).1) :: rest,
        [⟨a, t, clear_deadline t, action.resumed⟩], true, (start (clear_deadline t)).2, true⟩ := by
  rw [await_pass, if_neg (by simp [hcap]), if_neg (by simp [hdl]), if_neg (by simp [hdead]),
    if_pos hy]

theorem await_pass_again (start : query → query × Bool) (now fuel cnt a : Nat) (t : query)
    (rest : List (Nat × query))
    (hcap : (t.spawned && decide (bump cnt t ≥ fairness_cap)) = false)
    (hdl : deadline_blocks now t = false) (hdead : is_dead (clear_deadline t) = false)
    (hy : (decide ((start (clear_deadline t)).1.tmo_msecs = 0) &&
      (start (clear_deadline t)).1.yielded) = false) :
    await_pass start now (fuel + 1) cnt ((a, t) :: rest) =
      { await_pass start now fuel (bump cnt t) ((a, (start (clear_deadline t)).1) :: rest) with
        trace := ⟨a, t, clear_deadline t, action.resumed⟩ ::
          (await_pass start now fuel (bump cnt t) ((a, (start (clear_deadline t)).1) :: rest)).trace,
        end_wait := (start (clear_deadline t)).2 ||
          (await_pass start now fuel (bump cnt t)
            ((a, (start (clear_deadline t)).1) :: rest)).end_wait } := by
  rw [await_pass, if_neg (by simp [hcap]), if_neg (by simp [hdl]), if_neg (by simp [hdead]),
    if_neg (by simp [hy])]

/-- Induction along a pass of `wait/0`: a property of the result follows from
its preservation by each branch of the loop body. -/
theorem wait_pass_induct (start : query → query × Bool) (now : Nat)
    (P : Nat → List (Nat × query) → pass_result → Prop)
    (hnil : ∀ cnt, P cnt [] ⟨[], [], false, false, true⟩)
    (hcapped : ∀ cnt a t rest, (t.spawned && decide (bump cnt t ≥ fairness_cap)) = true →
      P cnt ((a, t) :: rest) ⟨(a, t) :: rest, [⟨a, t, t, action.capped⟩], false, false, true⟩)
    (hskipped : ∀ cnt a t rest r,
      (t.spawned && decide (bump cnt t ≥ fairness_cap)) = false →
      deadline_blocks now t = true → r = wait_pass start now (bump cnt t) rest →
      P (bump cnt t) rest r →
      P cnt ((a, t) :: rest)
        { r with tasks := (a, t) :: r.tasks, trace := ⟨a, t, t, action.skipped⟩ :: r.trace })
    (hdestroyed : ∀ cnt a t rest r,
      (t.spawned && decide (bump cnt t ≥ fairness_cap)) = false →
      deadline_blocks now t = false → is_dead (clear_deadline t) = true →
      r = wait_pass start now (bump cnt t) rest → P (bump cnt t) rest r →
      P cnt ((a, t) :: rest)
        { r with trace := ⟨a, t, clear_deadline t, action.destroyed⟩ :: r.trace })
    (hresumed : ∀ cnt a t rest r,
      (t.spawned && decide (bump cnt t ≥ fairness_cap)) = false →
      deadline_blocks now t = false → is_dead (clear_deadline t) = false →
      r = wait_pass start now (bump cnt t) rest → P (bump cnt t) rest r →
      P cnt ((a, t) :: rest)
        { tasks := (a, (start (clear_deadline t)).1) :: r.tasks,
          trace := ⟨a, t, clear_deadline t, action.resumed⟩ :: r.trace,
          did_something := true,
          end_wait := (start (clear_deadline t)).2 || r.end_wait,
          finished := true }) :
    ∀ (ts : List (Nat × query)) (cnt : Nat), P cnt ts (wait_pass start now cnt ts) := by
  intro ts
  induction ts with
  | nil => intro cnt; rw [wait_pass_nil]; exact hnil cnt
  | cons p rest ih =>
    obtain ⟨a, t⟩ := p
    intro cnt
    cases hcap : (t.spawned && decide (bump cnt t ≥ fairness_cap)) with
    | true => rw [wait_pass_capped _ _ _ _ _ _ hcap]; exact hcapped cnt a t rest hcap
    | false =>
      cases hdl : deadline_blocks now t with
      | true =>
        rw [wait_pass_skipped _ _ _ _ _ _ hcap hdl]
        exact hskipped cnt a t rest _ hcap hdl rfl (ih _)
      | false =>
        cases hdead : is_dead (clear_deadline t) with
        | true =>
          rw [wait_pass_destroyed _ _ _ _ _ _ hcap hdl hdead]
          exact hdestroyed cnt a t rest _ hcap hdl hdead rfl (ih _)
        | false =>
          rw [wait_pass_resumed _ _ _ _ _ _ hcap hdl hdead]
          exact hresumed cnt a t rest _ hcap hdl hdead rfl (ih _)

/-- Induction along a pass of `await/0`. -/
theorem await_pass_induct (start : query → query × Bool) (now : Nat)
    (P : Nat → Nat → List (Nat × query) → pass_result → Prop)
    (hzero : ∀ cnt ts, P 0 cnt ts ⟨ts, [], false, false, false⟩)
    (hnil : ∀ fuel cnt, P (fuel + 1) cnt [] ⟨[], [], false, false, true⟩)
    (hcapped : ∀ fuel cnt a t rest,
      (t.spawned && decide (bump cnt t ≥ fairness_cap)) = true →
      P (fuel + 1) cnt ((a, t) :: rest)
        ⟨(a, t) :: rest, [⟨a, t, t, action.capped⟩], false, false, true⟩)
    (hskipped : ∀ fuel cnt a t rest r,
      (t.spawned && decide (bump cnt t ≥ fairness_cap)) = false →
      deadline_blocks now t = true → r = await_pass start now fuel (bump cnt t) rest →
      P fuel (bump cnt t) rest r →
      P (fuel + 1) cnt ((a, t) :: rest)
        { r with tasks := (a, t) :: r.tasks, trace := ⟨a, t, t, action.skipped⟩ :: r.trace })
    (hdestroyed : ∀ fuel cnt a t rest r,
      (t.spawned && decide (bump cnt t ≥ fairness_cap)) = false →
      deadline_blocks now t = false → is_dead (clear_deadline t) = true →
      r = await_pass start now fuel (bump cnt t) rest → P fuel (bump cnt t) rest r →
      P (fuel + 1) cnt ((a, t) :: rest)
        { r with trace := ⟨a, t, clear_deadline t, action.destroyed⟩ :: r.trace })
    (hyielded : ∀ fuel cnt a t rest,
      (t.spawned && decide (bump cnt t ≥ fairness_cap)) = false →
      deadline_blocks now t = false → is_dead (clear_deadline t) = false →
      (decide ((start (clear_deadline t)).1.tmo_msecs = 0) &&
        (start (clear_deadline t)).1.yielded) = true →
      P (fuel + 1) cnt ((a, t) :: rest)
        ⟨(a, (start (clear_deadline t)).1) :: rest,
          [⟨a, t, clear_deadline t, action.resumed⟩], true, (start (clear_deadline t)).2, true⟩)
    (hagain : ∀ fuel cnt a t rest r,
      (t.spawned && decide (bump cnt t ≥ fairness_cap)) = false →
      deadline_blocks now t = false → is_dead (clear_deadline t) = false →
      (decide ((start (clear_deadline t)).1.tmo_msecs = 0) &&
        (start (clear_deadline t)).1.yielded) = false →
      r = await_pass start now fuel (bump cnt t) ((a, (start (clear_deadline t)).1) :: rest) →
      P fuel (bump cnt t) ((a, (start (clear_deadline t)).1) :: rest) r →
      P (fuel + 1) cnt ((a, t) :: rest)
        { r with trace := ⟨a, t, clear_deadline t, action.resumed⟩ :: r.trace,
                 end_wait := (start (clear_deadline t)).2 || r.end_wait }) :
    ∀ (fuel cnt : Nat) (ts : List (Nat × query)),
      P fuel cnt ts (await_pass start now fuel cnt ts) := by
  intro fuel
  induction fuel with
  | zero => intro cnt ts; rw [await_pass_zero]; exact hzero cnt ts
  | succ fuel ih =>
    intro cnt ts
    cases ts with
    | nil => rw [await_pass_nil]; exact hnil fuel cnt
    | cons p rest =>
      obtain ⟨a, t⟩ := p
      cases hcap : (t.spawned && decide (bump cnt t ≥ fairness_cap)) with
      | true => rw [await_pass_capped _ _ _ _ _ _ _ hcap]; exact hcapped fuel cnt a t rest hcap
      | false =>
        cases hdl : deadline_blocks now t with
        | true =>
          rw [await_pass_skipped _ _ _ _ _ _ _ hcap hdl]
          exact hskipped fuel cnt a t rest _ hcap hdl rfl (ih _ _)
        | false =>
          cases hdead : is_dead (clear_deadline t) with
          | true =>
            rw [await_pass_destroyed _ _ _ _ _ _ _ hcap hdl hdead]
            exact hdestroyed fuel cnt a t rest _ hcap hdl hdead rfl (ih _ _)
          | false =>
            cases hy : (decide ((start (clear_deadline t)).1.tmo_msecs = 0) &&
                (start (clear_deadline t)).1.yielded) with
            | true =>
              rw [await_pass_yielded _ _ _ _ _ _ _ hcap hdl hdead hy]
              exact hyielded fuel cnt a t rest hcap hdl hdead hy
            | false =>
              rw [await_pass_again _ _ _ _ _ _ _ hcap hdl hdead hy]
              exact hagain fuel cnt a t rest _ hcap hdl hdead hy rfl (ih _ _)

theorem resumed_spawned_other (a : Nat) (t h : query) (act : action) (tr : List event)
    (hact : act ≠ action.resumed) :
    resumed_spawned (⟨a, t, h, act⟩ :: tr) = resumed_spawned tr := by
  simp [resumed_spawned, List.filter_cons, hact]

theorem resumed_spawned_resumed (a : Nat) (t h : query) (tr : List event) (cnt : Nat) :
    resumed_spawned (⟨a, t, h, action.resumed⟩ :: tr) + cnt = resumed_spawned tr + bump cnt t := by
  unfold bump
  by_cases hs : t.spawned = true <;> simp [resumed_spawned, List.filter_cons, hs]
  omega

/-- In a pass of `wait/0` entered with `spawn_cnt = cnt`, the resumed spawned
tasks and `cnt` together stay below the cap. -/
theorem wait_pass_resumed_bound (start : query → query × Bool) (now : Nat)
    (ts : List (Nat × query)) (cnt : Nat) :
    cnt < fairness_cap →
      resumed_spawned (wait_pass start now cnt ts).trace + cnt < fairness_cap := by
  refine wait_pass_induct start now
    (fun cnt _ r => cnt < fairness_cap → resumed_spawned r.trace + cnt < fairness_cap)
    ?_ ?_ ?_ ?_ ?_ ts cnt
  · intro cnt h; simpa [resumed_spawned] using h
  · intro cnt a t rest _ h; simpa [resumed_spawned] using h
  · intro cnt a t rest r hcap _ _ ih h
    have := ih (bump_lt_cap h hcap)
    have := bump_le cnt t
    rw [resumed_spawned_other _ _ _ _ _ (by decide)]
    omega
  · intro cnt a t rest r hcap _ _ _ ih h
    have := ih (bump_lt_cap h hcap)
    have := bump_le cnt t
    rw [resumed_spawned_other _ _ _ _ _ (by decide)]
    omega
  · intro cnt a t rest r hcap _ _ _ ih h
    have := ih (bump_lt_cap h hcap)
    have := resumed_spawned_resumed a t (clear_deadline t) r.trace cnt
    dsimp only
    omega

theorem await_pass_resumed_bound (start : query → query × Bool) (now : Nat)
    (fuel cnt : Nat) (ts : List (Nat × query)) :
    cnt < fairness_cap →
      resumed_spawned (await_pass start now fuel cnt ts).trace + cnt < fairness_cap := by
  refine await_pass_induct start now
    (fun _ cnt _ r => cnt < fairness_cap → resumed_spawned r.trace + cnt < fairness_cap)
    ?_ ?_ ?_ ?_ ?_ ?_ ?_ fuel cnt ts
  · intro cnt _ h; simpa [resumed_spawned] using h
  · intro _ cnt h; simpa [resumed_spawned] using h
  · intro _ cnt a t rest _ h; simpa [resumed_spawned] using h
  · intro _ cnt a t rest r hcap _ _ ih h
    have := ih (bump_lt_cap h hcap)
    have := bump_le cnt t
    rw [resumed_spawned_other _ _ _ _ _ (by decide)]
    omega
  · intro _ cnt a t rest r hcap _ _ _ ih h
    have := ih (bump_lt_cap h hcap)
    have := bump_le cnt t
    rw [resumed_spawned_other _ _ _ _ _ (by decide)]
    omega
  · intro _ cnt a t rest hcap _ _ _ h
    have := bump_lt_cap h hcap
    have := resumed_spawned_resumed a t (clear_deadline t) [] cnt
    simp only [resumed_spawned, List.filter_nil, List.length_nil] at this ⊢
    omega
  · intro _ cnt a t rest r hcap _ _ _ _ ih h
    have := ih (bump_lt_cap h hcap)
    have := resumed_spawned_resumed a t (clear_deadline t) r.trace cnt
    dsimp only
    omega

theorem addrs_cons (a : Nat) (t : query) (ts : List (Nat × query)) :
    addrs ((a, t) :: ts) = a :: addrs ts := rfl

theorem addrs_append (xs ys : List (Nat × query)) : addrs (xs ++ ys) = addrs xs ++ addrs ys := by
  simp [addrs]

/-- A pass of `wait/0` only removes tasks, and looks only at tasks of the
registry. -/
theorem wait_pass_addrs (start : query → query × Bool) (now : Nat)
    (ts : List (Nat × query)) (cnt : Nat) :
    (addrs (wait_pass start now cnt ts).tasks).Sublist (addrs ts) ∧
      ∀ e ∈ (wait_pass start now cnt ts).trace, e.addr ∈ addrs ts := by
  refine wait_pass_induct start now
    (fun _ ts r => (addrs r.tasks).Sublist (addrs ts) ∧ ∀ e ∈ r.trace, e.addr ∈ addrs ts)
    ?_ ?_ ?_ ?_ ?_ ts cnt
  · intro _; simp [addrs]
  · intro _ a t rest _; simp [addrs]
  · intro _ a t rest r _ _ _ ih
    refine ⟨by simpa [addrs] using ih.1, ?_⟩
    intro e he
    simp only [List.mem_cons] at he
    rcases he with rfl | he
    · simp [addrs]
    · exact List.mem_cons_of_mem _ (ih.2 e he)
  · intro _ a t rest r _ _ _ _ ih
    refine ⟨List.Sublist.cons _ ih.1, ?_⟩
    intro e he
    simp only [List.mem_cons] at he
    rcases he with rfl | he
    · simp [addrs]
    · exact List.mem_cons_of_mem _ (ih.2 e he)
  · intro _ a t rest r _ _ _ _ ih
    refine ⟨by simpa [addrs] using ih.1, ?_⟩
    intro e he
    simp only [List.mem_cons] at he
    rcases he with rfl | he
    · simp [addrs]
    · exact List.mem_cons_of_mem _ (ih.2 e he)

/-- A pass of `await/0` only removes tasks, and looks only at tasks of the
registry. -/
theorem await_pass_addrs (start : query → query × Bool) (now : Nat)
    (fuel cnt : Nat) (ts : List (Nat × query)) :
    (addrs (await_pass start now fuel cnt ts).tasks).Sublist (addrs ts) ∧
      ∀ e ∈ (await_pass start now fuel cnt ts).trace, e.addr ∈ addrs ts := by
  refine await_pass_induct start now
    (fun _ _ ts r => (addrs r.tasks).Sublist (addrs ts) ∧ ∀ e ∈ r.trace, e.addr ∈ addrs ts)
    ?_ ?_ ?_ ?_ ?_ ?_ ?_ fuel cnt ts
  · intro _ ts; simp
  · intro _ _; simp [addrs]
  · intro _ _ a t rest _; simp [addrs]
  · intro _ _ a t rest r _ _ _ ih
    refine ⟨by simpa [addrs] using ih.1, ?_⟩
    intro e he
    simp only [List.mem_cons] at he
    rcases he with rfl | he
    · simp [addrs]
    · exact List.mem_cons_of_mem _ (ih.2 e he)
  · intro _ _ a t rest r _ _ _ _ ih
    refine ⟨List.Sublist.cons _ ih.1, ?_⟩
    intro e he
    simp only [List.mem_cons] at he
    rcases he with rfl | he
    · simp [addrs]
    · exact List.mem_cons_of_mem _ (ih.2 e he)
  · intro _ _ a t rest _ _ _ _
    simp [addrs]
  · intro _ _ a t rest r _ _ _ _ _ ih
    refine ⟨by simpa [addrs] using ih.1, ?_⟩
    intro e he
    simp only [List.mem_cons] at he
    rcases he with rfl | he
    · simp [addrs]
    · simpa [addrs] using ih.2 e he

theorem cons_eq_append_cases {α : Type} {x y : α} {rest pre post : List α}
    (h : x :: rest = pre ++ y :: post) :
    (pre = [] ∧ x = y ∧ rest = post) ∨ ∃ pre1, pre = x :: pre1 ∧ rest = pre1 ++ y :: post := by
  cases pre with
  | nil =>
    simp only [List.nil_append, List.cons.injEq] at h
    exact Or.inl ⟨rfl, h.1, h.2⟩
  | cons p pre1 =>
    simp only [List.cons_append, List.cons.injEq] at h
    exact Or.inr ⟨pre1, by rw [h.1], h.2⟩

theorem past_deadline_not_blocked {now : Nat} {t : query} (h : past_deadline now t) :
    deadline_blocks now t = false := by
  obtain ⟨_, _, _, _, h5⟩ := h
  simp only [deadline_blocks, Bool.and_eq_false_iff, decide_eq_false_iff_not]
  right; omega

theorem past_deadline_clear {now : Nat} {t : query} (h : past_deadline now t) :
    clear_deadline t = { t with tmo_msecs := 0 } := by
  obtain ⟨_, h2, _, h4, _⟩ := h
  have : t.tmo_msecs ≠ 0 := by omega
  simp [clear_deadline, h2, this]

theorem past_deadline_alive {now : Nat} {t : query} (h : past_deadline now t) :
    is_dead (clear_deadline t) = false := by
  rw [past_deadline_clear h]
  obtain ⟨h1, h2, h3, _, _⟩ := h
  cases hc : t.curr_cell with
  | none => simp [hc] at h3
  | some _ => simp [is_dead, h1, h2, hc]

theorem blocked_of_before {now : Nat} {t : query} (herr : t.error = false)
    (htmo : t.tmo_msecs ≠ 0) (hnow : now < t.tmo_msecs) : deadline_blocks now t = true := by
  simp [deadline_blocks, herr, htmo]
  omega

/-- Whenever a pass of `wait/0` gets to a task that is past its deadline, it
clears the deadline and resumes the task. -/
theorem wait_pass_past_deadline (start : query → query × Bool) (now : Nat)
    (ts : List (Nat × query)) (cnt : Nat) :
    ∀ e ∈ (wait_pass start now cnt ts).trace, e.act ≠ action.capped →
      past_deadline now e.found →
      e.act = action.resumed ∧ e.handed = { e.found with tmo_msecs := 0 } := by
  refine wait_pass_induct start now
    (fun _ _ r => ∀ e ∈ r.trace, e.act ≠ action.capped → past_deadline now e.found →
      e.act = action.resumed ∧ e.handed = { e.found with tmo_msecs := 0 })
    ?_ ?_ ?_ ?_ ?_ ts cnt
  · intro _ e he; simp at he
  · intro _ a t rest _ e he hne
    simp only [List.mem_singleton] at he
    subst he
    exact absurd rfl hne
  · intro _ a t rest r _ hdl _ ih e he hne hp
    simp only [List.mem_cons] at he
    rcases he with rfl | he
    · rw [past_deadline_not_blocked hp] at hdl
      exact absurd hdl (by simp)
    · exact ih e he hne hp
  · intro _ a t rest r _ _ hdead _ ih e he hne hp
    simp only [List.mem_cons] at he
    rcases he with rfl | he
    · rw [past_deadline_alive hp] at hdead
      exact absurd hdead (by simp)
    · exact ih e he hne hp
  · intro _ a t rest r _ _ _ _ ih e he hne hp
    simp only [List.mem_cons] at he
    rcases he with rfl | he
    · exact ⟨rfl, past_deadline_clear hp⟩
    · exact ih e he hne hp

/-- Whenever a pass of `await/0` gets to a task that is past its deadline, it
clears the deadline and resumes the task. -/
theorem await_pass_past_deadline (start : query → query × Bool) (now : Nat)
    (fuel cnt : Nat) (ts : List (Nat × query)) :
    ∀ e ∈ (await_pass start now fuel cnt ts).trace, e.act ≠ action.capped →
      past_deadline now e.found →
      e.act = action.resumed ∧ e.handed = { e.found with tmo_msecs := 0 } := by
  refine await_pass_induct start now
    (fun _ _ _ r => ∀ e ∈ r.trace, e.act ≠ action.capped → past_deadline now e.found →
      e.act = action.resumed ∧ e.handed = { e.found with tmo_msecs := 0 })
    ?_ ?_ ?_ ?_ ?_ ?_ ?_ fuel cnt ts
  · intro _ _ e he; simp at he
  · intro _ _ e he; simp at he
  · intro _ _ a t rest _ e he hne
    simp only [List.mem_singleton] at he
    subst he
    exact absurd rfl hne
  · intro _ _ a t rest r _ hdl _ ih e he hne hp
    simp only [List.mem_cons] at he
    rcases he with rfl | he
    · rw [past_deadline_not_blocked hp] at hdl
      exact absurd hdl (by simp)
    · exact ih e he hne hp
  · intro _ _ a t rest r _ _ hdead _ ih e he hne hp
    simp only [List.mem_cons] at he
    rcases he with rfl | he
    · rw [past_deadline_alive hp] at hdead
      exact absurd hdead (by simp)
    · exact ih e he hne hp
  · intro _ _ a t rest _ _ _ _ e he hne hp
    simp only [List.mem_singleton] at he
    subst he
    exact ⟨rfl, past_deadline_clear hp⟩
  · intro _ _ a t rest r _ _ _ _ _ ih e he hne hp
    simp only [List.mem_cons] at he
    rcases he with rfl | he
    · exact ⟨rfl, past_deadline_clear hp⟩
    · exact ih e he hne hp

theorem not_mem_addrs_cons {a a0 : Nat} {t0 : query} {pre1 : List (Nat × query)}
    (h : a ∉ addrs ((a0, t0) :: pre1)) : a0 ≠ a ∧ a ∉ addrs pre1 := by
  simp only [addrs_cons, List.mem_cons, not_or] at h
  exact ⟨fun e => h.1 e.symm, h.2⟩

theorem left_in_place_cons {a a0 : Nat} {t t0 : query} {pre1 post : List (Nat × query)}
    {r : pass_result} (t1 : query) (e0 : event) (tasks' : List (Nat × query)) (trace' : List event)
    (hr : left_in_place a t pre1 post r) (hne : a0 ≠ a) (he0 : e0.addr = a0)
    (htasks : tasks' = (a0, t1) :: r.tasks ∨ tasks' = r.tasks) (htrace : trace' = e0 :: r.trace)
    (ds ew fin : Bool) :
    left_in_place a t ((a0, t0) :: pre1) post ⟨tasks', trace', ds, ew, fin⟩ := by
  obtain ⟨⟨pre2, post2, h1, h2, h3⟩, h4⟩ := hr
  refine ⟨?_, ?_⟩
  · rcases htasks with ht | ht
    · exact ⟨(a0, t1) :: pre2, post2, by simp [ht, h1], by simpa [addrs] using h2, h3⟩
    · exact ⟨pre2, post2, by simp [ht, h1], List.Sublist.cons _ h2, h3⟩
  · intro e he hea
    simp only [htrace, List.mem_cons] at he
    rcases he with rfl | he
    · exact absurd (he0.symm.trans hea) hne
    · exact h4 e he hea

/-- A pass of `wait/0` taken before the deadline of a task without error leaves
the task in place. -/
theorem wait_pass_before_deadline (start : query → query × Bool) (now : Nat)
    (a : Nat) (t : query) (herr : t.error = false) (htmo : t.tmo_msecs ≠ 0)
    (hnow : now < t.tmo_msecs) (ts : List (Nat × query)) (cnt : Nat) :
    ∀ pre post, ts = pre ++ (a, t) :: post → a ∉ addrs pre → a ∉ addrs post →
      left_in_place a t pre post (wait_pass start now cnt ts) := by
  have hblock := blocked_of_before herr htmo hnow
  refine wait_pass_induct start now
    (fun _ ts r => ∀ pre post, ts = pre ++ (a, t) :: post → a ∉ addrs pre → a ∉ addrs post →
      left_in_place a t pre post r)
    ?_ ?_ ?_ ?_ ?_ ts cnt
  · intro _ pre post h; simp at h
  · intro _ a0 t0 rest _ pre post h hpre _
    refine ⟨⟨pre, post, h, List.Sublist.refl _, List.Sublist.refl _⟩, ?_⟩
    intro e he hea
    simp only [List.mem_singleton] at he
    subst he
    rcases cons_eq_append_cases h with ⟨_, hx, _⟩ | ⟨pre1, hp, _⟩
    · simp only [Prod.mk.injEq] at hx
      exact ⟨hx.2, hx.2, Or.inr rfl⟩
    · subst hp
      exact absurd hea (not_mem_addrs_cons hpre).1
  · intro c0 a0 t0 rest r _ _ hr ih pre post h hpre hpost
    rcases cons_eq_append_cases h with ⟨hp, hx, hrest⟩ | ⟨pre1, hp, hrest⟩
    · simp only [Prod.mk.injEq] at hx
      obtain ⟨rfl, rfl⟩ := hx
      subst hp hrest
      have haddr := wait_pass_addrs start now rest (bump c0 t0)
      rw [← hr] at haddr
      refine ⟨⟨[], r.tasks, rfl, List.Sublist.refl _, haddr.1⟩, ?_⟩
      intro e he
      simp only [List.mem_cons] at he
      rcases he with rfl | he
      · intro _; exact ⟨rfl, rfl, Or.inl rfl⟩
      · intro hea
        exact absurd (hea ▸ haddr.2 e he) hpost
    · subst hp
      have hh := not_mem_addrs_cons hpre
      exact left_in_place_cons _ ⟨a0, t0, t0, action.skipped⟩ _ _ (ih pre1 post hrest hh.2 hpost)
        hh.1 rfl (Or.inl rfl) rfl _ _ _
  · intro _ a0 t0 rest r _ hdl _ _ ih pre post h hpre hpost
    rcases cons_eq_append_cases h with ⟨_, hx, _⟩ | ⟨pre1, hp, hrest⟩
    · simp only [Prod.mk.injEq] at hx
      rw [hx.2, hblock] at hdl
      exact absurd hdl (by simp)
    · subst hp
      have hh := not_mem_addrs_cons hpre
      exact left_in_place_cons t0 ⟨a0, t0, clear_deadline t0, action.destroyed⟩ _ _
        (ih pre1 post hrest hh.2 hpost) hh.1 rfl (Or.inr rfl) rfl _ _ _
  · intro _ a0 t0 rest r _ hdl _ _ ih pre post h hpre hpost
    rcases cons_eq_append_cases h with ⟨_, hx, _⟩ | ⟨pre1, hp, hrest⟩
    · simp only [Prod.mk.injEq] at hx
      rw [hx.2, hblock] at hdl
      exact absurd hdl (by simp)
    · subst hp
      have hh := not_mem_addrs_cons hpre
      exact left_in_place_cons _ ⟨a0, t0, clear_deadline t0, action.resumed⟩ _ _
        (ih pre1 post hrest hh.2 hpost) hh.1 rfl (Or.inl rfl) rfl _ _ _

theorem left_in_place_addrs {a : Nat} {t : query} {pre pre0 post : List (Nat × query)}
    {r : pass_result} (h : left_in_place a t pre post r) (hp : addrs pre = addrs pre0) :
    left_in_place a t pre0 post r := by
  unfold left_in_place at *
  rw [← hp]
  exact h

/-- A pass of `await/0` taken before the deadline of a task without error
leaves the task in place, however far the pass got. -/
theorem await_pass_before_deadline (start : query → query × Bool) (now : Nat)
    (a : Nat) (t : query) (herr : t.error = false) (htmo : t.tmo_msecs ≠ 0)
    (hnow : now < t.tmo_msecs) (fuel cnt : Nat) (ts : List (Nat × query)) :
    ∀ pre post, ts = pre ++ (a, t) :: post → a ∉ addrs pre → a ∉ addrs post →
      left_in_place a t pre post (await_pass start now fuel cnt ts) := by
  have hblock := blocked_of_before herr htmo hnow
  refine await_pass_induct start now
    (fun _ _ ts r => ∀ pre post, ts = pre ++ (a, t) :: post → a ∉ addrs pre → a ∉ addrs post →
      left_in_place a t pre post r)
    ?_ ?_ ?_ ?_ ?_ ?_ ?_ fuel cnt ts
  · intro _ ts pre post h _ _
    exact ⟨⟨pre, post, h, List.Sublist.refl _, List.Sublist.refl _⟩, by simp⟩
  · intro _ _ pre post h; simp at h
  · intro _ _ a0 t0 rest _ pre post h hpre _
    refine ⟨⟨pre, post, h, List.Sublist.refl _, List.Sublist.refl _⟩, ?_⟩
    intro e he hea
    simp only [List.mem_singleton] at he
    subst he
    rcases cons_eq_append_cases h with ⟨_, hx, _⟩ | ⟨pre1, hp, _⟩
    · simp only [Prod.mk.injEq] at hx
      exact ⟨hx.2, hx.2, Or.inr rfl⟩
    · subst hp
      exact absurd hea (not_mem_addrs_cons hpre).1
  · intro f0 c0 a0 t0 rest r _ _ hr ih pre post h hpre hpost
    rcases cons_eq_append_cases h with ⟨hp, hx, hrest⟩ | ⟨pre1, hp, hrest⟩
    · simp only [Prod.mk.injEq] at hx
      obtain ⟨rfl, rfl⟩ := hx
      subst hp hrest
      have haddr := await_pass_addrs start now f0 (bump c0 t0) rest
      rw [← hr] at haddr
      refine ⟨⟨[], r.tasks, rfl, List.Sublist.refl _, haddr.1⟩, ?_⟩
      intro e he
      simp only [List.mem_cons] at he
      rcases he with rfl | he
      · intro _; exact ⟨rfl, rfl, Or.inl rfl⟩
      · intro hea
        exact absurd (hea ▸ haddr.2 e he) hpost
    · subst hp
      have hh := not_mem_addrs_cons hpre
      exact left_in_place_cons _ ⟨a0, t0, t0, action.skipped⟩ _ _ (ih pre1 post hrest hh.2 hpost)
        hh.1 rfl (Or.inl rfl) rfl _ _ _
  · intro _ _ a0 t0 rest r _ hdl _ _ ih pre post h hpre hpost
    rcases cons_eq_append_cases h with ⟨_, hx, _⟩ | ⟨pre1, hp, hrest⟩
    · simp only [Prod.mk.injEq] at hx
      rw [hx.2, hblock] at hdl
      exact absurd hdl (by simp)
    · subst hp
      have hh := not_mem_addrs_cons hpre
      exact left_in_place_cons t0 ⟨a0, t0, clear_deadline t0, action.destroyed⟩ _ _
        (ih pre1 post hrest hh.2 hpost) hh.1 rfl (Or.inr rfl) rfl _ _ _
  · intro _ _ a0 t0 rest _ hdl _ _ pre post h hpre hpost
    rcases cons_eq_append_cases h with ⟨_, hx, _⟩ | ⟨pre1, hp, hrest⟩
    · simp only [Prod.mk.injEq] at hx
      rw [hx.2, hblock] at hdl
      exact absurd hdl (by simp)
    · subst hp
      have hh := not_mem_addrs_cons hpre
      refine ⟨⟨(a0, (start (clear_deadline t0)).1) :: pre1, post, by simp [hrest],
        by simp [addrs], List.Sublist.refl _⟩, ?_⟩
      intro e he hea
      simp only [List.mem_singleton] at he
      subst he
      exact absurd hea hh.1
  · intro _ _ a0 t0 rest r _ hdl _ _ _ ih pre post h hpre hpost
    rcases cons_eq_append_cases h with ⟨_, hx, _⟩ | ⟨pre1, hp, hrest⟩
    · simp only [Prod.mk.injEq] at hx
      rw [hx.2, hblock] at hdl
      exact absurd hdl (by simp)
    · subst hp
      have hh := not_mem_addrs_cons hpre
      have h1 := ih ((a0, (start (clear_deadline t0)).1) :: pre1) post (by simp [hrest])
        (by simpa [addrs] using hpre) hpost
      have h2 : left_in_place a t ((a0, t0) :: pre1) post r :=
        left_in_place_addrs h1 (by simp [addrs])
      obtain ⟨h3, h4⟩ := h2
      refine ⟨h3, ?_⟩
      intro e he hea
      simp only [List.mem_cons] at he
      rcases he with rfl | he
      · exact absurd hea hh.1
      · exact h4 e he hea

theorem spawn_count_nil : spawn_count [] = 0 := rfl

theorem spawn_count_cons (a : Nat) (t : query) (l : List (Nat × query)) (cnt : Nat) :
    cnt + spawn_count ((a, t) :: l) = bump cnt t + spawn_count l := by
  unfold bump spawn_count
  by_cases hs : t.spawned = true <;> simp [List.filter_cons, hs]
  omega

theorem not_capped_of_count {cnt a : Nat} {t : query} {l : List (Nat × query)}
    (h : cnt + spawn_count ((a, t) :: l) < fairness_cap) :
    (t.spawned && decide (bump cnt t ≥ fairness_cap)) = false := by
  rw [spawn_count_cons] at h
  have : ¬ bump cnt t ≥ fairness_cap := by omega
  simp [this]

theorem capped_of_count {cnt a : Nat} {t : query} (hcnt : cnt < fairness_cap)
    (h : cnt + spawn_count [(a, t)] ≥ fairness_cap) :
    (t.spawned && decide (bump cnt t ≥ fairness_cap)) = true := by
  rw [spawn_count_cons, spawn_count_nil] at h
  unfold bump at h ⊢
  by_cases hs : t.spawned = true
  · simp [hs] at h ⊢; omega
  · simp [hs] at h; omega

theorem cancel_scan_append (future : Nat) (a : Nat) (t : query) (post : List (Nat × query))
    (ht : t.future = future) (pre : List (Nat × query))
    (hpre : ∀ p ∈ pre, p.2.future ≠ future) :
    cancel_scan future (pre ++ (a, t) :: post) = pre ++ (a, { t with error := true }) :: post := by
  induction pre with
  | nil => simp [cancel_scan, ht]
  | cons p pre1 ih =>
    obtain ⟨a0, t0⟩ := p
    have h0 : t0.future ≠ future := hpre (a0, t0) (by simp)
    have ih1 := ih (fun p hp => hpre p (by simp [hp]))
    rw [List.cons_append, cancel_scan, if_neg h0, ih1, List.cons_append]

/-- A task marked as failed is gone after a pass of `wait/0` that gets to it. -/
theorem wait_pass_reaps (start : query → query × Bool) (now : Nat) (a : Nat) (t : query)
    (herr : t.error = true) (ts : List (Nat × query)) (cnt : Nat) :
    ∀ pre post, ts = pre ++ (a, t) :: post → a ∉ addrs pre → a ∉ addrs post →
      cnt + spawn_count (pre ++ [(a, t)]) < fairness_cap →
      a ∉ addrs (wait_pass start now cnt ts).tasks := by
  have hnb : deadline_blocks now t = false := by simp [deadline_blocks, herr]
  refine wait_pass_induct start now
    (fun cnt ts r => ∀ pre post, ts = pre ++ (a, t) :: post → a ∉ addrs pre → a ∉ addrs post →
      cnt + spawn_count (pre ++ [(a, t)]) < fairness_cap → a ∉ addrs r.tasks)
    ?_ ?_ ?_ ?_ ?_ ts cnt
  · intro _ pre post h; simp at h
  · intro c0 a0 t0 rest hcap pre post h _ _ hc
    rcases cons_eq_append_cases h with ⟨hp, hx, _⟩ | ⟨pre1, hp, _⟩
    · simp only [Prod.mk.injEq] at hx
      obtain ⟨rfl, rfl⟩ := hx
      subst hp
      rw [not_capped_of_count (by simpa using hc)] at hcap
      exact absurd hcap (by simp)
    · subst hp
      rw [not_capped_of_count (by simpa using hc)] at hcap
      exact absurd hcap (by simp)
  · intro c0 a0 t0 rest r _ hdl _ ih pre post h hpre hpost hc
    rcases cons_eq_append_cases h with ⟨_, hx, _⟩ | ⟨pre1, hp, hrest⟩
    · simp only [Prod.mk.injEq] at hx
      rw [hx.2, hnb] at hdl
      exact absurd hdl (by simp)
    · subst hp
      have hh := not_mem_addrs_cons hpre
      have hc2 : bump c0 t0 + spawn_count (pre1 ++ [(a, t)]) < fairness_cap := by
        rw [← spawn_count_cons a0]; simpa using hc
      have := ih pre1 post hrest hh.2 hpost hc2
      simp only [addrs_cons, List.mem_cons, not_or]
      exact ⟨fun e => hh.1 e.symm, this⟩
  · intro c0 a0 t0 rest r _ _ _ hr ih pre post h hpre hpost hc
    rcases cons_eq_append_cases h with ⟨hp, hx, hrest⟩ | ⟨pre1, hp, hrest⟩
    · subst hrest
      have haddr := (wait_pass_addrs start now rest (bump c0 t0)).1
      rw [← hr] at haddr
      exact fun hmem => hpost (haddr.subset hmem)
    · subst hp
      have hh := not_mem_addrs_cons hpre
      have hc2 : bump c0 t0 + spawn_count (pre1 ++ [(a, t)]) < fairness_cap := by
        rw [← spawn_count_cons a0]; simpa using hc
      exact ih pre1 post hrest hh.2 hpost hc2
  · intro c0 a0 t0 rest r _ _ hdead _ ih pre post h hpre hpost hc
    rcases cons_eq_append_cases h with ⟨_, hx, _⟩ | ⟨pre1, hp, hrest⟩
    · simp only [Prod.mk.injEq] at hx
      have : is_dead (clear_deadline t) = true := by
        simp [clear_deadline, herr, is_dead]
      rw [hx.2, this] at hdead
      exact absurd hdead (by simp)
    · subst hp
      have hh := not_mem_addrs_cons hpre
      have hc2 : bump c0 t0 + spawn_count (pre1 ++ [(a, t)]) < fairness_cap := by
        rw [← spawn_count_cons a0]; simpa using hc
      have := ih pre1 post hrest hh.2 hpost hc2
      simp only [addrs_cons, List.mem_cons, not_or]
      exact ⟨fun e => hh.1 e.symm, this⟩

/-- A pass of `wait/0` resumes a due task standing behind fewer spawned tasks
than the cap allows. -/
theorem wait_pass_reaches (start : query → query × Bool) (now : Nat) (a : Nat) (t : query)
    (hdl : deadline_blocks now t = false) (hdead : is_dead (clear_deadline t) = false)
    (ts : List (Nat × query)) (cnt : Nat) :
    ∀ pre post, ts = pre ++ (a, t) :: post →
      cnt + spawn_count (pre ++ [(a, t)]) < fairness_cap →
      (⟨a, t, clear_deadline t, action.resumed⟩ : event) ∈ (wait_pass start now cnt ts).trace := by
  refine wait_pass_induct start now
    (fun cnt ts r => ∀ pre post, ts = pre ++ (a, t) :: post →
      cnt + spawn_count (pre ++ [(a, t)]) < fairness_cap →
      (⟨a, t, clear_deadline t, action.resumed⟩ : event) ∈ r.trace)
    ?_ ?_ ?_ ?_ ?_ ts cnt
  · intro _ pre post h; simp at h
  · intro c0 a0 t0 rest hcap pre post h hc
    rcases cons_eq_append_cases h with ⟨hp, hx, _⟩ | ⟨pre1, hp, _⟩
    · simp only [Prod.mk.injEq] at hx
      obtain ⟨rfl, rfl⟩ := hx
      subst hp
      rw [not_capped_of_count (by simpa using hc)] at hcap
      exact absurd hcap (by simp)
    · subst hp
      rw [not_capped_of_count (by simpa using hc)] at hcap
      exact absurd hcap (by simp)
  · intro c0 a0 t0 rest r _ hdl0 _ ih pre post h hc
    rcases cons_eq_append_cases h with ⟨_, hx, _⟩ | ⟨pre1, hp, hrest⟩
    · simp only [Prod.mk.injEq] at hx
      rw [hx.2, hdl] at hdl0
      exact absurd hdl0 (by simp)
    · subst hp
      have hc2 : bump c0 t0 + spawn_count (pre1 ++ [(a, t)]) < fairness_cap := by
        rw [← spawn_count_cons a0]; simpa using hc
      exact List.mem_cons_of_mem _ (ih pre1 post hrest hc2)
  · intro c0 a0 t0 rest r _ _ hdead0 _ ih pre post h hc
    rcases cons_eq_append_cases h with ⟨_, hx, _⟩ | ⟨pre1, hp, hrest⟩
    · simp only [Prod.mk.injEq] at hx
      rw [hx.2, hdead] at hdead0
      exact absurd hdead0 (by simp)
    · subst hp
      have hc2 : bump c0 t0 + spawn_count (pre1 ++ [(a, t)]) < fairness_cap := by
        rw [← spawn_count_cons a0]; simpa using hc
      exact List.mem_cons_of_mem _ (ih pre1 post hrest hc2)
  · intro c0 a0 t0 rest r _ _ _ _ ih pre post h hc
    rcases cons_eq_append_cases h with ⟨_, hx, _⟩ | ⟨pre1, hp, hrest⟩
    · simp only [Prod.mk.injEq] at hx
      obtain ⟨rfl, rfl⟩ := hx
      exact List.mem_cons_self _ _
    · subst hp
      have hc2 : bump c0 t0 + spawn_count (pre1 ++ [(a, t)]) < fairness_cap := by
        rw [← spawn_count_cons a0]; simpa using hc
      exact List.mem_cons_of_mem _ (ih pre1 post hrest hc2)

/-- A pass of `wait/0` does nothing but stop at a task that has as many
spawned tasks at or before it as the cap. -/
theorem wait_pass_cut_off (start : query → query × Bool) (now : Nat) (a : Nat) (t : query)
    (ts : List (Nat × query)) (cnt : Nat) :
    ∀ pre post, ts = pre ++ (a, t) :: post → a ∉ addrs pre → cnt < fairness_cap →
      fairness_cap ≤ cnt + spawn_count (pre ++ [(a, t)]) →
      ∀ e ∈ (wait_pass start now cnt ts).trace, e.addr = a → e.act = action.capped := by
  refine wait_pass_induct start now
    (fun cnt ts r => ∀ pre post, ts = pre ++ (a, t) :: post → a ∉ addrs pre →
      cnt < fairness_cap → fairness_cap ≤ cnt + spawn_count (pre ++ [(a, t)]) →
      ∀ e ∈ r.trace, e.addr = a → e.act = action.capped)
    ?_ ?_ ?_ ?_ ?_ ts cnt
  · intro _ pre post h; simp at h
  · intro c0 a0 t0 rest _ pre post _ _ _ _ e he _
    simp only [List.mem_singleton] at he
    subst he
    rfl
  · intro c0 a0 t0 rest r hcap _ _ ih pre post h hpre hcnt hc e he hea
    rcases cons_eq_append_cases h with ⟨hp, hx, _⟩ | ⟨pre1, hp, hrest⟩
    · simp only [Prod.mk.injEq] at hx
      obtain ⟨rfl, rfl⟩ := hx
      subst hp
      rw [capped_of_count hcnt (by simpa using hc)] at hcap
      exact absurd hcap (by simp)
    · subst hp
      have hh := not_mem_addrs_cons hpre
      have hc2 : fairness_cap ≤ bump c0 t0 + spawn_count (pre1 ++ [(a, t)]) := by
        rw [← spawn_count_cons a0]; simpa using hc
      simp only [List.mem_cons] at he
      rcases he with rfl | he
      · exact absurd hea hh.1
      · exact ih pre1 post hrest hh.2 (bump_lt_cap hcnt hcap) hc2 e he hea
  · intro c0 a0 t0 rest r hcap _ _ _ ih pre post h hpre hcnt hc e he hea
    rcases cons_eq_append_cases h with ⟨hp, hx, _⟩ | ⟨pre1, hp, hrest⟩
    · simp only [Prod.mk.injEq] at hx
      obtain ⟨rfl, rfl⟩ := hx
      subst hp
      rw [capped_of_count hcnt (by simpa using hc)] at hcap
      exact absurd hcap (by simp)
    · subst hp
      have hh := not_mem_addrs_cons hpre
      have hc2 : fairness_cap ≤ bump c0 t0 + spawn_count (pre1 ++ [(a, t)]) := by
        rw [← spawn_count_cons a0]; simpa using hc
      simp only [List.mem_cons] at he
      rcases he with rfl | he
      · exact absurd hea hh.1
      · exact ih pre1 post hrest hh.2 (bump_lt_cap hcnt hcap) hc2 e he hea
  · intro c0 a0 t0 rest r hcap _ _ _ ih pre post h hpre hcnt hc e he hea
    rcases cons_eq_append_cases h with ⟨hp, hx, _⟩ | ⟨pre1, hp, hrest⟩
    · simp only [Prod.mk.injEq] at hx
      obtain ⟨rfl, rfl⟩ := hx
      subst hp
      rw [capped_of_count hcnt (by simpa using hc)] at hcap
      exact absurd hcap (by simp)
    · subst hp
      have hh := not_mem_addrs_cons hpre
      have hc2 : fairness_cap ≤ bump c0 t0 + spawn_count (pre1 ++ [(a, t)]) := by
        rw [← spawn_count_cons a0]; simpa using hc
      simp only [List.mem_cons] at he
      rcases he with rfl | he
      · exact absurd hea hh.1
      · exact ih pre1 post hrest hh.2 (bump_lt_cap hcnt hcap) hc2 e he hea

theorem passes_needed_pos (t : query) : 1 ≤ passes_needed t := by
  unfold passes_needed; split <;> omega

theorem passes_needed_le (t : query) : passes_needed t ≤ 2 := by
  unfold passes_needed; split <;> omega

theorem clear_deadline_of_zero {t : query} (h : t.tmo_msecs = 0) : clear_deadline t = t := by
  simp [clear_deadline, h]

/-- When every task finishes on being resumed and none has a deadline, a pass
of `wait/0` keeps this so, asserts no end-wait signal and works off the load of
the registry. -/
theorem wait_pass_progress (start : query → query × Bool) (hfin : finishes start) (now : Nat)
    (ts : List (Nat × query)) (cnt : Nat) :
    (∀ p ∈ ts, p.2.tmo_msecs = 0) →
      (∀ p ∈ (wait_pass start now cnt ts).tasks, p.2.tmo_msecs = 0) ∧
      (wait_pass start now cnt ts).end_wait = false ∧
      load (wait_pass start now cnt ts).tasks ≤ load ts ∧
      (ts ≠ [] → cnt + 1 < fairness_cap → load (wait_pass start now cnt ts).tasks < load ts) := by
  refine wait_pass_induct start now
    (fun cnt ts r => (∀ p ∈ ts, p.2.tmo_msecs = 0) →
      (∀ p ∈ r.tasks, p.2.tmo_msecs = 0) ∧ r.end_wait = false ∧ load r.tasks ≤ load ts ∧
      (ts ≠ [] → cnt + 1 < fairness_cap → load r.tasks < load ts))
    ?_ ?_ ?_ ?_ ?_ ts cnt
  · intro _ _
    exact ⟨by simp, rfl, le_refl _, fun h => absurd rfl h⟩
  · intro c0 a t rest hcap h
    refine ⟨h, rfl, le_refl _, ?_⟩
    intro _ hc
    exfalso
    simp only [Bool.and_eq_true, decide_eq_true_eq] at hcap
    have := hcap.2
    unfold bump at this
    simp only [hcap.1, if_true] at this
    omega
  · intro c0 a t rest r _ hdl _ _ h
    have h0 : t.tmo_msecs = 0 := h (a, t) (by simp)
    simp [deadline_blocks, h0] at hdl
  · intro c0 a t rest r _ _ _ _ ih h
    obtain ⟨i1, i2, i3, _⟩ := ih (fun p hp => h p (by simp [hp]))
    have := passes_needed_pos t
    refine ⟨i1, i2, ?_, ?_⟩
    · simp only [load]; omega
    · intro _ _; simp only [load]; omega
  · intro c0 a t rest r _ _ hdead _ ih h
    obtain ⟨i1, i2, i3, _⟩ := ih (fun p hp => h p (by simp [hp]))
    have h0 : t.tmo_msecs = 0 := h (a, t) (by simp)
    obtain ⟨f1, f2, f3⟩ := hfin (clear_deadline t)
    rw [clear_deadline_of_zero h0] at hdead f1 f2 f3
    have hs : passes_needed (start t).1 = 1 := by simp [passes_needed, is_dead, f1]
    have ht : passes_needed t = 2 := by simp [passes_needed, hdead]
    rw [clear_deadline_of_zero h0]
    refine ⟨?_, by simp [f3, i2], ?_, ?_⟩
    · intro p hp
      simp only [List.mem_cons] at hp
      rcases hp with rfl | hp
      · simpa [h0] using f2
      · exact i1 p hp
    · simp only [load]; omega
    · intro _ _; simp only [load]; omega

/-- With tasks that finish on being resumed and have no deadline, `wait/0`
returns true with an empty registry once it is given more passes than the load
of the registry. -/
theorem wait_drains (start : query → query × Bool) (hfin : finishes start) (clock : Nat → Nat)
    (fuel : Nat) :
    ∀ (k : Nat) (o : owner), (∀ p ∈ o.tasks, p.2.tmo_msecs = 0) → o.q.end_wait = false →
      load o.tasks < fuel →
      (bif_wait_0 start clock fuel k o).ret = some true ∧
      (bif_wait_0 start clock fuel k o).final.tasks = [] ∧
      (bif_wait_0 start clock fuel k o).final.q.end_wait = false := by
  induction fuel with
  | zero => intro k o _ _ h; omega
  | succ n ih =>
    intro k o htmo hew hload
    cases hts : o.tasks with
    | nil =>
      rw [bif_wait_0]
      simp [hts]
    | cons p rest =>
      obtain ⟨i1, i2, _, i4⟩ := wait_pass_progress start hfin (clock k) o.tasks 0 htmo
      have hlt := i4 (by simp [hts]) (by decide)
      have hrec := ih (k + 1)
        ⟨{ o.q with end_wait := o.q.end_wait || (wait_pass start (clock k) 0 o.tasks).end_wait },
          (wait_pass start (clock k) 0 o.tasks).tasks⟩ i1 (by simp [hew, i2]) (by dsimp only; omega)
      rw [bif_wait_0]
      have hcond : (!o.tasks.isEmpty && !o.q.end_wait) = true := by simp [hts, hew]
      rw [if_pos hcond]
      exact hrec

theorem spawn_all_tasks (specs : List (Nat × Nat)) :
    ∀ o : owner, (∀ p ∈ o.tasks, p.2.tmo_msecs = 0) →
      (∀ p ∈ (spawn_all o specs).tasks, p.2.tmo_msecs = 0) ∧
      load (spawn_all o specs).tasks ≤ 2 * specs.length + load o.tasks ∧
      (spawn_all o specs).q = o.q ∧
      (spawn_all o specs).tasks.length = specs.length + o.tasks.length := by
  induction specs with
  | nil => intro o h; exact ⟨h, by simp [spawn_all], rfl, by simp [spawn_all]⟩
  | cons s rest ih =>
    obtain ⟨addr, goal⟩ := s
    intro o h
    have h1 : ∀ p ∈ (bif_task_n o addr goal).2.tasks, p.2.tmo_msecs = 0 := by
      intro p hp
      simp only [bif_task_n, push_task, List.mem_cons] at hp
      rcases hp with rfl | hp
      · rfl
      · exact h p hp
    obtain ⟨i1, i2, i3, i4⟩ := ih (bif_task_n o addr goal).2 h1
    refine ⟨i1, ?_, i3, ?_⟩
    · have hl : load (bif_task_n o addr goal).2.tasks =
          passes_needed { query_create_task goal with yielded := true, spawned := true } +
            load o.tasks := rfl
      have := passes_needed_le { query_create_task goal with yielded := true, spawned := true }
      simp only [spawn_all, List.length_cons]
      omega
    · have hl : (bif_task_n o addr goal).2.tasks.length = o.tasks.length + 1 := rfl
      simp only [spawn_all, List.length_cons]
      omega

/-- A pass of `wait/0` over tasks that are all due and that `start` hands back
unchanged leaves the registry as it was and asserts no end-wait signal. -/
theorem wait_pass_unchanged (start : query → query × Bool) (now : Nat)
    (ts : List (Nat × query)) (cnt : Nat) :
    (∀ p ∈ ts, due_at now p.2 ∧ start (clear_deadline p.2) = (p.2, false)) →
      (wait_pass start now cnt ts).tasks = ts ∧ (wait_pass start now cnt ts).end_wait = false := by
  refine wait_pass_induct start now
    (fun _ ts r => (∀ p ∈ ts, due_at now p.2 ∧ start (clear_deadline p.2) = (p.2, false)) →
      r.tasks = ts ∧ r.end_wait = false)
    ?_ ?_ ?_ ?_ ?_ ts cnt
  · intro _ _; exact ⟨rfl, rfl⟩
  · intro _ a t rest _ _; exact ⟨rfl, rfl⟩
  · intro _ a t rest r _ hdl _ _ h
    have := (h (a, t) (by simp)).1.1
    rw [this] at hdl
    exact absurd hdl (by simp)
  · intro _ a t rest r _ _ hdead _ _ h
    have := (h (a, t) (by simp)).1.2
    rw [this] at hdead
    exact absurd hdead (by simp)
  · intro _ a t rest r _ _ _ _ ih h
    obtain ⟨i1, i2⟩ := ih (fun p hp => h p (by simp [hp]))
    have hs := (h (a, t) (by simp)).2
    simp only at hs
    simp [hs, i1, i2]

theorem crowd_tasks : ∀ p ∈ full_house, p.2 = spawned_task := by
  intro p hp
  simp only [full_house, crowd, List.mem_append, List.mem_map, List.mem_singleton] at hp
  rcases hp with ⟨i, _, rfl⟩ | rfl <;> rfl

theorem full_house_fixed (now cnt : Nat) :
    (wait_pass start_again now cnt full_house).tasks = full_house ∧
      (wait_pass start_again now cnt full_house).end_wait = false := by
  apply wait_pass_unchanged
  intro p hp
  rw [crowd_tasks p hp]
  exact ⟨⟨rfl, rfl⟩, rfl⟩

theorem crowd_addrs : (63 : Nat) ∉ addrs crowd := by
  simp [crowd, addrs]

theorem full_house_count : spawn_count (crowd ++ [(63, spawned_task)]) = 64 := by
  decide

/-- However long `wait/0` runs on `full_house` with tasks that yield again, no
pass does anything with the task at address 63 but stop in front of it. -/
theorem full_house_starves (clock : Nat → Nat) (fuel : Nat) :
    ∀ k, ∀ p ∈ (bif_wait_0 start_again clock fuel k ⟨fresh, full_house⟩).passes,
      ∀ e ∈ p.trace, e.addr = 63 → e.act = action.capped := by
  induction fuel with
  | zero => intro k p hp; simp [bif_wait_0] at hp
  | succ n ih =>
    intro k p hp
    obtain ⟨h1, h2⟩ := full_house_fixed (clock k) 0
    rw [bif_wait_0] at hp
    have hcond : (!(⟨fresh, full_house⟩ : owner).tasks.isEmpty &&
        !(⟨fresh, full_house⟩ : owner).q.end_wait) = true := by decide
    rw [if_pos hcond] at hp
    simp only [List.mem_cons] at hp
    rcases hp with rfl | hp
    · exact wait_pass_cut_off start_again (clock k) 63 spawned_task full_house 0 crowd [] rfl
        crowd_addrs (by decide) (by rw [full_house_count]; decide)
    · have : (⟨{ fresh with end_wait := fresh.end_wait ||
            (wait_pass start_again (clock k) 0 full_house).end_wait },
          (wait_pass start_again (clock k) 0 full_house).tasks⟩ : owner) = ⟨fresh, full_house⟩ := by
        rw [h1, h2]; rfl
      rw [this] at hp
      exact ih (k + 1) p hp

/-! ## Lemmas on the mailbox cursors, on await/0 and on the loop of wait/0 -/

theorem pop_queue_empty {q : query} (h : holds q []) : pop_queue q = (none, q) := by
  have := (holds_nil_iff q).mp h
  simp [pop_queue, this.1]

theorem run_ops_holds (ops : List mbox_op) :
    ∀ (q : query) (ms : List (List cell)), holds q ms → wf_ops ops →
      holds (run_ops q ops) (queued_after ms ops) := by
  induction ops with
  | nil => intro q ms h _; exact h
  | cons op ops ih =>
    intro q ms h hwf
    have hwf2 : wf_ops ops := fun t ht => hwf t (List.mem_cons_of_mem _ ht)
    cases op with
    | append t =>
      have ht : wf_term t := hwf t (List.mem_cons_self _ _)
      have h1 := alloc_on_queuen_holds t 0 h (by rw [term_at_zero_of_wf ht]; exact ht)
      rw [term_at_zero_of_wf ht] at h1
      exact ih _ _ h1 hwf2
    | pop =>
      cases ms with
      | nil =>
        simp only [run_ops, queued_after, List.tail_nil]
        rw [pop_queue_empty h]
        exact ih _ _ h hwf2
      | cons m rest =>
        obtain ⟨q1, hpop, _, _, hrest⟩ := pop_queue_holds h
        simp only [run_ops, queued_after, List.tail_cons, hpop]
        exact ih _ _ hrest hwf2

/-- What `holds` says about the cursors, and what `pop_queue` then does. -/
theorem holds_cursors {q : query} {ms : List (List cell)} (h : holds q ms) :
    ((q.popp = 0 ∧ q.qp = 0 ∧ ms = []) ∨ (q.popp < q.qp ∧ ms ≠ [])) ∧
    ((pop_queue q).1 = none ↔ ms = []) ∧
    (∀ c, (pop_queue q).1 = some c →
      c = q.popp ∧ c < q.qp ∧ c + (q.queue.getD c default).nbr_cells ≤ q.qp ∧
      ms.head? = some (term_at q.queue c)) ∧
    (((pop_queue q).2.popp = 0 ∧ (pop_queue q).2.qp = 0) ↔ ms.length ≤ 1) ∧
    (2 ≤ ms.length → (pop_queue q).2.qp = q.qp ∧ q.popp < (pop_queue q).2.popp) := by
  cases ms with
  | nil =>
    have h0 := (holds_nil_iff q).mp h
    rw [pop_queue_empty h]
    refine ⟨Or.inl ⟨h0.2, h0.1, rfl⟩, by simp, by simp, by simp [h0], by simp⟩
  | cons m rest =>
    obtain ⟨q1, hpop, hqueue, hterm, hrest⟩ := pop_queue_holds h
    obtain ⟨pre, tl, hq, hpre⟩ := holds_decomp h
    have hm : wf_term m := h.1 m (by simp)
    have hmpos : 0 < m.length := List.length_pos.mpr hm.1
    have hqp := h.2.1
    simp only [cells_of, List.length_append] at hqp
    have hnbr : (q.queue.getD q.popp default).nbr_cells = m.length := by
      have hq2 : q.queue = pre ++ m ++ (cells_of rest ++ tl) := by
        rw [hq]; simp [cells_of]
      rw [hq2, ← hpre]; exact nbr_cells_decomp _ _ _ hm
    rw [hpop]
    refine ⟨Or.inr ⟨by omega, by simp⟩, by simp, ?_, ?_, ?_⟩
    · intro c hc
      simp only [Option.some.injEq] at hc
      subst hc
      refine ⟨rfl, by omega, by rw [hnbr]; omega, by simp [hterm]⟩
    · cases rest with
      | nil =>
        have := (holds_nil_iff q1).mp hrest
        simp [this]
      | cons m2 rest2 =>
        have hm2 : wf_term m2 := hrest.1 m2 (by simp)
        have hm2pos : 0 < m2.length := List.length_pos.mpr hm2.1
        have h2 := hrest.2.1
        simp only [cells_of, List.length_append] at h2
        simp only [List.length_cons]
        constructor
        · rintro ⟨h3, h4⟩; omega
        · intro h3; omega
    · intro hlen
      cases rest with
      | nil => simp at hlen
      | cons m2 rest2 =>
        have h2 := hrest.2.1
        simp only [cells_of, List.length_append] at h2 hqp
        -- the read cursor moved by the length of `m`, the write mark stayed
        have hq1 : q1 = { q with popp := q.popp + m.length } := by
          have hne : q.qp ≠ 0 := by omega
          have hm2 : wf_term m2 := hrest.1 m2 (by simp)
          have hm2pos : 0 < m2.length := List.length_pos.mpr hm2.1
          have hne2 : q.popp + m.length ≠ q.qp := by omega
          have : pop_queue q = (some q.popp, { q with popp := q.popp + m.length }) := by
            simp only [pop_queue, hne, if_false, hnbr, hne2]
          rw [this] at hpop
          simp only [Prod.mk.injEq] at hpop
          exact hpop.2.symm
        rw [hq1]
        exact ⟨rfl, by simp; omega⟩

theorem getLast?_cons_of_some {α : Type} {l : List α} {e : α} (a : α)
    (h : l.getLast? = some e) : (a :: l).getLast? = some e := by
  rw [List.getLast?_cons, h]; rfl

/-- A pass of `await/0` ends with `did_something` set exactly when its last
iteration resumed a task that came back yielded and without deadline. -/
theorem await_pass_stop (start : query → query × Bool) (now : Nat)
    (fuel cnt : Nat) (ts : List (Nat × query)) :
    ((await_pass start now fuel cnt ts).did_something = true →
        (await_pass start now fuel cnt ts).finished = true ∧
        ∃ e, (await_pass start now fuel cnt ts).trace.getLast? = some e ∧
          e.act = action.resumed ∧ (start e.handed).1.tmo_msecs = 0 ∧
          (start e.handed).1.yielded = true ∧
          (e.addr, (start e.handed).1) ∈ (await_pass start now fuel cnt ts).tasks) ∧
      ∀ e ∈ (await_pass start now fuel cnt ts).trace, e.act = action.resumed →
        (start e.handed).1.tmo_msecs = 0 → (start e.handed).1.yielded = true →
        (await_pass start now fuel cnt ts).did_something = true ∧
        (await_pass start now fuel cnt ts).trace.getLast? = some e := by
  refine await_pass_induct start now
    (fun _ _ _ r =>
      (r.did_something = true → r.finished = true ∧
        ∃ e, r.trace.getLast? = some e ∧ e.act = action.resumed ∧
          (start e.handed).1.tmo_msecs = 0 ∧ (start e.handed).1.yielded = true ∧
          (e.addr, (start e.handed).1) ∈ r.tasks) ∧
      ∀ e ∈ r.trace, e.act = action.resumed →
        (start e.handed).1.tmo_msecs = 0 → (start e.handed).1.yielded = true →
        r.did_something = true ∧ r.trace.getLast? = some e)
    ?_ ?_ ?_ ?_ ?_ ?_ ?_ fuel cnt ts
  · intro _ _; exact ⟨fun h => by simp at h, fun e he => by simp at he⟩
  · intro _ _; exact ⟨fun h => by simp at h, fun e he => by simp at he⟩
  · intro _ _ a t rest _
    refine ⟨fun h => by simp at h, ?_⟩
    intro e he hact
    simp only [List.mem_singleton] at he
    subst he
    exact absurd hact (by simp)
  · intro _ _ a t rest r _ _ _ ih
    refine ⟨?_, ?_⟩
    · intro hd
      obtain ⟨hf, e, h1, h2, h3, h4, h5⟩ := ih.1 hd
      exact ⟨hf, e, getLast?_cons_of_some _ h1, h2, h3, h4, List.mem_cons_of_mem _ h5⟩
    · intro e he hact h3 h4
      simp only [List.mem_cons] at he
      rcases he with rfl | he
      · exact absurd hact (by simp)
      · obtain ⟨i1, i2⟩ := ih.2 e he hact h3 h4
        exact ⟨i1, getLast?_cons_of_some _ i2⟩
  · intro _ _ a t rest r _ _ _ _ ih
    refine ⟨?_, ?_⟩
    · intro hd
      obtain ⟨hf, e, h1, h2, h3, h4, h5⟩ := ih.1 hd
      exact ⟨hf, e, getLast?_cons_of_some _ h1, h2, h3, h4, h5⟩
    · intro e he hact h3 h4
      simp only [List.mem_cons] at he
      rcases he with rfl | he
      · exact absurd hact (by simp)
      · obtain ⟨i1, i2⟩ := ih.2 e he hact h3 h4
        exact ⟨i1, getLast?_cons_of_some _ i2⟩
  · intro _ _ a t rest _ _ _ hy
    simp only [Bool.and_eq_true, decide_eq_true_eq] at hy
    refine ⟨?_, ?_⟩
    · intro _
      exact ⟨rfl, ⟨a, t, clear_deadline t, action.resumed⟩, rfl, rfl, hy.1, hy.2,
        List.mem_cons_self _ _⟩
    · intro e he _ _ _
      simp only [List.mem_singleton] at he
      subst he
      exact ⟨rfl, rfl⟩
  · intro _ _ a t rest r _ _ _ hy _ ih
    refine ⟨?_, ?_⟩
    · intro hd
      obtain ⟨hf, e, h1, h2, h3, h4, h5⟩ := ih.1 hd
      exact ⟨hf, e, getLast?_cons_of_some _ h1, h2, h3, h4, h5⟩
    · intro e he hact h3 h4
      simp only [List.mem_cons] at he
      rcases he with rfl | he
      · simp [h3, h4] at hy
      · obtain ⟨i1, i2⟩ := ih.2 e he hact h3 h4
        exact ⟨i1, getLast?_cons_of_some _ i2⟩

/-- The polling loop of `await/0` ends on the first pass that sets
`did_something`, and ends with a non-empty registry only on such a pass. -/
theorem await_loop_stop (start : query → query × Bool) (clock : Nat → Nat) (inner : Nat)
    (fuel : Nat) :
    ∀ (k : Nat) (ts : List (Nat × query)),
      (∀ r ∈ (await_loop start clock inner fuel k ts).passes, r.did_something = true →
        (await_loop start clock inner fuel k ts).ended = true ∧
        (await_loop start clock inner fuel k ts).passes.getLast? = some r ∧
        (await_loop start clock inner fuel k ts).tasks = r.tasks ∧
        (await_loop start clock inner fuel k ts).tasks ≠ []) ∧
      ((await_loop start clock inner fuel k ts).ended = true →
        (await_loop start clock inner fuel k ts).tasks ≠ [] →
        ∃ r, (await_loop start clock inner fuel k ts).passes.getLast? = some r ∧
          r.did_something = true) ∧
      ∀ r ∈ (await_loop start clock inner fuel k ts).passes,
        ∃ n c l, r = await_pass start n inner c l := by
  induction fuel with
  | zero =>
    intro k ts
    simp [await_loop]
  | succ n ih =>
    intro k ts
    simp only [await_loop]
    split_ifs with hts hfin hd
    · refine ⟨by simp, ?_, by simp⟩
      intro _ h
      exact absurd (List.isEmpty_iff.mp hts) h
    · refine ⟨?_, by simp, ?_⟩
      · intro r hr hrd
        simp only [List.mem_singleton] at hr
        subst hr
        have := ((await_pass_stop start (clock k) inner 0 ts).1 hrd).1
        rw [this] at hfin
        exact absurd hfin (by simp)
      · intro r hr
        simp only [List.mem_singleton] at hr
        exact ⟨_, _, _, hr⟩
    · obtain ⟨_, e, _, _, _, _, hmem⟩ := (await_pass_stop start (clock k) inner 0 ts).1 hd
      refine ⟨?_, ?_, ?_⟩
      · intro r hr _
        simp only [List.mem_singleton] at hr
        subst hr
        exact ⟨rfl, rfl, rfl, List.ne_nil_of_mem hmem⟩
      · intro _ _
        exact ⟨_, rfl, hd⟩
      · intro r hr
        simp only [List.mem_singleton] at hr
        exact ⟨_, _, _, hr⟩
    · obtain ⟨i1, i2, i3⟩ := ih (k + 1) (await_pass start (clock k) inner 0 ts).tasks
      refine ⟨?_, ?_, ?_⟩
      · intro r hr hrd
        simp only [List.mem_cons] at hr
        rcases hr with rfl | hr
        · exact absurd hrd hd
        · obtain ⟨j1, j2, j3, j4⟩ := i1 r hr hrd
          exact ⟨j1, getLast?_cons_of_some _ j2, j3, j4⟩
      · intro he hne
        obtain ⟨r, j1, j2⟩ := i2 he hne
        exact ⟨r, getLast?_cons_of_some _ j1, j2⟩
      · intro r hr
        simp only [List.mem_cons] at hr
        rcases hr with rfl | hr
        · exact ⟨_, _, _, rfl⟩
        · exact i3 r hr

/-- The result of `bif_await_0` in terms of its polling loop. -/
theorem bif_await_0_spec (start : query → query × Bool) (clock : Nat → Nat) (inner fuel : Nat)
    (push_ok : Bool) (o : owner) :
    (bif_await_0 start clock inner fuel push_ok o).passes =
        (await_loop start clock inner fuel 0 o.tasks).passes ∧
      (bif_await_0 start clock inner fuel push_ok o).final.tasks =
        (await_loop start clock inner fuel 0 o.tasks).tasks ∧
      (bif_await_0 start clock inner fuel push_ok o).ret =
        (if (await_loop start clock inner fuel 0 o.tasks).ended = false then none
          else if (await_loop start clock inner fuel 0 o.tasks).tasks = [] then
            some (outcome.ret false)
          else if push_ok then some (outcome.ret true) else some outcome.resource_error) ∧
      (bif_await_0 start clock inner fuel push_ok o).pushed =
        ((await_loop start clock inner fuel 0 o.tasks).ended &&
          !(await_loop start clock inner fuel 0 o.tasks).tasks.isEmpty && push_ok) := by
  unfold bif_await_0
  cases he : (await_loop start clock inner fuel 0 o.tasks).ended with
  | false => simp [he]
  | true =>
    cases ht : (await_loop start clock inner fuel 0 o.tasks).tasks with
    | nil => simp [he, ht]
    | cons p rest => cases push_ok <;> simp [he, ht]

/-- When `await/0` returns true its polling loop has ended with a non-empty
registry and the choice point could be pushed. -/
theorem bif_await_0_true (start : query → query × Bool) (clock : Nat → Nat) (inner fuel : Nat)
    (push_ok : Bool) (o : owner)
    (h : (bif_await_0 start clock inner fuel push_ok o).ret = some (outcome.ret true)) :
    (await_loop start clock inner fuel 0 o.tasks).ended = true ∧
      (await_loop start clock inner fuel 0 o.tasks).tasks ≠ [] ∧ push_ok = true := by
  rw [(bif_await_0_spec start clock inner fuel push_ok o).2.2.1] at h
  by_cases he : (await_loop start clock inner fuel 0 o.tasks).ended = false
  · rw [if_pos he] at h; exact absurd h (by simp)
  · rw [if_neg he] at h
    by_cases hts : (await_loop start clock inner fuel 0 o.tasks).tasks = []
    · rw [if_pos hts] at h; exact absurd h (by simp)
    · rw [if_neg hts] at h
      cases push_ok with
      | false => exact absurd h (by simp)
      | true => exact ⟨by simpa using he, hts, rfl⟩

theorem is_dead_clear_deadline (t : query) : is_dead (clear_deadline t) = is_dead t := by
  unfold clear_deadline is_dead
  split <;> rfl

/-- In a pass of `wait/0`, an iteration that finds a dead task does not resume
it, and destroys it unless the deadline blocks or the pass stops at the cap. -/
theorem wait_pass_dead (start : query → query × Bool) (now : Nat)
    (ts : List (Nat × query)) (cnt : Nat) :
    ∀ e ∈ (wait_pass start now cnt ts).trace, is_dead e.found = true →
      e.act ≠ action.resumed ∧
      (deadline_blocks now e.found = false → e.act ≠ action.capped → e.act = action.destroyed) := by
  refine wait_pass_induct start now
    (fun _ _ r => ∀ e ∈ r.trace, is_dead e.found = true →
      e.act ≠ action.resumed ∧
      (deadline_blocks now e.found = false → e.act ≠ action.capped → e.act = action.destroyed))
    ?_ ?_ ?_ ?_ ?_ ts cnt
  · intro _ e he; simp at he
  · intro _ a t rest _ e he _
    simp only [List.mem_singleton] at he
    subst he
    exact ⟨by simp, fun _ h => absurd rfl h⟩
  · intro _ a t rest r _ hdl _ ih e he hd
    simp only [List.mem_cons] at he
    rcases he with rfl | he
    · refine ⟨by simp, fun h _ => ?_⟩
      rw [hdl] at h
      exact absurd h (by simp)
    · exact ih e he hd
  · intro _ a t rest r _ _ _ _ ih e he hd
    simp only [List.mem_cons] at he
    rcases he with rfl | he
    · exact ⟨by simp, fun _ _ => rfl⟩
    · exact ih e he hd
  · intro _ a t rest r _ _ hdead _ ih e he hd
    simp only [List.mem_cons] at he
    rcases he with rfl | he
    · rw [is_dead_clear_deadline] at hdead
      simp only at hd
      rw [hd] at hdead
      exact absurd hdead (by simp)
    · exact ih e he hd

/-- In a pass of `await/0`, an iteration that finds a dead task does not resume
it, and destroys it unless the deadline blocks or the pass stops at the cap. -/
theorem await_pass_dead (start : query → query × Bool) (now : Nat)
    (fuel cnt : Nat) (ts : List (Nat × query)) :
    ∀ e ∈ (await_pass start now fuel cnt ts).trace, is_dead e.found = true →
      e.act ≠ action.resumed ∧
      (deadline_blocks now e.found = false → e.act ≠ action.capped → e.act = action.destroyed) := by
  refine await_pass_induct start now
    (fun _ _ _ r => ∀ e ∈ r.trace, is_dead e.found = true →
      e.act ≠ action.resumed ∧
      (deadline_blocks now e.found = false → e.act ≠ action.capped → e.act = action.destroyed))
    ?_ ?_ ?_ ?_ ?_ ?_ ?_ fuel cnt ts
  · intro _ _ e he; simp at he
  · intro _ _ e he; simp at he
  · intro _ _ a t rest _ e he _
    simp only [List.mem_singleton] at he
    subst he
    exact ⟨by simp, fun _ h => absurd rfl h⟩
  · intro _ _ a t rest r _ hdl _ ih e he hd
    simp only [List.mem_cons] at he
    rcases he with rfl | he
    · refine ⟨by simp, fun h _ => ?_⟩
      rw [hdl] at h
      exact absurd h (by simp)
    · exact ih e he hd
  · intro _ _ a t rest r _ _ _ _ ih e he hd
    simp only [List.mem_cons] at he
    rcases he with rfl | he
    · exact ⟨by simp, fun _ _ => rfl⟩
    · exact ih e he hd
  · intro _ _ a t rest _ _ hdead _ e he hd
    simp only [List.mem_singleton] at he
    subst he
    rw [is_dead_clear_deadline] at hdead
    simp only at hd
    rw [hd] at hdead
    exact absurd hdead (by simp)
  · intro _ _ a t rest r _ _ hdead _ _ ih e he hd
    simp only [List.mem_cons] at he
    rcases he with rfl | he
    · rw [is_dead_clear_deadline] at hdead
      simp only at hd
      rw [hd] at hdead
      exact absurd hdead (by simp)
    · exact ih e he hd

/-- A dead task whose deadline does not block is destroyed and gone after a
pass of `wait/0` that gets to it. -/
theorem wait_pass_reaps_dead (start : query → query × Bool) (now : Nat) (a : Nat) (t : query)
    (hnb : deadline_blocks now t = false) (hdd : is_dead t = true)
    (ts : List (Nat × query)) (cnt : Nat) :
    ∀ pre post, ts = pre ++ (a, t) :: post → a ∉ addrs pre → a ∉ addrs post →
      cnt + spawn_count (pre ++ [(a, t)]) < fairness_cap →
      a ∉ addrs (wait_pass start now cnt ts).tasks ∧
      (⟨a, t, clear_deadline t, action.destroyed⟩ : event) ∈ (wait_pass start now cnt ts).trace := by
  refine wait_pass_induct start now
    (fun cnt ts r => ∀ pre post, ts = pre ++ (a, t) :: post → a ∉ addrs pre → a ∉ addrs post →
      cnt + spawn_count (pre ++ [(a, t)]) < fairness_cap →
      a ∉ addrs r.tasks ∧ (⟨a, t, clear_deadline t, action.destroyed⟩ : event) ∈ r.trace)
    ?_ ?_ ?_ ?_ ?_ ts cnt
  · intro _ pre post h; simp at h
  · intro c0 a0 t0 rest hcap pre post h _ _ hc
    rcases cons_eq_append_cases h with ⟨hp, hx, _⟩ | ⟨pre1, hp, _⟩
    · simp only [Prod.mk.injEq] at hx
      obtain ⟨rfl, rfl⟩ := hx
      subst hp
      rw [not_capped_of_count (by simpa using hc)] at hcap
      exact absurd hcap (by simp)
    · subst hp
      rw [not_capped_of_count (by simpa using hc)] at hcap
      exact absurd hcap (by simp)
  · intro c0 a0 t0 rest r _ hdl _ ih pre post h hpre hpost hc
    rcases cons_eq_append_cases h with ⟨_, hx, _⟩ | ⟨pre1, hp, hrest⟩
    · simp only [Prod.mk.injEq] at hx
      rw [hx.2, hnb] at hdl
      exact absurd hdl (by simp)
    · subst hp
      have hh := not_mem_addrs_cons hpre
      have hc2 : bump c0 t0 + spawn_count (pre1 ++ [(a, t)]) < fairness_cap := by
        rw [← spawn_count_cons a0]; simpa using hc
      obtain ⟨i1, i2⟩ := ih pre1 post hrest hh.2 hpost hc2
      refine ⟨?_, List.mem_cons_of_mem _ i2⟩
      simp only [addrs_cons, List.mem_cons, not_or]
      exact ⟨fun e => hh.1 e.symm, i1⟩
  · intro c0 a0 t0 rest r _ _ _ hr ih pre post h hpre hpost hc
    rcases cons_eq_append_cases h with ⟨hp, hx, hrest⟩ | ⟨pre1, hp, hrest⟩
    · simp only [Prod.mk.injEq] at hx
      obtain ⟨rfl, rfl⟩ := hx
      subst hrest
      have haddr := (wait_pass_addrs start now rest (bump c0 t0)).1
      rw [← hr] at haddr
      exact ⟨fun hmem => hpost (haddr.subset hmem), List.mem_cons_self _ _⟩
    · subst hp
      have hh := not_mem_addrs_cons hpre
      have hc2 : bump c0 t0 + spawn_count (pre1 ++ [(a, t)]) < fairness_cap := by
        rw [← spawn_count_cons a0]; simpa using hc
      obtain ⟨i1, i2⟩ := ih pre1 post hrest hh.2 hpost hc2
      exact ⟨i1, List.mem_cons_of_mem _ i2⟩
  · intro c0 a0 t0 rest r _ _ hdead _ ih pre post h hpre hpost hc
    rcases cons_eq_append_cases h with ⟨_, hx, _⟩ | ⟨pre1, hp, hrest⟩
    · simp only [Prod.mk.injEq] at hx
      rw [hx.2, is_dead_clear_deadline, hdd] at hdead
      exact absurd hdead (by simp)
    · subst hp
      have hh := not_mem_addrs_cons hpre
      have hc2 : bump c0 t0 + spawn_count (pre1 ++ [(a, t)]) < fairness_cap := by
        rw [← spawn_count_cons a0]; simpa using hc
      obtain ⟨i1, i2⟩ := ih pre1 post hrest hh.2 hpost hc2
      refine ⟨?_, List.mem_cons_of_mem _ i2⟩
      simp only [addrs_cons, List.mem_cons, not_or]
      exact ⟨fun e => hh.1 e.symm, i1⟩

/-- A pass of `wait/0` sets `did_something` exactly when it resumed a task. -/
theorem wait_pass_did_something (start : query → query × Bool) (now : Nat)
    (ts : List (Nat × query)) (cnt : Nat) :
    (wait_pass start now cnt ts).did_something = true ↔
      ∃ e ∈ (wait_pass start now cnt ts).trace, e.act = action.resumed := by
  refine wait_pass_induct start now
    (fun _ _ r => r.did_something = true ↔ ∃ e ∈ r.trace, e.act = action.resumed)
    ?_ ?_ ?_ ?_ ?_ ts cnt
  · intro _; simp
  · intro _ a t rest _; simp
  · intro _ a t rest r _ _ _ ih
    simp only [ih, List.mem_cons, exists_eq_or_imp]
    simp
  · intro _ a t rest r _ _ _ _ ih
    simp only [ih, List.mem_cons, exists_eq_or_imp]
    simp
  · intro _ a t rest r _ _ _ _ _
    simp

theorem bif_wait_0_zero (start : query → query × Bool) (clock : Nat → Nat) (k : Nat) (o : owner) :
    bif_wait_0 start clock 0 k o = ⟨[], o, none⟩ := by
  rw [bif_wait_0]

theorem bif_wait_0_exit (start : query → query × Bool) (clock : Nat → Nat) (fuel k : Nat)
    (o : owner) (h : (!o.tasks.isEmpty && !o.q.end_wait) = false) :
    bif_wait_0 start clock (fuel + 1) k o =
      ⟨[], { o with q := { o.q with end_wait := false } }, some true⟩ := by
  rw [bif_wait_0, if_neg (by simp [h])]

theorem bif_wait_0_pass (start : query → query × Bool) (clock : Nat → Nat) (fuel k : Nat)
    (o : owner) (h : (!o.tasks.isEmpty && !o.q.end_wait) = true) :
    bif_wait_0 start clock (fuel + 1) k o =
      { bif_wait_0 start clock fuel (k + 1)
          ⟨{ o.q with end_wait := o.q.end_wait || (wait_pass start (clock k) 0 o.tasks).end_wait },
            (wait_pass start (clock k) 0 o.tasks).tasks⟩ with
        passes := wait_pass start (clock k) 0 o.tasks ::
          (bif_wait_0 start clock fuel (k + 1)
            ⟨{ o.q with end_wait := o.q.end_wait ||
                (wait_pass start (clock k) 0 o.tasks).end_wait },
              (wait_pass start (clock k) 0 o.tasks).tasks⟩).passes } := by
  rw [bif_wait_0, if_pos h]

/-- Induction along a run of `wait/0`. -/
theorem bif_wait_0_induct (start : query → query × Bool) (clock : Nat → Nat)
    (P : Nat → Nat → owner → run → Prop)
    (hzero : ∀ k o, P 0 k o ⟨[], o, none⟩)
    (hexit : ∀ fuel k o, (!o.tasks.isEmpty && !o.q.end_wait) = false →
      P (fuel + 1) k o ⟨[], { o with q := { o.q with end_wait := false } }, some true⟩)
    (hpass : ∀ fuel k o r o1 rest, (!o.tasks.isEmpty && !o.q.end_wait) = true →
      r = wait_pass start (clock k) 0 o.tasks →
      o1 = (⟨{ o.q with end_wait := o.q.end_wait || r.end_wait }, r.tasks⟩ : owner) →
      rest = bif_wait_0 start clock fuel (k + 1) o1 →
      P fuel (k + 1) o1 rest →
      P (fuel + 1) k o { rest with passes := r :: rest.passes }) :
    ∀ (fuel k : Nat) (o : owner), P fuel k o (bif_wait_0 start clock fuel k o) := by
  intro fuel
  induction fuel with
  | zero => intro k o; rw [bif_wait_0_zero]; exact hzero k o
  | succ n ih =>
    intro k o
    cases h : (!o.tasks.isEmpty && !o.q.end_wait) with
    | false => rw [bif_wait_0_exit _ _ _ _ _ h]; exact hexit n k o h
    | true =>
      rw [bif_wait_0_pass _ _ _ _ _ h]
      exact hpass n k o _ _ _ h rfl rfl rfl (ih _ _)

/-- In a run of `wait/0`, a pass in which a task asserts the end-wait signal is
the last one, and the registry stays as that pass left it. -/
theorem wait_end_wait_last (start : query → query × Bool) (clock : Nat → Nat)
    (fuel k : Nat) (o : owner) :
    ∀ r ∈ (bif_wait_0 start clock fuel k o).passes, r.end_wait = true →
      (bif_wait_0 start clock fuel k o).passes.getLast? = some r ∧
      (bif_wait_0 start clock fuel k o).final.tasks = r.tasks := by
  refine bif_wait_0_induct start clock
    (fun _ _ _ rn => ∀ r ∈ rn.passes, r.end_wait = true →
      rn.passes.getLast? = some r ∧ rn.final.tasks = r.tasks)
    ?_ ?_ ?_ fuel k o
  · intro _ _ r hr; simp at hr
  · intro _ _ _ _ r hr; simp at hr
  · intro fuel k o r o1 rest hc hr ho1 hrest ih r0 hr0 hew
    simp only [List.mem_cons] at hr0
    rcases hr0 with rfl | hr0
    · have ho1ew : o1.q.end_wait = true := by rw [ho1]; simp [hew]
      cases fuel with
      | zero =>
        rw [hrest, bif_wait_0_zero]
        exact ⟨rfl, by rw [ho1]⟩
      | succ n =>
        rw [hrest, bif_wait_0_exit _ _ _ _ _ (by simp [ho1ew])]
        exact ⟨rfl, by rw [ho1]⟩
    · obtain ⟨i1, i2⟩ := ih r0 hr0 hew
      exact ⟨getLast?_cons_of_some _ i1, i2⟩

/-- Whenever `wait/0` returns, it returns true and leaves the end-wait signal
clear. -/
theorem wait_returns_cleared (start : query → query × Bool) (clock : Nat → Nat)
    (fuel k : Nat) (o : owner) :
    ∀ b, (bif_wait_0 start clock fuel k o).ret = some b →
      b = true ∧ (bif_wait_0 start clock fuel k o).final.q.end_wait = false := by
  refine bif_wait_0_induct start clock
    (fun _ _ _ rn => ∀ b, rn.ret = some b → b = true ∧ rn.final.q.end_wait = false)
    ?_ ?_ ?_ fuel k o
  · intro _ _ b h; simp at h
  · intro _ _ _ _ b h
    simp only [Option.some.injEq] at h
    exact ⟨h.symm, rfl⟩
  · intro _ _ _ _ _ _ _ _ _ _ ih b h
    exact ih b h

/-- Once a pass has asserted the end-wait signal, one more unit of fuel lets
`wait/0` return, with no further pass. -/
theorem wait_end_wait_returns (start : query → query × Bool) (clock : Nat → Nat)
    (fuel k : Nat) (o : owner) :
    (∃ r ∈ (bif_wait_0 start clock fuel k o).passes, r.end_wait = true) →
      (bif_wait_0 start clock (fuel + 1) k o).ret = some true ∧
      (bif_wait_0 start clock (fuel + 1) k o).passes = (bif_wait_0 start clock fuel k o).passes := by
  induction fuel generalizing k o with
  | zero => rintro ⟨r, hr, _⟩; simp [bif_wait_0_zero] at hr
  | succ n ih =>
    rintro ⟨r, hr, hew⟩
    cases hc : (!o.tasks.isEmpty && !o.q.end_wait) with
    | false => rw [bif_wait_0_exit _ _ _ _ _ hc] at hr; simp at hr
    | true =>
      rw [bif_wait_0_pass _ _ (n + 1) _ _ hc]
      rw [bif_wait_0_pass _ _ n _ _ hc] at hr ⊢
      simp only [List.mem_cons] at hr
      rcases hr with rfl | hr
      · have hexit := bif_wait_0_exit start clock n (k + 1)
          ⟨{ o.q with end_wait := o.q.end_wait || (wait_pass start (clock k) 0 o.tasks).end_wait },
            (wait_pass start (clock k) 0 o.tasks).tasks⟩ (by simp [hew])
        rw [hexit]
        cases n with
        | zero => simp [bif_wait_0_zero]
        | succ m =>
          have hexit2 := bif_wait_0_exit start clock m (k + 1)
            ⟨{ o.q with end_wait := o.q.end_wait ||
                (wait_pass start (clock k) 0 o.tasks).end_wait },
              (wait_pass start (clock k) 0 o.tasks).tasks⟩ (by simp [hew])
          rw [hexit2]
          exact ⟨rfl, rfl⟩
      · obtain ⟨i1, i2⟩ := ih (k + 1) _ ⟨r, hr, hew⟩
        exact ⟨i1, by simp only [i2]⟩

theorem not_capped_first (t : query) :
    (t.spawned && decide (bump 0 t ≥ fairness_cap)) = false := by
  cases hs : t.spawned <;> simp [bump, hs, fairness_cap]

/-- A pass of `wait/0` over a single task that is due resumes it and keeps
it. -/
theorem wait_pass_single_due (start : query → query × Bool) (now a : Nat) (t : query)
    (hdue : due_at now t) :
    wait_pass start now 0 [(a, t)] =
      ⟨[(a, (start (clear_deadline t)).1)], [⟨a, t, clear_deadline t, action.resumed⟩], true,
        (start (clear_deadline t)).2, true⟩ := by
  rw [wait_pass_resumed _ _ _ _ _ _ (not_capped_first t) hdue.1 hdue.2, wait_pass_nil]
  simp

/-- A pass of `wait/0` over a single dead task whose deadline does not block
destroys it. -/
theorem wait_pass_single_dead (start : query → query × Bool) (now a : Nat) (t : query)
    (hnb : deadline_blocks now t = false) (hdead : is_dead t = true) :
    wait_pass start now 0 [(a, t)] =
      ⟨[], [⟨a, t, clear_deadline t, action.destroyed⟩], false, false, true⟩ := by
  rw [wait_pass_destroyed _ _ _ _ _ _ (not_capped_first t) hnb
    (by rw [is_dead_clear_deadline]; exact hdead), wait_pass_nil]

theorem chain_cons (r : links) (p cur : Option Nat) (x : Nat) (xs : List Nat) :
    r.chain p cur (x :: xs) = true ↔
      cur = some x ∧ r.prev x = p ∧ r.chain (some x) (r.next x) xs = true := by
  simp [links.chain, and_assoc]

theorem chain_nil (r : links) (p cur : Option Nat) : r.chain p cur [] = true ↔ cur = none := by
  simp [links.chain]

theorem chain_head (r : links) (l : List Nat) :
    ∀ p cur, r.chain p cur l = true → cur = l.head? := by
  cases l with
  | nil => intro p cur h; simpa [chain_nil] using h
  | cons x xs => intro p cur h; simpa using ((chain_cons r p cur x xs).mp h).1

/-- The chain only depends on the pointers of the records it goes through. -/
theorem chain_congr (r r1 : links) (l : List Nat) :
    ∀ p cur, (∀ x ∈ l, r1.prev x = r.prev x ∧ r1.next x = r.next x) →
      r1.chain p cur l = r.chain p cur l := by
  induction l with
  | nil => intro p cur _; rfl
  | cons x xs ih =>
    intro p cur h
    obtain ⟨h1, h2⟩ := h x (by simp)
    simp only [links.chain, h1, h2]
    rw [ih (some x) (r.next x) (fun y hy => h y (by simp [hy]))]

theorem chain_walk (r : links) (l : List Nat) :
    ∀ p cur fuel, r.chain p cur l = true → l.length ≤ fuel → r.walk fuel cur = l := by
  induction l with
  | nil =>
    intro p cur fuel h _
    rw [chain_nil] at h
    subst h
    cases fuel <;> rfl
  | cons x xs ih =>
    intro p cur fuel h hf
    obtain ⟨h1, _, h3⟩ := (chain_cons r p cur x xs).mp h
    subst h1
    obtain ⟨n, rfl⟩ : ∃ n, fuel = n + 1 := ⟨fuel - 1, by simp at hf; omega⟩
    simp only [links.walk]
    rw [ih (some x) (r.next x) n h3 (by simp at hf; omega)]

theorem chain_consistent (r : links) (l : List Nat) :
    ∀ p cur, l.Nodup → r.chain p cur l = true →
      ∀ x ∈ l, ∀ n, r.next x = some n → n ∈ l ∧ r.prev n = some x := by
  induction l with
  | nil => intro p cur _ _ x hx; simp at hx
  | cons y ys ih =>
    intro p cur hnd h x hx n hn
    obtain ⟨_, _, h3⟩ := (chain_cons r p cur y ys).mp h
    have hnd2 : ys.Nodup := (List.nodup_cons.mp hnd).2
    simp only [List.mem_cons] at hx
    rcases hx with rfl | hx
    · have hh := chain_head r ys _ _ h3
      rw [hn] at hh
      cases ys with
      | nil => simp at hh
      | cons z zs =>
        simp only [List.head?_cons, Option.some.injEq] at hh
        subst hh
        exact ⟨by simp, ((chain_cons r _ _ n zs).mp h3).2.1⟩
    · obtain ⟨i1, i2⟩ := ih (some y) (r.next y) hnd2 h3 x hx n hn
      exact ⟨List.mem_cons_of_mem _ i1, i2⟩

/-- Pushing an unlinked task that is not registered makes it the head, in front
of the registry as it was. -/
theorem push_task_linked (r : links) (l : List Nat) (task : Nat) (h : linked r l)
    (hnew : task ∉ l) (hprev : r.prev task = none) : linked (r.push_task task) (task :: l) := by
  obtain ⟨hnd, hc⟩ := h
  refine ⟨List.nodup_cons.mpr ⟨hnew, hnd⟩, ?_⟩
  rw [chain_cons]
  have hhead := chain_head r l _ _ hc
  cases l with
  | nil =>
    simp only [List.head?_nil] at hhead
    simp [links.push_task, hhead, set_ptr, hprev, chain_nil]
  | cons y ys =>
    simp only [List.head?_cons] at hhead
    have hty : task ≠ y := fun e => hnew (by simp [e])
    obtain ⟨_, _, h3⟩ := (chain_cons r none r.head y ys).mp hc
    have hynd := List.nodup_cons.mp hnd
    refine ⟨rfl, by simp [links.push_task, hhead, set_ptr, hty, hprev], ?_⟩
    have hnext : (r.push_task task).next task = some y := by
      simp [links.push_task, set_ptr, hhead]
    rw [hnext, chain_cons]
    refine ⟨rfl, by simp [links.push_task, hhead, set_ptr], ?_⟩
    have hny : (r.push_task task).next y = r.next y := by
      simp [links.push_task, set_ptr, Ne.symm hty]
    rw [hny, chain_congr r (r.push_task task) ys]
    · exact h3
    · intro x hx
      have hxy : x ≠ y := fun e => hynd.1 (e ▸ hx)
      have hxt : x ≠ task := fun e => hnew (by simp [← e, hx])
      simp [links.push_task, hhead, set_ptr, hxy, hxt]

theorem push_task_prev_other (r : links) (l : List Nat) (task t : Nat) (h : linked r l)
    (ht : t ∉ l) : (r.push_task task).prev t = r.prev t := by
  have hhead := chain_head r l _ _ h.2
  cases l with
  | nil =>
    simp only [List.head?_nil] at hhead
    simp [links.push_task, hhead]
  | cons y ys =>
    simp only [List.head?_cons] at hhead
    have : t ≠ y := fun e => ht (by simp [e])
    simp [links.push_task, hhead, set_ptr, this]

theorem push_all_linked (ts : List Nat) :
    ∀ (r : links) (l : List Nat), linked r l → ts.Nodup →
      (∀ t ∈ ts, t ∉ l ∧ r.prev t = none) → linked (r.push_all ts) (ts.reverse ++ l) := by
  induction ts with
  | nil => intro r l h _ _; simpa [links.push_all] using h
  | cons t ts ih =>
    intro r l h hnd hfresh
    obtain ⟨hnt, hnd2⟩ := List.nodup_cons.mp hnd
    obtain ⟨h1, h2⟩ := hfresh t (by simp)
    have hl := push_task_linked r l t h h1 h2
    have := ih (r.push_task t) (t :: l) hl hnd2 (by
      intro u hu
      obtain ⟨u1, u2⟩ := hfresh u (by simp [hu])
      have hut : u ≠ t := fun e => hnt (e ▸ hu)
      refine ⟨by simp [hut, u1], ?_⟩
      rw [push_task_prev_other r l t u h u1]
      exact u2)
    simpa [links.push_all] using this

theorem chain_next_mid (r : links) (x : Nat) (post : List Nat) (pre : List Nat) :
    ∀ p cur, r.chain p cur (pre ++ x :: post) = true → r.next x = post.head? := by
  induction pre with
  | nil =>
    intro p cur h
    obtain ⟨_, _, h3⟩ := (chain_cons r p cur x post).mp h
    exact chain_head r post _ _ h3
  | cons y ys ih =>
    intro p cur h
    obtain ⟨_, _, h3⟩ := (chain_cons r p cur y (ys ++ x :: post)).mp h
    exact ih _ _ h3

theorem chain_prev_mid (r : links) (x : Nat) (post : List Nat) (pre : List Nat) :
    ∀ p cur, r.chain p cur (pre ++ x :: post) = true →
      (pre = [] ∧ r.prev x = p) ∨ ∃ z ∈ pre, r.prev x = some z := by
  induction pre with
  | nil =>
    intro p cur h
    exact Or.inl ⟨rfl, ((chain_cons r p cur x post).mp h).2.1⟩
  | cons y ys ih =>
    intro p cur h
    obtain ⟨_, _, h3⟩ := (chain_cons r p cur y (ys ++ x :: post)).mp h
    rcases ih _ _ h3 with ⟨_, h5⟩ | ⟨z, hz, h5⟩
    · exact Or.inr ⟨y, by simp, h5⟩
    · exact Or.inr ⟨z, by simp [hz], h5⟩

/-- The chain around a removed record: when `r1` differs from `r` only by the
`next` of the predecessor of `x` and the `prev` of its successor, patched as
`pop_task` does, the records before and after `x` are chained in `r1`. -/
theorem chain_without (r r1 : links) (x : Nat) (post : List Nat)
    (H1 : ∀ y, y ≠ x → post.head? ≠ some y → r1.prev y = r.prev y)
    (H2 : ∀ n, post.head? = some n → r1.prev n = r.prev x)
    (H3 : ∀ y, r.prev x ≠ some y → r1.next y = r.next y)
    (H4 : ∀ yl, r.prev x = some yl → r1.next yl = r.next x)
    (pre : List Nat) :
    ∀ p cur, (pre ++ x :: post).Nodup → (∀ y ∈ x :: post, p ≠ some y) →
      r.chain p cur (pre ++ x :: post) = true →
      r1.chain p (if pre = [] then r.next x else cur) (pre ++ post) = true := by
  induction pre with
  | nil =>
    intro p cur hnd hp h
    simp only [List.nil_append, if_true] at *
    obtain ⟨_, h2, h3⟩ := (chain_cons r p cur x post).mp h
    obtain ⟨hx, hnd2⟩ := List.nodup_cons.mp hnd
    cases post with
    | nil => rw [chain_nil] at h3 ⊢; exact h3
    | cons n post1 =>
      obtain ⟨g1, g2, g3⟩ := (chain_cons r _ _ n post1).mp h3
      obtain ⟨hn, _⟩ := List.nodup_cons.mp hnd2
      have hpn : r.prev x ≠ some n := by rw [h2]; exact hp n (by simp)
      rw [chain_cons]
      refine ⟨g1, by rw [H2 n rfl, h2], ?_⟩
      rw [H3 n hpn, chain_congr r r1 post1]
      · exact g3
      · intro z hz
        have hzx : z ≠ x := fun e => hx (by simp [← e, hz])
        have hzn : z ≠ n := fun e => hn (e ▸ hz)
        refine ⟨H1 z hzx (by simp [Ne.symm hzn]), H3 z ?_⟩
        rw [h2]
        exact hp z (by simp [hz])
  | cons y ys ih =>
    intro p cur hnd hp h
    simp only [List.cons_append] at hnd h ⊢
    obtain ⟨h1, h2, h3⟩ := (chain_cons r p cur y (ys ++ x :: post)).mp h
    obtain ⟨hy, hnd2⟩ := List.nodup_cons.mp hnd
    have hyx : y ≠ x := fun e => hy (by simp [e])
    have hypost : ∀ z ∈ x :: post, some y ≠ some z := by
      intro z hz e
      simp only [Option.some.injEq] at e
      exact hy (by rw [e]; simp only [List.mem_append]; exact Or.inr hz)
    have hyhead : post.head? ≠ some y := by
      intro e
      have : y ∈ post := List.mem_of_mem_head? e
      exact hy (by simp [this])
    have hrec := ih (some y) (r.next y) hnd2 hypost h3
    simp only [List.cons_ne_nil, if_false]
    rw [chain_cons]
    refine ⟨h1, by rw [H1 y hyx hyhead, h2], ?_⟩
    cases ys with
    | nil =>
      simp only [List.nil_append, if_true] at hrec ⊢
      have hpx : r.prev x = some y := ((chain_cons r _ _ x post).mp h3).2.1
      rw [H4 y hpx]
      exact hrec
    | cons z zs =>
      simp only [List.cons_ne_nil, if_false] at hrec
      have hne : r.prev x ≠ some y := by
        rcases chain_prev_mid r x post (z :: zs) _ _ h3 with ⟨hh, _⟩ | ⟨w, hw, hpw⟩
        · simp at hh
        · rw [hpw]
          intro e
          simp only [Option.some.injEq] at e
          exact hy (by rw [← e]; simp only [List.mem_append]; exact Or.inl hw)
      rw [H3 y hne]
      exact hrec

theorem pop_task_next (r : links) (x : Nat) :
    (r.pop_task x).2.next x = r.next x ∧ (r.pop_task x).1 = r.next x := by
  unfold links.pop_task
  cases hp : r.prev x with
  | none => simp
  | some yl =>
    by_cases hx : x = yl <;> simp [set_ptr, hx]

/-- Popping a registered task removes it from the chain, keeps the others in
their order and returns its successor. -/
theorem pop_task_linked (r : links) (pre : List Nat) (x : Nat) (post : List Nat)
    (h : linked r (pre ++ x :: post)) :
    linked (r.pop_task x).2 (pre ++ post) ∧ (r.pop_task x).1 = post.head? := by
  obtain ⟨hnd, hc⟩ := h
  have hnext : r.next x = post.head? := chain_next_mid r x post pre _ _ hc
  have hret := (pop_task_next r x).2
  have hn1 : ∀ y, (r.pop_task x).2.next y =
      (match r.prev x with
        | some p => set_ptr r.next p (r.next x)
        | none => r.next) y := fun _ => rfl
  have hn1x : (match r.prev x with
        | some p => set_ptr r.next p (r.next x)
        | none => r.next) x = r.next x := by
    cases hp : r.prev x with
    | none => rfl
    | some yl => by_cases hx : x = yl <;> simp [set_ptr, hx]
  have hp1 : ∀ y, (r.pop_task x).2.prev y =
      (match r.next x with
        | some n => set_ptr r.prev n (r.prev x)
        | none => r.prev) y := by
    intro y
    have hd : (r.pop_task x).2.prev y = (match (match r.prev x with
        | some p => set_ptr r.next p (r.next x)
        | none => r.next) x with
        | some n => set_ptr r.prev n (r.prev x)
        | none => r.prev) y := rfl
    rw [hd, hn1x]
  have H1 : ∀ y, y ≠ x → post.head? ≠ some y → (r.pop_task x).2.prev y = r.prev y := by
    intro y _ hy
    rw [hp1, hnext]
    cases hh : post.head? with
    | none => rfl
    | some n =>
      have : y ≠ n := fun e => hy (by rw [hh, e])
      simp [set_ptr, this]
  have H2 : ∀ n, post.head? = some n → (r.pop_task x).2.prev n = r.prev x := by
    intro n hn
    rw [hp1, hnext, hn]
    simp [set_ptr]
  have H3 : ∀ y, r.prev x ≠ some y → (r.pop_task x).2.next y = r.next y := by
    intro y hy
    rw [hn1]
    cases hp : r.prev x with
    | none => rfl
    | some yl =>
      have : y ≠ yl := fun e => hy (by rw [hp, e])
      simp [set_ptr, this]
  have H4 : ∀ yl, r.prev x = some yl → (r.pop_task x).2.next yl = r.next x := by
    intro yl hyl
    rw [hn1, hyl]
    simp [set_ptr]
  have hchain := chain_without r (r.pop_task x).2 x post H1 H2 H3 H4 pre none r.head hnd
    (by intro y _; simp) hc
  have hnd2 : (pre ++ post).Nodup := by
    have := List.nodup_append.mp hnd
    have hxp := List.nodup_cons.mp this.2.1
    refine List.nodup_append.mpr ⟨this.1, hxp.2, ?_⟩
    intro a ha hb
    exact this.2.2 ha (List.mem_cons_of_mem _ hb)
  refine ⟨⟨hnd2, ?_⟩, by rw [hret, hnext]⟩
  have hhead : (r.pop_task x).2.head = (if pre = [] then r.next x else r.head) := by
    have hh := chain_head r _ _ _ hc
    have hd : (r.pop_task x).2.head = (if r.head = some x then (match r.prev x with
        | some p => set_ptr r.next p (r.next x)
        | none => r.next) x else r.head) := rfl
    rw [hd, hn1x]
    cases pre with
    | nil =>
      simp only [List.nil_append, List.head?_cons] at hh
      simp [hh]
    | cons y ys =>
      simp only [List.cons_append, List.head?_cons] at hh
      have hyx : y ≠ x := by
        intro e
        have := (List.nodup_cons.mp hnd).1
        exact this (by simp [e])
      simp [hh, hyx]
  rw [hhead]
  exact hchain

/-! ## The claims -/

/-- C1 (FIFO and round trip): after the terms `vs` have been sent, in order, to
an empty mailbox (the one `send/1` delivers to), as many `recv/1` calls with an
unbound pattern all succeed, deliver `vs` in the order of sending, and leave
the mailbox empty with read cursor and write mark back at 0. One loop
iteration per call is enough. -/
theorem fifo_round_trip (q : query) (parent : Option query) (vs : List (List cell))
    (pat : List cell → Bool) (fuel : Nat)
    (hpat : ∀ t, pat t = true) (hwf : ∀ v ∈ vs, wf_term v)
    (hempty : (dstq q parent).qp = 0 ∧ (dstq q parent).popp = 0) :
    ∃ q', recv_n pat (fuel + 1) vs.length
        (dstq (send_all q parent vs).1 (send_all q parent vs).2) = some (vs, q') ∧
      q'.popp = 0 ∧ q'.qp = 0 := by
  have h0 : holds (dstq q parent) [] := (holds_nil_iff _).mpr hempty
  have h1 := send_all_holds vs q parent [] h0 hwf
  simp only [List.nil_append] at h1
  obtain ⟨q', hr, hq'⟩ := recv_n_holds pat hpat fuel vs _ h1
  have := (holds_nil_iff q').mp hq'
  exact ⟨q', hr, this.2, this.1⟩

/-- Instance of C1: `a` then `b` sent to an empty mailbox come back as `a` then
`b`. -/
theorem fifo_round_trip_witness :
    (∀ t, unbound t = true) ∧ (∀ v ∈ [msg_a, msg_b], wf_term v) ∧
      ((dstq fresh none).qp = 0 ∧ (dstq fresh none).popp = 0) ∧
      ∃ q', recv_n unbound (0 + 1) [msg_a, msg_b].length
          (dstq (send_all fresh none [msg_a, msg_b]).1 (send_all fresh none [msg_a, msg_b]).2)
            = some ([msg_a, msg_b], q') ∧
        q'.popp = 0 ∧ q'.qp = 0 :=
  ⟨fun _ => rfl, by decide, by decide,
    fifo_round_trip fresh none [msg_a, msg_b] unbound 0 (fun _ => rfl) (by decide) (by decide)⟩

/-- C2, evaluated at the failing input: on the mailbox holding the single
message `a`, `recv/1` with a pattern that unifies only with `b` is still
looping after any number of iterations; it never returns false. -/
theorem recv_no_match_never_returns : ∀ fuel : Nat, bif_recv_1 (only msg_b) fuel mbox_a = none := by
  intro fuel
  exact recv_no_match_runs_on (only msg_b) fuel mbox_a [msg_a] (by decide) (by simp) (by decide)

/-- C3 as stated fails: on the mailbox `[a, b, c]`, `recv/1` with pattern `b`
delivers `b` and leaves `c` queued before `a`, not `a` before `c`. -/
theorem recv_reorders_unmatched :
    ∃ q', bif_recv_1 (only msg_b) 2 mbox_abc = some (true, some msg_b, q') ∧
      holds q' [msg_c, msg_a] ∧ ¬ holds q' [msg_a, msg_c] :=
  ⟨_, rfl, by decide, by decide⟩

/-- C3, amended: when the mailbox holds `pre ++ m :: post`, `m` being the
earliest message the pattern unifies with, `recv/1` succeeds, delivers `m` and
removes exactly it; every other message stays queued, those behind `m` first
and in their order, then those that were in front of `m`, in their order. One
iteration per message up to `m` is enough. -/
theorem recv_first_match_rotates (pat : List cell → Bool) (q : query)
    (pre : List (List cell)) (m : List cell) (post : List (List cell)) (fuel : Nat)
    (h : holds q (pre ++ m :: post)) (hpre : ∀ x ∈ pre, pat x = false) (hm : pat m = true)
    (hfuel : pre.length < fuel) :
    ∃ q', bif_recv_1 pat fuel q = some (true, some m, q') ∧ holds q' (post ++ pre) :=
  recv_scan pat pre q m post fuel h hpre hm hfuel

/-- Instance of amended C3 on the mailbox `[a, b, c]` with pattern `b`. -/
theorem recv_first_match_rotates_witness :
    holds mbox_abc ([msg_a] ++ msg_b :: [msg_c]) ∧ (∀ x ∈ [msg_a], only msg_b x = false) ∧
      only msg_b msg_b = true ∧ [msg_a].length < 2 ∧
      ∃ q', bif_recv_1 (only msg_b) 2 mbox_abc = some (true, some msg_b, q') ∧
        holds q' ([msg_c] ++ [msg_a]) :=
  ⟨by decide, by decide, by decide, by decide,
    recv_first_match_rotates (only msg_b) mbox_abc [msg_a] msg_b [msg_c] 2
      (by decide) (by decide) (by decide) (by decide)⟩

/-- C4 as stated fails: a single task spawned by `task/1` that calls
`end_wait/0` and runs to its end on its first resumption makes `wait/0` return
true while the task is still registered. -/
theorem wait_stops_on_end_wait :
    (bif_wait_0 start_end_wait (fun _ => 0) 5 0 (spawn_all ⟨fresh, []⟩ [(1, 0)])).ret = some true ∧
      (bif_wait_0 start_end_wait (fun _ => 0) 5 0 (spawn_all ⟨fresh, []⟩ [(1, 0)])).final.tasks
        = [(1, { spawned_task with yielded := false })] := by
  decide

/-- C4, amended: after any number of tasks have been spawned by `task/1` into
the empty registry of a parent whose end-wait signal is clear, if every task
runs to its end the first time it is resumed without asserting the end-wait
signal, then `wait/0` returns true with an empty registry (and a clear end-wait
signal); twice as many passes as tasks, plus the final test, are enough,
whatever the clock reads. -/
theorem wait_drains_spawned (start : query → query × Bool) (clock : Nat → Nat) (q : query)
    (specs : List (Nat × Nat)) (fuel : Nat)
    (hfin : finishes start) (hq : q.end_wait = false) (hfuel : 2 * specs.length < fuel) :
    (bif_wait_0 start clock fuel 0 (spawn_all ⟨q, []⟩ specs)).ret = some true ∧
      (bif_wait_0 start clock fuel 0 (spawn_all ⟨q, []⟩ specs)).final.tasks = [] ∧
      (bif_wait_0 start clock fuel 0 (spawn_all ⟨q, []⟩ specs)).final.q.end_wait = false := by
  obtain ⟨h1, h2, h3, _⟩ := spawn_all_tasks specs ⟨q, []⟩ (by simp)
  refine wait_drains start hfin clock fuel 0 _ h1 (by rw [h3]; exact hq) ?_
  simp only [load] at h2
  omega

/-- Instance of amended C4 with 70 tasks, more than the fairness cap. -/
theorem wait_drains_spawned_witness :
    finishes start_finish ∧ fresh.end_wait = false ∧
      2 * ((List.range 70).map (fun i => (i, i))).length < 141 ∧
      (bif_wait_0 start_finish (fun k => k) 141 0
          (spawn_all ⟨fresh, []⟩ ((List.range 70).map (fun i => (i, i))))).ret = some true ∧
      (bif_wait_0 start_finish (fun k => k) 141 0
          (spawn_all ⟨fresh, []⟩ ((List.range 70).map (fun i => (i, i))))).final.tasks = [] ∧
      (bif_wait_0 start_finish (fun k => k) 141 0
          (spawn_all ⟨fresh, []⟩ ((List.range 70).map (fun i => (i, i))))).final.q.end_wait
            = false :=
  ⟨fun _ => ⟨rfl, rfl, rfl⟩, rfl, by simp,
    wait_drains_spawned start_finish (fun k => k) fresh ((List.range 70).map (fun i => (i, i))) 141
      (fun _ => ⟨rfl, rfl, rfl⟩) rfl (by simp)⟩

/-- C5: in one pass of `wait/0` and in one pass of `await/0` (however far the
latter gets), over any registry, at most `K = 64` tasks with `spawned` set are
resumed. -/
theorem pass_respects_fairness_cap (start : query → query × Bool) (now fuel : Nat)
    (ts : List (Nat × query)) :
    fairness_cap = 64 ∧
      resumed_spawned (wait_pass start now 0 ts).trace ≤ fairness_cap ∧
      resumed_spawned (await_pass start now fuel 0 ts).trace ≤ fairness_cap := by
  have h1 := wait_pass_resumed_bound start now ts 0 (by decide)
  have h2 := await_pass_resumed_bound start now fuel 0 ts (by decide)
  exact ⟨rfl, by omega, by omega⟩

/-- C6 as stated fails: with 64 tasks registered by `task/1` that yield again
each time they are resumed, the task at address 63, due and cut off by the cap,
is resumed in no pass of `wait/0`, however long the loop runs and whatever the
clock reads. -/
theorem wait_starves_behind_cap :
    ¬ ∃ (clock : Nat → Nat) (fuel : Nat),
      ∃ p ∈ (bif_wait_0 start_again clock fuel 0 ⟨fresh, full_house⟩).passes,
        ∃ e ∈ p.trace, e.addr = 63 ∧ e.act = action.resumed := by
  rintro ⟨clock, fuel, p, hp, e, he, hea, hact⟩
  have := full_house_starves clock fuel 0 p hp e he hea
  rw [this] at hact
  exact absurd hact (by decide)

/-- C6, amended: every pass of `wait/0` starts again at the head of the
registry, so a due task is resumed by a pass exactly when fewer than 64 tasks
with `spawned` set stand at or before it (itself included); a task cut off by
the cap is resumed by a later pass once enough of the tasks ahead of it have
left the registry, and not while they stay. -/
theorem wait_pass_resumes_iff_within_cap (start : query → query × Bool) (now : Nat)
    (pre : List (Nat × query)) (a : Nat) (t : query) (post : List (Nat × query))
    (hpre : a ∉ addrs pre) (hdue : due_at now t) :
    (∃ e ∈ (wait_pass start now 0 (pre ++ (a, t) :: post)).trace,
        e.addr = a ∧ e.act = action.resumed) ↔
      spawn_count (pre ++ [(a, t)]) < fairness_cap := by
  constructor
  · rintro ⟨e, he, hea, hact⟩
    by_contra hge
    have := wait_pass_cut_off start now a t _ 0 pre post rfl hpre (by decide)
      (by omega) e he hea
    rw [this] at hact
    exact absurd hact (by decide)
  · intro hlt
    exact ⟨_, wait_pass_reaches start now a t hdue.1 hdue.2 _ 0 pre post rfl (by omega),
      rfl, rfl⟩

/-- Instance of amended C6: a freshly spawned task behind a sleeping one. -/
theorem wait_pass_resumes_iff_within_cap_witness :
    (2 : Nat) ∉ addrs [(1, sleeper)] ∧ due_at 10 spawned_task ∧
      ((∃ e ∈ (wait_pass start_again 10 0 ([(1, sleeper)] ++ (2, spawned_task) :: [])).trace,
          e.addr = 2 ∧ e.act = action.resumed) ↔
        spawn_count ([(1, sleeper)] ++ [(2, spawned_task)]) < fairness_cap) :=
  ⟨by decide, by decide,
    wait_pass_resumes_iff_within_cap start_again 10 [(1, sleeper)] 2 spawned_task []
      (by decide) (by decide)⟩

/-- C7 as stated fails: in a registry of 64 tasks registered by `task/1` whose
last task alone carries the token 7, that task is still registered (marked as
failed) after `$cancel_future(7)` and one pass of `wait/0`. -/
theorem cancelled_task_survives_pass :
    (63, { spawned_task with future := 7, error := true }) ∈
      (wait_pass start_again 0 0
        (bif_sys_cancel_future_1 ⟨fresh, marked_house⟩ 7).2.tasks).tasks := by
  decide

/-- C7, amended: when the task at address `a` is the first of the registry to
carry the token (in particular when it is the only one) and fewer than 64
tasks with `spawned` set stand at or before it (itself included), then after
`$cancel_future` with that token and one pass of `wait/0` no task of the
registry has the address `a`, whatever the deadline of the task and the clock
reading. -/
theorem cancel_then_pass_reaps (start : query → query × Bool) (now : Nat) (q : query)
    (future : Nat) (pre : List (Nat × query)) (a : Nat) (t : query) (post : List (Nat × query))
    (ht : t.future = future) (hfirst : ∀ p ∈ pre, p.2.future ≠ future)
    (hpre : a ∉ addrs pre) (hpost : a ∉ addrs post)
    (hcap : spawn_count (pre ++ [(a, t)]) < fairness_cap) :
    a ∉ addrs (wait_pass start now 0
      (bif_sys_cancel_future_1 ⟨q, pre ++ (a, t) :: post⟩ future).2.tasks).tasks := by
  have hscan : (bif_sys_cancel_future_1 ⟨q, pre ++ (a, t) :: post⟩ future).2.tasks =
      pre ++ (a, { t with error := true }) :: post :=
    cancel_scan_append future a t post ht pre hfirst
  rw [hscan]
  refine wait_pass_reaps start now a { t with error := true } rfl _ 0 pre post rfl hpre hpost ?_
  have : spawn_count (pre ++ [(a, { t with error := true })]) = spawn_count (pre ++ [(a, t)]) := by
    by_cases hs : t.spawned = true <;> simp [spawn_count, List.filter_append, List.filter_cons, hs]
  omega

/-- Instance of amended C7: the cancelled task sleeps on a deadline far ahead,
between two other tasks. -/
theorem cancel_then_pass_reaps_witness :
    ({ sleeper with future := 7 } : query).future = 7 ∧
      (∀ p ∈ [((1 : Nat), spawned_task)], p.2.future ≠ 7) ∧
      (2 : Nat) ∉ addrs [(1, spawned_task)] ∧ (2 : Nat) ∉ addrs [(3, spawned_task)] ∧
      spawn_count ([(1, spawned_task)] ++ [(2, { sleeper with future := 7 })]) < fairness_cap ∧
      (2 : Nat) ∉ addrs (wait_pass start_again 10 0
        (bif_sys_cancel_future_1
          ⟨fresh, [(1, spawned_task)] ++ (2, { sleeper with future := 7 }) :: [(3, spawned_task)]⟩
          7).2.tasks).tasks :=
  ⟨rfl, by decide, by decide, by decide, by decide,
    cancel_then_pass_reaps start_again 10 fresh 7 [(1, spawned_task)] 2
      { sleeper with future := 7 } [(3, spawned_task)] rfl (by decide) (by decide) (by decide)
      (by decide)⟩

/-- C8 as stated fails: a pass of `wait/0` or of `await/0` taken when the clock
reads exactly the deadline (50) of a yielded task steps over the task and
leaves its deadline in place. -/
theorem deadline_not_due_at_equal :
    wait_pass start_again 50 0 [(1, sleeper)] =
        ⟨[(1, sleeper)], [⟨1, sleeper, sleeper, action.skipped⟩], false, false, true⟩ ∧
      await_pass start_again 50 5 0 [(1, sleeper)] =
        ⟨[(1, sleeper)], [⟨1, sleeper, sleeper, action.skipped⟩], false, false, true⟩ := by
  decide

/-- C8, amended: a yielded task without error, with a continuation and a
deadline `d > 0`, is resumed with its deadline cleared by every pass that gets
to it when the clock reads `now > d`, strictly: a pass of `wait/0` gets to it
when fewer than 64 spawned tasks stand at or before it, and any iteration of a
pass of `wait/0` or `await/0` that finds such a record, other than the one that
stops at the cap, clears the deadline and resumes the task. -/
theorem resumes_once_past_deadline (start : query → query × Bool) (now fuel : Nat)
    (pre : List (Nat × query)) (a : Nat) (t : query) (post : List (Nat × query))
    (hp : past_deadline now t) (hcap : spawn_count (pre ++ [(a, t)]) < fairness_cap) :
    (⟨a, t, { t with tmo_msecs := 0 }, action.resumed⟩ : event) ∈
        (wait_pass start now 0 (pre ++ (a, t) :: post)).trace ∧
      ∀ (ts : List (Nat × query)) (e : event),
        e ∈ (wait_pass start now 0 ts).trace ∨ e ∈ (await_pass start now fuel 0 ts).trace →
        e.act ≠ action.capped → e.found = t →
        e.act = action.resumed ∧ e.handed = { t with tmo_msecs := 0 } := by
  constructor
  · have := wait_pass_reaches start now a t (past_deadline_not_blocked hp)
      (past_deadline_alive hp) _ 0 pre post rfl (by omega)
    rwa [past_deadline_clear hp] at this
  · intro ts e he hne hfound
    subst hfound
    rcases he with he | he
    · exact wait_pass_past_deadline start now ts 0 e he hne hp
    · exact await_pass_past_deadline start now fuel 0 ts e he hne hp

/-- Instance of amended C8: deadline 50, pass at 60. -/
theorem resumes_once_past_deadline_witness :
    past_deadline 60 sleeper ∧ spawn_count ([] ++ [(1, sleeper)]) < fairness_cap ∧
      ((⟨1, sleeper, { sleeper with tmo_msecs := 0 }, action.resumed⟩ : event) ∈
          (wait_pass start_again 60 0 ([] ++ (1, sleeper) :: [])).trace ∧
        ∀ (ts : List (Nat × query)) (e : event),
          e ∈ (wait_pass start_again 60 0 ts).trace ∨
            e ∈ (await_pass start_again 60 5 0 ts).trace →
          e.act ≠ action.capped → e.found = sleeper →
          e.act = action.resumed ∧ e.handed = { sleeper with tmo_msecs := 0 }) :=
  ⟨by decide, by decide,
    resumes_once_past_deadline start_again 60 5 [] 1 sleeper [] (by decide) (by decide)⟩

/-- C9: a pass of `wait/0` or of `await/0` taken at `now < d` leaves a task
without error whose deadline is `d ≠ 0` in place: the registry still has the
same record (deadline and flags included) at the same address, between what is
left of the tasks before it and what is left of the tasks after it, and no
iteration resumed or destroyed it. -/
theorem not_resumed_before_deadline (start : query → query × Bool) (now fuel : Nat)
    (pre : List (Nat × query)) (a : Nat) (t : query) (post : List (Nat × query))
    (hpre : a ∉ addrs pre) (hpost : a ∉ addrs post)
    (herr : t.error = false) (htmo : t.tmo_msecs ≠ 0) (hnow : now < t.tmo_msecs) :
    left_in_place a t pre post (wait_pass start now 0 (pre ++ (a, t) :: post)) ∧
      left_in_place a t pre post (await_pass start now fuel 0 (pre ++ (a, t) :: post)) :=
  ⟨wait_pass_before_deadline start now a t herr htmo hnow _ 0 pre post rfl hpre hpost,
    await_pass_before_deadline start now a t herr htmo hnow fuel 0 _ pre post rfl hpre hpost⟩

/-- Instance of C9: deadline 50, pass at 10, between a task that is resumed and
a task that is destroyed. -/
theorem not_resumed_before_deadline_witness :
    (2 : Nat) ∉ addrs [(1, spawned_task)] ∧ (2 : Nat) ∉ addrs [(3, fresh)] ∧
      sleeper.error = false ∧ sleeper.tmo_msecs ≠ 0 ∧ 10 < sleeper.tmo_msecs ∧
      left_in_place 2 sleeper [(1, spawned_task)] [(3, fresh)]
        (wait_pass start_finish 10 0 ([(1, spawned_task)] ++ (2, sleeper) :: [(3, fresh)])) ∧
      left_in_place 2 sleeper [(1, spawned_task)] [(3, fresh)]
        (await_pass start_finish 10 9 0 ([(1, spawned_task)] ++ (2, sleeper) :: [(3, fresh)])) :=
  ⟨by decide, by decide, rfl, by decide, by decide,
    not_resumed_before_deadline start_finish 10 9 [(1, spawned_task)] 2 sleeper [(3, fresh)]
      (by decide) (by decide) rfl (by decide) (by decide)⟩

/-- C10: for a task, `do_yield` with the `int` argument `D`, at a clock reading
of `usec` microseconds (`now = usec / 1000`), sets `yielded`, records the
deadline `now + D` when `D > 0` and `now + 1` otherwise, which is strictly
later than `now`, and returns false unless the resumption point cannot be
recorded, in which case the resource error is raised. -/
theorem do_yield_records_deadline (q : query) (msecs : Int) (usec : Nat) (push_ok : Bool)
    (htask : q.is_task = true) (husec : usec < 2 ^ 64)
    (hint : -2 ^ 31 ≤ msecs ∧ msecs < 2 ^ 31) :
    (do_yield q msecs usec push_ok).2.yielded = true ∧
      ((do_yield q msecs usec push_ok).2.tmo_msecs : Int) =
        (if msecs > 0 then ((usec / 1000 : Nat) : Int) + msecs else ((usec / 1000 : Nat) : Int) + 1) ∧
      usec / 1000 < (do_yield q msecs usec push_ok).2.tmo_msecs ∧
      (do_yield q msecs usec push_ok).1 =
        (if push_ok then outcome.ret false else outcome.resource_error) := by
  have hnow : usec / 1000 < 2 ^ 64 / 1000 + 1 := by omega
  have hsmall : usec / 1000 + (if msecs > 0 then msecs.toNat else 1) < 2 ^ 64 := by
    split <;> omega
  have hres : (do_yield q msecs usec push_ok).2.tmo_msecs =
      usec / 1000 + (if msecs > 0 then msecs.toNat else 1) := by
    have hmod := Nat.mod_eq_of_lt hsmall
    cases push_ok <;> simp only [do_yield, htask] <;> simpa using hmod
  refine ⟨?_, ?_, ?_, ?_⟩
  · cases push_ok <;> simp [do_yield, htask]
  · rw [hres]
    split <;> omega
  · rw [hres]
    split <;> omega
  · cases push_ok <;> simp [do_yield, htask]

/-- Instance of C10: a task yields for 50 ms at a clock reading of 10 ms. -/
theorem do_yield_records_deadline_witness :
    spawned_task.is_task = true ∧ 10000 < 2 ^ 64 ∧
      ((-2 : Int) ^ 31 ≤ 50 ∧ (50 : Int) < 2 ^ 31) ∧
      (do_yield spawned_task 50 10000 true).2.yielded = true ∧
      ((do_yield spawned_task 50 10000 true).2.tmo_msecs : Int) =
        (if (50 : Int) > 0 then ((10000 / 1000 : Nat) : Int) + 50
          else ((10000 / 1000 : Nat) : Int) + 1) ∧
      10000 / 1000 < (do_yield spawned_task 50 10000 true).2.tmo_msecs ∧
      (do_yield spawned_task 50 10000 true).1 =
        (if true then outcome.ret false else outcome.resource_error) :=
  ⟨rfl, by norm_num, by norm_num,
    do_yield_records_deadline spawned_task 50 10000 true rfl (by norm_num) (by norm_num)⟩

/-- C11 as stated fails: a task that calls `yield/0` when the clock reads 10 ms
is left with the deadline 11, not 0, and a pass of `wait/0` taken at 10 ms or at
11 ms steps over it. -/
theorem yield_sets_deadline :
    (bif_yield_0 spawned_task 10000 true).2.tmo_msecs = 11 ∧
      (wait_pass start_again 10 0 [(1, (bif_yield_0 spawned_task 10000 true).2)]).trace.map
        (fun e => e.act) = [action.skipped] ∧
      (wait_pass start_again 11 0 [(1, (bif_yield_0 spawned_task 10000 true).2)]).trace.map
        (fun e => e.act) = [action.skipped] := by
  decide

/-- C11, amended: for a task, a first (non-retry) call of `yield/0` at a clock
reading of `usec` microseconds (`now = usec / 1000`) sets `yielded` and records
the deadline `now + 1`, the minimum `do_yield` grants; a task without error is
then stepped over by the scheduler exactly as long as the clock reads at most
`now + 1`. The call returns false unless the resumption point cannot be
recorded. -/
theorem yield_suspends_for_a_millisecond (q : query) (usec : Nat) (push_ok : Bool)
    (htask : q.is_task = true) (hretry : q.retry = false) (husec : usec < 2 ^ 64) :
    (bif_yield_0 q usec push_ok).2.yielded = true ∧
      (bif_yield_0 q usec push_ok).2.tmo_msecs = usec / 1000 + 1 ∧
      (q.error = false → ∀ now,
        deadline_blocks now (bif_yield_0 q usec push_ok).2 = true ↔ now ≤ usec / 1000 + 1) ∧
      (bif_yield_0 q usec push_ok).1 =
        (if push_ok then outcome.ret false else outcome.resource_error) := by
  have hsmall : usec / 1000 + 1 < 2 ^ 64 := by omega
  have hmod := Nat.mod_eq_of_lt hsmall
  have htmo : (bif_yield_0 q usec push_ok).2.tmo_msecs = usec / 1000 + 1 := by
    cases push_ok <;> simp only [bif_yield_0, hretry, do_yield, htask] <;> simpa using hmod
  have herr : (bif_yield_0 q usec push_ok).2.error = q.error := by
    cases push_ok <;> simp [bif_yield_0, hretry, do_yield, htask]
  refine ⟨?_, htmo, ?_, ?_⟩
  · cases push_ok <;> simp [bif_yield_0, hretry, do_yield, htask]
  · intro he now
    simp [deadline_blocks, htmo, herr, he]
  · cases push_ok <;> simp [bif_yield_0, hretry, do_yield, htask]

/-- Instance of amended C11: `yield/0` at a clock reading of 10 ms. -/
theorem yield_suspends_for_a_millisecond_witness :
    spawned_task.is_task = true ∧ spawned_task.retry = false ∧ 10000 < 2 ^ 64 ∧
      (bif_yield_0 spawned_task 10000 true).2.yielded = true ∧
      (bif_yield_0 spawned_task 10000 true).2.tmo_msecs = 10000 / 1000 + 1 ∧
      (spawned_task.error = false → ∀ now,
        deadline_blocks now (bif_yield_0 spawned_task 10000 true).2 = true ↔
          now ≤ 10000 / 1000 + 1) ∧
      (bif_yield_0 spawned_task 10000 true).1 =
        (if true then outcome.ret false else outcome.resource_error) :=
  ⟨rfl, rfl, by norm_num,
    yield_suspends_for_a_millisecond spawned_task 10000 true rfl rfl (by norm_num)⟩

/-- C12: when the clone `v` of the argument is a well-formed term and the
destination mailbox holds `ms`, `send/1` returns true and leaves the sender
yielded. With a parent that is not done the parent's mailbox holds `ms ++ [v]`
afterwards, the parent is otherwise unchanged, and the sender is unchanged but
for `yielded`; without such a parent the sender's own mailbox holds
`ms ++ [v]`, the sender is otherwise unchanged but for `yielded`, and the
parent, if any, is unchanged. -/
theorem send_appends_one_message (q : query) (parent : Option query) (v : List cell)
    (ms : List (List cell)) (hv : wf_term v) (hms : holds (dstq q parent) ms) :
    (bif_send_1 q parent v).1 = true ∧ (bif_send_1 q parent v).2.1.yielded = true ∧
      (∀ p, parent = some p → p.done = false →
        (bif_send_1 q parent v).2.1 = { q with yielded := true } ∧
        ∃ p1, (bif_send_1 q parent v).2.2 = some p1 ∧ holds p1 (ms ++ [v]) ∧
          p1 = { p with queue := p1.queue, qp := p1.qp }) ∧
      ((parent = none ∨ ∃ p, parent = some p ∧ p.done = true) →
        (bif_send_1 q parent v).2.2 = parent ∧ holds (bif_send_1 q parent v).2.1 (ms ++ [v]) ∧
        (bif_send_1 q parent v).2.1 =
          { q with yielded := true, queue := (bif_send_1 q parent v).2.1.queue,
                   qp := (bif_send_1 q parent v).2.1.qp }) := by
  have happ := alloc_on_queuen_holds v 0 hms (by rw [term_at_zero_of_wf hv]; exact hv)
  rw [term_at_zero_of_wf hv] at happ
  cases parent with
  | none =>
    simp only [dstq] at hms happ
    refine ⟨rfl, rfl, by simp, ?_⟩
    intro _
    exact ⟨rfl, holds_congr happ rfl rfl rfl, rfl⟩
  | some p =>
    cases hd : p.done with
    | false =>
      simp only [dstq, hd, Bool.not_false, if_true] at hms happ
      refine ⟨by simp [bif_send_1, hd], by simp [bif_send_1, hd], ?_, ?_⟩
      · intro p0 hp0 _
        simp only [Option.some.injEq] at hp0
        subst hp0
        refine ⟨by simp [bif_send_1, hd], alloc_on_queuen p v 0, by simp [bif_send_1, hd],
          happ, rfl⟩
      · rintro (h | ⟨p0, hp0, hd0⟩)
        · simp at h
        · simp only [Option.some.injEq] at hp0
          subst hp0
          rw [hd] at hd0
          exact absurd hd0 (by simp)
    | true =>
      simp only [dstq, hd, Bool.not_true, Bool.false_eq_true, if_false] at hms happ
      refine ⟨by simp [bif_send_1, hd], by simp [bif_send_1, hd], ?_, ?_⟩
      · intro p0 hp0 hd0
        simp only [Option.some.injEq] at hp0
        subst hp0
        rw [hd] at hd0
        exact absurd hd0 (by simp)
      · intro _
        refine ⟨by simp [bif_send_1, hd], ?_, by simp [bif_send_1, hd, alloc_on_queuen]⟩
        have : (bif_send_1 q (some p) v).2.1 = { alloc_on_queuen q v 0 with yielded := true } := by
          simp [bif_send_1, hd]
        rw [this]
        exact holds_congr happ rfl rfl rfl

/-- Instance of C12: a child sends `b` to a parent whose mailbox holds `a`. -/
theorem send_appends_one_message_witness :
    wf_term msg_b ∧ holds (dstq spawned_task (some mbox_a)) [msg_a] ∧
      (bif_send_1 spawned_task (some mbox_a) msg_b).1 = true ∧
      (bif_send_1 spawned_task (some mbox_a) msg_b).2.1.yielded = true ∧
      (∀ p, some mbox_a = some p → p.done = false →
        (bif_send_1 spawned_task (some mbox_a) msg_b).2.1 = { spawned_task with yielded := true } ∧
        ∃ p1, (bif_send_1 spawned_task (some mbox_a) msg_b).2.2 = some p1 ∧
          holds p1 ([msg_a] ++ [msg_b]) ∧ p1 = { p with queue := p1.queue, qp := p1.qp }) ∧
      ((some mbox_a = none ∨ ∃ p, some mbox_a = some p ∧ p.done = true) →
        (bif_send_1 spawned_task (some mbox_a) msg_b).2.2 = some mbox_a ∧
        holds (bif_send_1 spawned_task (some mbox_a) msg_b).2.1 ([msg_a] ++ [msg_b]) ∧
        (bif_send_1 spawned_task (some mbox_a) msg_b).2.1 =
          { spawned_task with yielded := true, queue := (bif_send_1 spawned_task (some mbox_a) msg_b).2.1.queue,
                              qp := (bif_send_1 spawned_task (some mbox_a) msg_b).2.1.qp }) :=
  ⟨by decide, by decide,
    send_appends_one_message spawned_task (some mbox_a) msg_b [msg_a] (by decide) (by decide)⟩

/-- C13 as stated fails: with a task that suspends again with a deadline each
time it is resumed, the first pass of `await/0` resumes the task, steps over it
and ends without `did_something`, and `await/0` never returns success, however
long it polls. -/
theorem await_ignores_yield_with_deadline :
    ((bif_await_0 start_doze (fun _ => 0) 5 3 true ⟨fresh, [(1, spawned_task)]⟩).passes.map
        (fun r => (r.trace.map (fun e => e.act), r.did_something)) =
      [([action.resumed, action.skipped], false), ([action.skipped], false),
        ([action.skipped], false)]) ∧
      ¬ ∃ (inner fuel : Nat),
        (bif_await_0 start_doze (fun _ => 0) inner fuel true ⟨fresh, [(1, spawned_task)]⟩).ret
          = some (outcome.ret true) := by
  refine ⟨by decide, ?_⟩
  rintro ⟨inner, fuel, hret⟩
  obtain ⟨he, hts, _⟩ := bif_await_0_true _ _ _ _ _ _ hret
  obtain ⟨_, i2, i3⟩ := await_loop_stop start_doze (fun _ => 0) inner fuel 0 [(1, spawned_task)]
  obtain ⟨r, hlast, hd⟩ := i2 he hts
  obtain ⟨n, c, l, hr⟩ := i3 r (List.mem_of_getLast?_eq_some hlast)
  subst hr
  obtain ⟨_, e, _, _, htmo, _⟩ := (await_pass_stop start_doze n inner c l).1 hd
  simp [start_doze] at htmo

/-- C13, amended: `await/0` stops polling as soon as a task it has just resumed
comes back yielded with no deadline set (`tmo_msecs = 0`): that resumption is
the last iteration of the last pass, the task stays in the registry, and
`await/0` returns success (if its resumption point can be recorded). A task
that suspends again with a deadline does not stop the polling: whenever
`await/0` returns success, the last iteration of its last pass resumed a task
that came back yielded and without deadline. -/
theorem await_stops_on_yield_without_deadline (start : query → query × Bool)
    (clock : Nat → Nat) (inner fuel : Nat) (push_ok : Bool) (o : owner) :
    (∀ r ∈ (bif_await_0 start clock inner fuel push_ok o).passes, ∀ e ∈ r.trace,
        e.act = action.resumed → (start e.handed).1.tmo_msecs = 0 →
        (start e.handed).1.yielded = true →
        r.trace.getLast? = some e ∧
        (bif_await_0 start clock inner fuel push_ok o).passes.getLast? = some r ∧
        (bif_await_0 start clock inner fuel push_ok o).ret =
          some (if push_ok then outcome.ret true else outcome.resource_error) ∧
        (e.addr, (start e.handed).1) ∈
          (bif_await_0 start clock inner fuel push_ok o).final.tasks) ∧
      ((bif_await_0 start clock inner fuel push_ok o).ret = some (outcome.ret true) →
        ∃ r e, (bif_await_0 start clock inner fuel push_ok o).passes.getLast? = some r ∧
          r.trace.getLast? = some e ∧ e.act = action.resumed ∧
          (start e.handed).1.tmo_msecs = 0 ∧ (start e.handed).1.yielded = true) := by
  obtain ⟨h1, h2, h3, _⟩ := bif_await_0_spec start clock inner fuel push_ok o
  obtain ⟨i1, i2, i3⟩ := await_loop_stop start clock inner fuel 0 o.tasks
  refine ⟨?_, ?_⟩
  · rw [h1, h2, h3]
    intro r hr e he hact htmo hy
    obtain ⟨n, c, l, hrr⟩ := i3 r hr
    subst hrr
    obtain ⟨hd, hlast⟩ := (await_pass_stop start n inner c l).2 e he hact htmo hy
    obtain ⟨_, e1, hlast1, _, _, _, hmem⟩ := (await_pass_stop start n inner c l).1 hd
    rw [hlast] at hlast1
    simp only [Option.some.injEq] at hlast1
    subst hlast1
    obtain ⟨j1, j2, j3, j4⟩ := i1 _ hr hd
    refine ⟨hlast, j2, ?_, by rw [j3]; exact hmem⟩
    rw [if_neg (by simp [j1]), if_neg j4]
    cases push_ok <;> rfl
  · intro hret
    obtain ⟨he, hts, _⟩ := bif_await_0_true _ _ _ _ _ _ hret
    rw [h1]
    obtain ⟨r, hlast, hd⟩ := i2 he hts
    obtain ⟨n, c, l, hr⟩ := i3 r (List.mem_of_getLast?_eq_some hlast)
    subst hr
    obtain ⟨_, e, h4, h5, h6, h7, _⟩ := (await_pass_stop start n inner c l).1 hd
    exact ⟨_, e, hlast, h4, h5, h6, h7⟩

/-- Instance of amended C13: a task that comes back yielded without deadline
makes `await/0` return true after its first resumption. -/
theorem await_stops_on_yield_without_deadline_witness :
    (bif_await_0 start_again (fun _ => 0) 5 3 true ⟨fresh, [(1, spawned_task)]⟩).ret =
        some (if true = true then outcome.ret true else outcome.resource_error) ∧
      (1, (start_again spawned_task).1) ∈
        (bif_await_0 start_again (fun _ => 0) 5 3 true ⟨fresh, [(1, spawned_task)]⟩).final.tasks :=
  ⟨((await_stops_on_yield_without_deadline start_again (fun _ => 0) 5 3 true
      ⟨fresh, [(1, spawned_task)]⟩).1 (await_pass start_again 0 5 0 [(1, spawned_task)])
      (by decide) ⟨1, spawned_task, spawned_task, action.resumed⟩ (by decide) rfl rfl rfl).2.2.1,
    by decide⟩

/-- C14: once its polling loop has ended, `await/0` returns false exactly when
the registry is empty. On an empty registry it returns false at once, without
a pass (so without resuming a task or sleeping) and without pushing a choice
point; when it returns true the registry is not empty and a choice point has
been pushed, and a choice point is pushed in no other case. -/
theorem await_fails_iff_registry_empty (start : query → query × Bool) (clock : Nat → Nat)
    (inner fuel : Nat) (push_ok : Bool) (o : owner) :
    ((bif_await_0 start clock inner fuel push_ok o).ret ≠ none →
        ((bif_await_0 start clock inner fuel push_ok o).ret = some (outcome.ret false) ↔
          (bif_await_0 start clock inner fuel push_ok o).final.tasks = [])) ∧
      (o.tasks = [] →
        (bif_await_0 start clock inner (fuel + 1) push_ok o).ret = some (outcome.ret false) ∧
        (bif_await_0 start clock inner (fuel + 1) push_ok o).passes = [] ∧
        (bif_await_0 start clock inner (fuel + 1) push_ok o).pushed = false ∧
        (bif_await_0 start clock inner (fuel + 1) push_ok o).final.tasks = []) ∧
      ((bif_await_0 start clock inner fuel push_ok o).ret = some (outcome.ret true) →
        (bif_await_0 start clock inner fuel push_ok o).final.tasks ≠ [] ∧
        (bif_await_0 start clock inner fuel push_ok o).pushed = true) ∧
      ((bif_await_0 start clock inner fuel push_ok o).pushed = true →
        (bif_await_0 start clock inner fuel push_ok o).ret = some (outcome.ret true)) := by
  obtain ⟨_, h2, h3, h4⟩ := bif_await_0_spec start clock inner fuel push_ok o
  refine ⟨?_, ?_, ?_, ?_⟩
  · rw [h2, h3]
    intro hne
    by_cases he : (await_loop start clock inner fuel 0 o.tasks).ended = false
    · rw [if_pos he] at hne; exact absurd rfl hne
    · rw [if_neg he]
      by_cases hts : (await_loop start clock inner fuel 0 o.tasks).tasks = []
      · rw [if_pos hts]; simp [hts]
      · rw [if_neg hts]
        cases push_ok <;> simp [hts]
  · intro ho
    obtain ⟨g1, g2, g3, g4⟩ := bif_await_0_spec start clock inner (fuel + 1) push_ok o
    have hl : await_loop start clock inner (fuel + 1) 0 o.tasks = ⟨[], [], true⟩ := by
      rw [ho]; simp [await_loop]
    rw [g1, g2, g3, g4, hl]
    simp
  · intro hret
    obtain ⟨he, hts, hp⟩ := bif_await_0_true _ _ _ _ _ _ hret
    rw [h2, h4]
    refine ⟨hts, ?_⟩
    cases hl : (await_loop start clock inner fuel 0 o.tasks).tasks with
    | nil => exact absurd hl hts
    | cons p rest => simp [he, hp]
  · rw [h3, h4]
    intro hp
    simp only [Bool.and_eq_true, Bool.not_eq_true', List.isEmpty_eq_false] at hp
    obtain ⟨⟨he, hts⟩, hpo⟩ := hp
    rw [if_neg (by simp [he]), if_neg hts, if_pos hpo]

/-- C15 as stated fails: a task that is not yielded and carries no error but a
deadline ahead of the clock is stepped over by a pass of `wait/0` and of
`await/0`, not destroyed, and stays registered. -/
theorem dead_task_with_deadline_is_kept :
    is_dead idle_sleeper = true ∧
      wait_pass start_again 10 0 [(1, idle_sleeper)] =
        ⟨[(1, idle_sleeper)], [⟨1, idle_sleeper, idle_sleeper, action.skipped⟩],
          false, false, true⟩ ∧
      await_pass start_again 10 5 0 [(1, idle_sleeper)] =
        ⟨[(1, idle_sleeper)], [⟨1, idle_sleeper, idle_sleeper, action.skipped⟩],
          false, false, true⟩ := by
  decide

/-- C15, amended: in a pass of `wait/0` and in a pass of `await/0`, a task with
`error` set, or not yielded, or without continuation is never resumed; an
iteration that gets to it destroys it, unless the pass stops at the cap in
front of it or the task carries no error and a deadline that the clock has not
passed, in which case it is stepped over. In a pass of `wait/0` such a task,
when its deadline does not block and fewer than 64 spawned tasks stand at or
before it, is gone from the registry after the pass. -/
theorem dead_task_never_resumed (start : query → query × Bool) (now fuel : Nat)
    (pre : List (Nat × query)) (a : Nat) (t : query) (post : List (Nat × query))
    (hdead : t.error = true ∨ t.yielded = false ∨ t.curr_cell = none) :
    (∀ (ts : List (Nat × query)) (e : event),
        e ∈ (wait_pass start now 0 ts).trace ∨ e ∈ (await_pass start now fuel 0 ts).trace →
        e.found = t →
        e.act ≠ action.resumed ∧
        (deadline_blocks now t = false → e.act ≠ action.capped → e.act = action.destroyed)) ∧
      (deadline_blocks now t = false → a ∉ addrs pre → a ∉ addrs post →
        spawn_count (pre ++ [(a, t)]) < fairness_cap →
        a ∉ addrs (wait_pass start now 0 (pre ++ (a, t) :: post)).tasks ∧
        (⟨a, t, clear_deadline t, action.destroyed⟩ : event) ∈
          (wait_pass start now 0 (pre ++ (a, t) :: post)).trace) := by
  have hd : is_dead t = true := by
    rcases hdead with h | h | h <;> simp [is_dead, h]
  refine ⟨?_, ?_⟩
  · intro ts e he hf
    subst hf
    rcases he with he | he
    · exact wait_pass_dead start now ts 0 e he hd
    · exact await_pass_dead start now fuel 0 ts e he hd
  · intro hnb hpre hpost hc
    exact wait_pass_reaps_dead start now a t hnb hd _ 0 pre post rfl hpre hpost (by omega)

/-- Instance of amended C15: a task that has run to its end, between two
others, is destroyed by a pass of `wait/0`. -/
theorem dead_task_never_resumed_witness :
    (fresh.error = true ∨ fresh.yielded = false ∨ fresh.curr_cell = none) ∧
      (2 : Nat) ∉ addrs (wait_pass start_again 10 0
        ([(1, spawned_task)] ++ (2, fresh) :: [(3, spawned_task)])).tasks :=
  ⟨by decide,
    ((dead_task_never_resumed start_again 10 5 [(1, spawned_task)] 2 fresh [(3, spawned_task)]
      (by decide)).2 (by decide) (by decide) (by decide) (by decide)).1⟩

/-- C16 as stated fails: one pass of `wait/0` over a registry holding a single
freshly spawned task whose goal fails at once resumes the task and leaves it
registered. -/
theorem failed_task_survives_first_pass :
    wait_pass start_finish 0 0 (bif_task_n ⟨fresh, []⟩ 1 0).2.tasks =
      ⟨[(1, { spawned_task with yielded := false })],
        [⟨1, spawned_task, spawned_task, action.resumed⟩], true, false, true⟩ := by
  decide

/-- C16, amended: for a registry holding a single freshly spawned task whose
run ends at once when resumed (it comes back dead, without deadline and
without asserting the end-wait signal), the first pass of `wait/0` resumes the
task and leaves it registered, the second pass destroys it and leaves the
registry empty, and `wait/0` returns true with an empty registry after these
two passes. -/
theorem failed_task_reaped_by_second_pass (start : query → query × Bool) (clock : Nat → Nat)
    (q : query) (a goal fuel : Nat)
    (hdead : is_dead
      (start { query_create_task goal with yielded := true, spawned := true }).1 = true)
    (htmo : (start { query_create_task goal with yielded := true, spawned := true }).1.tmo_msecs = 0)
    (hew : (start { query_create_task goal with yielded := true, spawned := true }).2 = false)
    (hq : q.end_wait = false) :
    (wait_pass start (clock 0) 0 (bif_task_n ⟨q, []⟩ a goal).2.tasks).tasks =
        [(a, (start { query_create_task goal with yielded := true, spawned := true }).1)] ∧
      (wait_pass start (clock 1) 0
        (wait_pass start (clock 0) 0 (bif_task_n ⟨q, []⟩ a goal).2.tasks).tasks).tasks = [] ∧
      (bif_wait_0 start clock (fuel + 3) 0 (bif_task_n ⟨q, []⟩ a goal).2).ret = some true ∧
      (bif_wait_0 start clock (fuel + 3) 0 (bif_task_n ⟨q, []⟩ a goal).2).final.tasks = [] ∧
      (bif_wait_0 start clock (fuel + 3) 0 (bif_task_n ⟨q, []⟩ a goal).2).passes.map
        (fun r => r.trace.map (fun e => e.act)) = [[action.resumed], [action.destroyed]] := by
  have ht : (bif_task_n ⟨q, []⟩ a goal).2 =
      ⟨q, [(a, { query_create_task goal with yielded := true, spawned := true })]⟩ := rfl
  have hclear : clear_deadline { query_create_task goal with yielded := true, spawned := true } =
      { query_create_task goal with yielded := true, spawned := true } := rfl
  have hnb : ∀ now, deadline_blocks now
      (start { query_create_task goal with yielded := true, spawned := true }).1 = false := by
    intro now; simp [deadline_blocks, htmo]
  have h1 := wait_pass_single_due start (clock 0) a
    { query_create_task goal with yielded := true, spawned := true } ⟨rfl, rfl⟩
  rw [hclear] at h1
  have h2 := wait_pass_single_dead start (clock 1) a _ (hnb (clock 1)) hdead
  rw [ht]
  refine ⟨by rw [h1], by rw [h1, h2], ?_⟩
  have hrun : bif_wait_0 start clock (fuel + 3) 0
      ⟨q, [(a, { query_create_task goal with yielded := true, spawned := true })]⟩ =
      ⟨[wait_pass start (clock 0) 0
          [(a, { query_create_task goal with yielded := true, spawned := true })],
        wait_pass start (clock 1) 0
          [(a, (start { query_create_task goal with yielded := true, spawned := true }).1)]],
        ⟨{ q with end_wait := false }, []⟩, some true⟩ := by
    rw [bif_wait_0_pass _ _ _ _ _ (by simp [hq])]
    simp only [h1, hew, hq, Bool.or_false]
    rw [bif_wait_0_pass _ _ _ _ _ (by simp)]
    simp only [h2, Bool.or_false]
    rw [bif_wait_0_exit _ _ _ _ _ (by simp)]
  rw [hrun, h1, h2]
  exact ⟨rfl, rfl, rfl⟩

/-- Instance of amended C16 with a task that runs to its end when resumed. -/
theorem failed_task_reaped_by_second_pass_witness :
    is_dead (start_finish { query_create_task 0 with yielded := true, spawned := true }).1
        = true ∧
      (start_finish { query_create_task 0 with yielded := true, spawned := true }).1.tmo_msecs
        = 0 ∧
      (start_finish { query_create_task 0 with yielded := true, spawned := true }).2 = false ∧
      fresh.end_wait = false ∧
      (bif_wait_0 start_finish (fun k => k) (0 + 3) 0 (bif_task_n ⟨fresh, []⟩ 1 0).2).ret
        = some true ∧
      (bif_wait_0 start_finish (fun k => k) (0 + 3) 0 (bif_task_n ⟨fresh, []⟩ 1 0).2).final.tasks
        = [] :=
  ⟨rfl, rfl, rfl, rfl,
    (failed_task_reaped_by_second_pass start_finish (fun k => k) fresh 1 0 0 rfl rfl rfl
      rfl).2.2.1,
    (failed_task_reaped_by_second_pass start_finish (fun k => k) fresh 1 0 0 rfl rfl rfl
      rfl).2.2.2.1⟩

/-- C17: `end_wait/0` returns true, leaves the caller as it is and sets the
end-wait signal of the parent, if there is one. A `wait/0` entered with the
signal asserted returns true at once, without a pass and with the registry
untouched, and clears the signal. When a task asserts the signal during a
pass, that pass is the last one: the loop stops at the end of it with the
registry as the pass left it, and `wait/0` returns. Whenever `wait/0` returns
it returns true with the signal clear, so that a later `wait/0` on a non-empty
registry makes a pass again. -/
theorem end_wait_stops_wait (start : query → query × Bool) (clock : Nat → Nat)
    (fuel k : Nat) (o : owner) (q : query) (parent : Option query) :
    ((bif_end_wait_0 q parent).1 = true ∧ (bif_end_wait_0 q parent).2.1 = q ∧
        (bif_end_wait_0 q parent).2.2 = parent.map (fun p => { p with end_wait := true })) ∧
      (o.q.end_wait = true →
        bif_wait_0 start clock (fuel + 1) k o =
          ⟨[], { o with q := { o.q with end_wait := false } }, some true⟩) ∧
      (∀ r ∈ (bif_wait_0 start clock fuel k o).passes, r.end_wait = true →
        (bif_wait_0 start clock fuel k o).passes.getLast? = some r ∧
        (bif_wait_0 start clock fuel k o).final.tasks = r.tasks ∧
        (bif_wait_0 start clock (fuel + 1) k o).ret = some true ∧
        (bif_wait_0 start clock (fuel + 1) k o).passes = (bif_wait_0 start clock fuel k o).passes) ∧
      (∀ b, (bif_wait_0 start clock fuel k o).ret = some b →
        b = true ∧ (bif_wait_0 start clock fuel k o).final.q.end_wait = false ∧
        ((bif_wait_0 start clock fuel k o).final.tasks ≠ [] → ∀ n j,
          (bif_wait_0 start clock (n + 1) j (bif_wait_0 start clock fuel k o).final).passes ≠ [])) := by
  refine ⟨?_, ?_, ?_, ?_⟩
  · cases parent <;> exact ⟨rfl, rfl, rfl⟩
  · intro h
    exact bif_wait_0_exit start clock fuel k o (by simp [h])
  · intro r hr hew
    obtain ⟨i1, i2⟩ := wait_end_wait_last start clock fuel k o r hr hew
    obtain ⟨j1, j2⟩ := wait_end_wait_returns start clock fuel k o ⟨r, hr, hew⟩
    exact ⟨i1, i2, j1, j2⟩
  · intro b hb
    obtain ⟨i1, i2⟩ := wait_returns_cleared start clock fuel k o b hb
    refine ⟨i1, i2, ?_⟩
    intro hne n j
    rw [bif_wait_0_pass _ _ _ _ _ (by simp [i2, hne])]
    simp

/-- Instance of C17: the first of two tasks calls `end_wait/0`; the pass is
completed and `wait/0` returns with both tasks registered and the signal
clear. -/
theorem end_wait_stops_wait_witness :
    (bif_wait_0 start_end_wait (fun _ => 0) 1 0
        ⟨fresh, [(1, spawned_task), (2, spawned_task)]⟩).passes.getLast? =
        some (wait_pass start_end_wait 0 0 [(1, spawned_task), (2, spawned_task)]) ∧
      (bif_wait_0 start_end_wait (fun _ => 0) (1 + 1) 0
        ⟨fresh, [(1, spawned_task), (2, spawned_task)]⟩).ret = some true :=
  ⟨((end_wait_stops_wait start_end_wait (fun _ => 0) 1 0
      ⟨fresh, [(1, spawned_task), (2, spawned_task)]⟩ fresh none).2.2.1
      (wait_pass start_end_wait 0 0 [(1, spawned_task), (2, spawned_task)])
      (by decide) (by decide)).1,
    ((end_wait_stops_wait start_end_wait (fun _ => 0) 1 0
      ⟨fresh, [(1, spawned_task), (2, spawned_task)]⟩ fresh none).2.2.1
      (wait_pass start_end_wait 0 0 [(1, spawned_task), (2, spawned_task)])
      (by decide) (by decide)).2.2.1⟩

/-- C18: when the registry is the chain of the records at the addresses `l`
(head first), the head has no predecessor, `x.next.prev = x` for every record
of the chain with a successor, and the traversal from the head visits `l`.
`push_task` of an unlinked task that is not registered makes it the head in
front of `l`, so that tasks pushed one after the other are traversed last
pushed first; `pop_task` of a registered task, wherever it stands, leaves the
chain of the other records in their order and returns the successor of the
removed one. Both leave a registry that is such a chain again. -/
theorem registry_links (r : links) (l : List Nat) (h : linked r l) :
    ((∀ hd, r.head = some hd → r.prev hd = none) ∧
        (∀ x ∈ l, ∀ n, r.next x = some n → r.prev n = some x) ∧
        (∀ fuel, l.length ≤ fuel → r.walk fuel r.head = l)) ∧
      (∀ task, task ∉ l → r.prev task = none → linked (r.push_task task) (task :: l)) ∧
      (∀ ts : List Nat, ts.Nodup → (∀ t ∈ ts, t ∉ l ∧ r.prev t = none) →
        linked (r.push_all ts) (ts.reverse ++ l)) ∧
      (∀ pre x post, l = pre ++ x :: post →
        linked (r.pop_task x).2 (pre ++ post) ∧ (r.pop_task x).1 = post.head?) := by
  refine ⟨⟨?_, ?_, ?_⟩, ?_, ?_, ?_⟩
  · intro hd hhd
    have hh := chain_head r l _ _ h.2
    cases l with
    | nil => simp [hhd] at hh
    | cons y ys =>
      simp only [List.head?_cons] at hh
      rw [hhd] at hh
      simp only [Option.some.injEq] at hh
      subst hh
      exact ((chain_cons r none r.head hd ys).mp h.2).2.1
  · intro x hx n hn
    exact (chain_consistent r l _ _ h.1 h.2 x hx n hn).2
  · intro fuel hf
    exact chain_walk r l _ _ fuel h.2 hf
  · intro task h1 h2
    exact push_task_linked r l task h h1 h2
  · intro ts h1 h2
    exact push_all_linked ts r l h h1 h2
  · intro pre x post hl
    subst hl
    exact pop_task_linked r pre x post h

/-- Instance of C18: the tasks 1, 2, 3 pushed in this order are chained as
3, 2, 1; popping 2 leaves 3, 1 and returns 1. -/
theorem registry_links_witness :
    linked (no_links.push_all [1, 2, 3]) [3, 2, 1] ∧
      (no_links.push_all [1, 2, 3]).walk 5 (no_links.push_all [1, 2, 3]).head = [3, 2, 1] ∧
      linked ((no_links.push_all [1, 2, 3]).pop_task 2).2 ([3] ++ [1]) ∧
      ((no_links.push_all [1, 2, 3]).pop_task 2).1 = [1].head? :=
  ⟨by decide,
    (registry_links (no_links.push_all [1, 2, 3]) [3, 2, 1] (by decide)).1.2.2 5 (by decide),
    (registry_links (no_links.push_all [1, 2, 3]) [3, 2, 1] (by decide)).2.2.2 [3] 2 [1] rfl⟩

/-- C19 as stated fails: a pass of `wait/0` that destroys a task and resumes
none leaves `did_something` clear and is followed by the sleep. -/
theorem wait_sleeps_after_reaping :
    wait_pass start_again 0 0 [(1, fresh)] =
        ⟨[], [⟨1, fresh, fresh, action.destroyed⟩], false, false, true⟩ ∧
      backs_off (wait_pass start_again 0 0 [(1, fresh)]) = true := by
  decide

/-- C19, amended: a pass of `wait/0` is followed by the 1 ms sleep exactly when
it resumed no task; destroying tasks does not count. A pass that resumed at
least one task goes on to the next pass without sleeping. -/
theorem wait_backs_off_iff_nothing_resumed (start : query → query × Bool) (now : Nat)
    (ts : List (Nat × query)) :
    backs_off (wait_pass start now 0 ts) = true ↔
      ∀ e ∈ (wait_pass start now 0 ts).trace, e.act ≠ action.resumed := by
  have h := wait_pass_did_something start now ts 0
  unfold backs_off
  constructor
  · intro hb e he hact
    have : (wait_pass start now 0 ts).did_something = true := h.mpr ⟨e, he, hact⟩
    rw [this] at hb
    exact absurd hb (by simp)
  · intro hall
    cases hd : (wait_pass start now 0 ts).did_something with
    | false => rfl
    | true =>
      obtain ⟨e, he, hact⟩ := h.mp hd
      exact absurd hact (hall e he)

/-- C20: after any sequence of appends of well-formed terms and of `pop_queue`
calls on a mailbox that was empty, the mailbox holds the messages appended and
not yet popped, laid out from the read cursor (which stands at the start of
the oldest of them) up to the write mark; either both cursors are 0 and
nothing is queued, or the read cursor is below the write mark. `pop_queue`
then returns no message exactly when nothing is queued; a message it returns
is the oldest one, read at the read cursor, below the write mark and not
beyond it. After the pop both cursors are 0 exactly when at most one message
was queued; with two or more the write mark stays and the read cursor
advances. -/
theorem cursor_invariant (q0 : query) (ops : List mbox_op)
    (hq0 : q0.qp = 0 ∧ q0.popp = 0) (hwf : wf_ops ops) :
    holds (run_ops q0 ops) (queued_after [] ops) ∧
      (((run_ops q0 ops).popp = 0 ∧ (run_ops q0 ops).qp = 0 ∧ queued_after [] ops = []) ∨
        ((run_ops q0 ops).popp < (run_ops q0 ops).qp ∧ queued_after [] ops ≠ [])) ∧
      ((pop_queue (run_ops q0 ops)).1 = none ↔ queued_after [] ops = []) ∧
      (∀ c, (pop_queue (run_ops q0 ops)).1 = some c →
        c = (run_ops q0 ops).popp ∧ c < (run_ops q0 ops).qp ∧
        c + ((run_ops q0 ops).queue.getD c default).nbr_cells ≤ (run_ops q0 ops).qp ∧
        (queued_after [] ops).head? = some (term_at (run_ops q0 ops).queue c)) ∧
      (((pop_queue (run_ops q0 ops)).2.popp = 0 ∧ (pop_queue (run_ops q0 ops)).2.qp = 0) ↔
        (queued_after [] ops).length ≤ 1) ∧
      (2 ≤ (queued_after [] ops).length →
        (pop_queue (run_ops q0 ops)).2.qp = (run_ops q0 ops).qp ∧
        (run_ops q0 ops).popp < (pop_queue (run_ops q0 ops)).2.popp) := by
  have h := run_ops_holds ops q0 [] ((holds_nil_iff q0).mpr hq0) hwf
  exact ⟨h, holds_cursors h⟩

/-- Instance of C20: `a` and `b` appended, `a` popped. -/
theorem cursor_invariant_witness :
    (fresh.qp = 0 ∧ fresh.popp = 0) ∧
      wf_ops [mbox_op.append msg_a, mbox_op.append msg_b, mbox_op.pop] ∧
      holds (run_ops fresh [mbox_op.append msg_a, mbox_op.append msg_b, mbox_op.pop]) [msg_b] :=
  ⟨by decide, by intro t ht; simp at ht; rcases ht with rfl | rfl <;> decide,
    (cursor_invariant fresh [mbox_op.append msg_a, mbox_op.append msg_b, mbox_op.pop]
      (by decide) (by intro t ht; simp at ht; rcases ht with rfl | rfl <;> decide)).1⟩

end Tasks
